import Mathlib

/-!
A basic shell: tokenizer, word validation, command segmentation and process
orchestration.

Shallow embedding of `Solution/shellSol.c`.  The C program reads a line of
tokens, cuts it into commands at `|`, resolves `<` and `>` redirections, forks
one child per command and decides whether to wait.

* A `char*` is an `Option String`: `none` is `NULL`.  The line is the array
  `words`, a list of such slots; a read past its end yields `NULL`.  The
  program reads no slot behind the first `NULL` of the array, so this matters
  only for an array without `NULL`, which is what `readLineOfWords` returns
  for a line of `MAX_NUM_WORDS` tokens or more: the program then reads past
  the end of the array, and what it does is not defined by C.
* The variables of `main` that `processCommand` receives through pointers
  (`shellWait`, `redirInpFD`, `redirOutFD`, `postpipe`) and the array argument
  `&words[curIndex]` live in one record `Sh`; `processCommand` works on that
  record with `curIndex` as the base of its array argument.
* The operating system is the record `World`: the descriptor table of the
  shell process, the file system as far as `open` consults it, counters for
  pipes and process ids, and the log of the calls made.  `open` and `pipe`
  hand out the lowest free descriptors; `open` fails on a denied path and on a
  missing path opened without `O_CREAT`; `pipe` and `fork` always succeed.
* A `fork` is logged with the image the child goes on to execute: the two
  arguments of `execvp` and the child's descriptor table after the `dup2` and
  `close` calls of the child branch.
* Loops take a bound on the number of passes as their first argument; the
  callers pass a bound that is never reached (`processCommandLoop_fuel`,
  `lineLoop_fuel`, `readLoop_spec`).
* `readLineOfWords` receives what `getline` delivers, a line of text or the
  end of the input; `strtok` reads it as a C string, up to its first NUL.  The
  array returned has `MAX_NUM_WORDS` slots of `MAX_WORD_LENGTH` bytes each.
  `readLoop` gives the index and the array of a run in which every `strcpy`
  stays inside its slot, and `copiesFit` tells whether every `strcpy` does: a
  token of `MAX_WORD_LENGTH` bytes or more is copied past the end of its slot,
  and what the program does from then on is not defined by C.  The slots never
  written hold whatever `malloc` left there, a parameter of the model.
* `runLine` runs `main` on the tokens of a line followed by `NULL`.  The
  array `main` receives starts with these slots when the line has fewer than
  `MAX_NUM_WORDS` tokens, each shorter than `MAX_WORD_LENGTH` bytes, and the
  run on that array differs from `runLine` in the slots behind the `NULL`
  only (`handsOver_of_limits`).  A statement about `runLine` describes the
  program on such lines.

Line numbers refer to `Solution/shellSol.c`.
-/

namespace Shell

/-! ## Word validator -/

/-- The test of lines 243 and 244 on one character, negated: the character is
in the allowed set. -/
def validChar (c : Char) : Bool :=
  !(!('a' ≤ c && c ≤ 'z') && !('A' ≤ c && c ≤ 'Z') && !('0' ≤ c && c ≤ '9')
    && c != '-' && c != '_' && c != '.' && c != '/')

/-- The `for` loop of `isValidWord` over the characters of the word up to its
terminator. -/
def isValidWordLoop : List Char → Int
  | [] => 1
  | c :: rest => if validChar c then isValidWordLoop rest else 0

/-- Source function `isValidWord`: 0 if an invalid character is found, 1 if the
entire word is valid. -/
def isValidWord (check : String) : Int :=
  isValidWordLoop check.toList

/-- The character set of the specification: alphanumeric (an ASCII letter or
an ASCII digit), `-`, `_`, `.` or `/`. -/
def SpecChar (c : Char) : Prop :=
  c.isAlphanum = true ∨ c = '-' ∨ c = '_' ∨ c = '.' ∨ c = '/'

/-! ## Operating system model -/

/-- What a descriptor refers to. -/
inductive Obj where
  | std (n : Nat)
  | file (path : String) (flags : Nat) (mode : Nat)
  | pipeRead (id : Nat)
  | pipeWrite (id : Nat)
  deriving DecidableEq, Repr

/-- A descriptor table: slot `fd` holds the object descriptor `fd` refers to,
or `none` when `fd` is not open. -/
abbrev FdTable := List (Option Obj)

/-- Object behind descriptor `fd`; negative and unused descriptors give
`none`. -/
def FdTable.obj (t : FdTable) (fd : Int) : Option Obj :=
  if fd < 0 then none else (t.getD fd.toNat none)

/-- Store `o` in slot `fd`, growing the table when needed. -/
def FdTable.put (t : FdTable) (fd : Nat) (o : Option Obj) : FdTable :=
  if fd < t.length then t.set fd o
  else t ++ List.replicate (fd - t.length) none ++ [o]

/-- The lowest descriptor that is not open. -/
def FdTable.free (t : FdTable) : Nat :=
  t.findIdx (fun o => o.isNone)

/-- The call `close(fd)` on a table. -/
def FdTable.close (t : FdTable) (fd : Int) : FdTable :=
  if fd < 0 then t else if fd.toNat < t.length then t.set fd.toNat none else t

/-- The call `dup2(oldfd, newfd)` on a table: a bad `oldfd` changes nothing. -/
def FdTable.dup2 (t : FdTable) (oldfd : Int) (newfd : Nat) : FdTable :=
  match t.obj oldfd with
  | none => t
  | some o => t.put newfd (some o)

/-- Linux value of `O_RDONLY` in `<fcntl.h>`. -/
def O_RDONLY : Nat := 0
/-- Linux value of `O_WRONLY` in `<fcntl.h>`. -/
def O_WRONLY : Nat := 1
/-- Linux value of `O_CREAT` in `<fcntl.h>`. -/
def O_CREAT : Nat := 64
/-- Linux value of `O_TRUNC` in `<fcntl.h>`. -/
def O_TRUNC : Nat := 512

/-- The image a forked child executes: its pid, the two arguments of `execvp`
and its descriptor table at that call. -/
structure Child where
  pid : Int
  file : Option String
  argv : List String
  fdt : FdTable
  deriving DecidableEq, Repr

/-- Standard input of a child. -/
def Child.stdin (c : Child) : Option Obj := c.fdt.obj 0

/-- Standard output of a child. -/
def Child.stdout (c : Child) : Option Obj := c.fdt.obj 1

/-- The calls the shell process makes, in order. -/
inductive Event where
  | print (msg : String)
  | sysopen (path : String) (flags : Nat) (mode : Nat) (ret : Int)
  | pipe (r : Int) (w : Int)
  | fork (c : Child)
  | close (fd : Int)
  | waitpid (pid : Option Int)
  deriving DecidableEq, Repr

/-- State of the operating system as the shell process sees it. -/
structure World where
  /-- descriptor table of the shell process -/
  fdt : FdTable
  /-- paths that exist -/
  files : List String
  /-- paths on which `open` fails whatever the flags -/
  denied : List String
  /-- number of pipes created so far; the next pipe gets this id -/
  npipes : Nat
  /-- pid the next `fork` returns -/
  nextPid : Nat
  /-- calls made so far, oldest first -/
  log : List Event
  deriving DecidableEq, Repr

/-- Append one call to the log. -/
def World.emit (w : World) (e : Event) : World :=
  { w with log := w.log ++ [e] }

/-- Whether `open(path, flags, mode)` succeeds: not on a denied path, and not on
a missing path opened without `O_CREAT`. -/
def World.openable (w : World) (path : String) (flags : Nat) : Bool :=
  decide (¬ (path ∈ w.denied ∨ (flags &&& O_CREAT = 0 ∧ path ∉ w.files)))

/-- The world after a successful `open(path, flags, mode)`: the lowest free
descriptor refers to the file, which now exists. -/
def World.opened (w : World) (path : String) (flags mode : Nat) : World :=
  { w with
    fdt := w.fdt.put w.fdt.free (some (.file path flags mode))
    files := if path ∈ w.files then w.files else path :: w.files
    log := w.log ++ [.sysopen path flags mode w.fdt.free] }

/-- The call `open(path, flags, mode)`: returns -1 when it fails, otherwise the
lowest free descriptor. -/
def World.sysopen (w : World) (path : String) (flags mode : Nat) : Int × World :=
  if path ∈ w.denied ∨ (flags &&& O_CREAT = 0 ∧ path ∉ w.files) then
    (-1, w.emit (.sysopen path flags mode (-1)))
  else
    ((w.fdt.free : Int), w.opened path flags mode)

/-- The call `pipe(p)`: the two lowest free descriptors become the read and
the write end of a new pipe and are stored in `p`. -/
def World.pipe (w : World) : (Int × Int) × World :=
  let r := w.fdt.free
  let t := w.fdt.put r (some (.pipeRead w.npipes))
  let wr := t.free
  (((r : Int), (wr : Int)),
    { w with
      fdt := t.put wr (some (.pipeWrite w.npipes))
      npipes := w.npipes + 1
      log := w.log ++ [.pipe r wr] })

/-- The call `close(fd)` in the shell process. -/
def World.close (w : World) (fd : Int) : World :=
  { w with fdt := w.fdt.close fd, log := w.log ++ [.close fd] }

/-! ## Observations on the log -/

/-- The children forked, oldest first. -/
def forks : List Event → List Child
  | [] => []
  | .fork c :: rest => c :: forks rest
  | _ :: rest => forks rest

/-- The pipes created, oldest first, as the pair of descriptors returned. -/
def pipesOf : List Event → List (Int × Int)
  | [] => []
  | .pipe r w :: rest => (r, w) :: pipesOf rest
  | _ :: rest => pipesOf rest

/-- The messages printed, oldest first. -/
def printed : List Event → List String
  | [] => []
  | .print m :: rest => m :: printed rest
  | _ :: rest => printed rest

/-- The `waitpid` calls made, oldest first. -/
def waits : List Event → List (Option Int)
  | [] => []
  | .waitpid p :: rest => p :: waits rest
  | _ :: rest => waits rest

/-- The paths opened with success for writing among the calls, oldest first. -/
def outputOpens : List Event → List String
  | [] => []
  | .sysopen path flags _ ret :: rest =>
    if flags &&& O_WRONLY ≠ 0 ∧ ret ≠ -1 then path :: outputOpens rest else outputOpens rest
  | _ :: rest => outputOpens rest

/-- The calls an error return adds to the log: at least one message, no fork,
no wait, no pipe and no successful `open` for writing. -/
def ErrLog (before after : List Event) : Prop :=
  ∃ evs, after = before ++ evs ∧ forks evs = [] ∧ waits evs = [] ∧ pipesOf evs = [] ∧
    outputOpens evs = [] ∧ printed evs ≠ []

/-! ## Shell state -/

/-- The array `words`. -/
abbrev Words := List (Option String)

/-- The read `words[i]`. -/
def wordAt (words : Words) (i : Nat) : Option String :=
  words.getD i none

/-- The variables of one pass of the outer loop of `main`, with the operating
system. -/
structure Sh where
  words : Words
  shellWait : Int
  curIndex : Nat
  redirInpFD : Int
  redirOutFD : Int
  prepipe : Int × Int
  postpipe : Int × Int
  /-- `none` until the first `fork` of the line: the variable is not initialised -/
  pid : Option Int
  /-- value of the local `commandLength` in the last pass of the inner loop -/
  commandLength : Option Int
  os : World
  deriving DecidableEq, Repr

/-- The call `printf(msg)`. -/
def Sh.print (s : Sh) (msg : String) : Sh :=
  { s with os := s.os.emit (.print msg) }

/-- The assignment `words[i] = NULL` inside `processCommand`, where `words` is
`&words[curIndex]` of `main`. -/
def Sh.setNull (s : Sh) (i : Nat) : Sh :=
  { s with words := s.words.set (s.curIndex + i) none }

/-! ## Redirection resolver -/

/-- Source function `fileRedirect`.  The slot `*FD` is passed in and its final
value is the second component of the result; the first is the return value. -/
def fileRedirect (FD : Int) (inOut : String) (flags : Nat) (fileName : Option String)
    (os : World) : Int × Int × World :=
  if FD ≥ 0 then
    (-1, FD, os.emit (.print "ERROR: cannot redirect from multiple sources\n"))
  else
    match fileName with
    | none => (-1, FD, os.emit (.print ("ERROR: " ++ inOut ++ " must be followed by filename\n")))
    | some name =>
      if isValidWord name = 0 then
        (-1, FD, os.emit (.print ("ERROR: " ++ inOut ++ " must be followed by filename\n")))
      else
        let r := os.sysopen name flags 0o644
        if r.1 = -1 then
          (-1, r.1, r.2.emit (.print ("ERROR: unable to open file: " ++ name ++ "\n")))
        else
          (0, r.1, r.2)

/-! ## Command segmenter -/

/-- How one pass through the body of the `while` loop of `processCommand`
ends: with a `return`, or at the bottom of the body with the next value
of `i`. -/
inductive Step where
  | ret (value : Int) (s : Sh)
  | next (i : Nat) (s : Sh)

/-- The body of the `while` loop of `processCommand`, lines 132 to 200, at
index `i`, where `w` is `words[i]` (not `NULL` inside the loop) and `nxt` is
`words[i+1]`. -/
def processCommandBody (i : Nat) (w : String) (nxt : Option String) (s : Sh) : Step :=
  if i = 0 ∧ isValidWord w = 0 then
    .ret (-1) (s.print "ERROR: command cannot begin with an operator\n")
  else if w = "<" then
    let r := fileRedirect s.redirInpFD "<" O_RDONLY nxt s.os
    if r.1 = -1 then
      .ret (-1) { s with redirInpFD := r.2.1, os := r.2.2 }
    else
      .next (i + 1 + 1) ({ s with redirInpFD := r.2.1, os := r.2.2 }.setNull i)
  else if w = ">" then
    let r := fileRedirect s.redirOutFD ">" (O_WRONLY ||| O_CREAT) nxt s.os
    if r.1 = -1 then
      .ret (-1) { s with redirOutFD := r.2.1, os := r.2.2 }
    else
      .next (i + 1 + 1) ({ s with redirOutFD := r.2.1, os := r.2.2 }.setNull i)
  else if w = "|" then
    if s.redirOutFD ≥ 0 then
      .ret (-1) (s.print "ERROR: cannot both redirect and pipe output\n")
    else if nxt = none ∨ (nxt.map isValidWord) = some 0 then
      .ret (-1) (s.print "ERROR: | must be followed by command\n")
    else
      let p := s.os.pipe
      .ret ((i + 1 : Nat) : Int)
        ({ s with postpipe := p.1, redirOutFD := p.1.2, os := p.2 }.setNull i)
  else if w = "&" then
    if nxt ≠ none then
      .ret (-1) (s.print "ERROR: illegal use of &\n")
    else
      .ret (i : Int) ({ s with shellWait := 0 }.setNull i)
  else if isValidWord w = 0 then
    .ret (-1) (s.print ("ERROR: " ++ w ++ " contains invalid characters\n"))
  else
    .next (i + 1) s

/-- The `while` loop of `processCommand` from index `i` on.  The first argument
bounds the number of passes; `processCommand` supplies more than the loop can
use. -/
def processCommandLoop : Nat → Nat → Sh → Int × Sh
  | 0, _, s => (-1, s)
  | fuel + 1, i, s =>
    match wordAt s.words (s.curIndex + i) with
    | none => ((i : Int), s)
    | some w =>
      match processCommandBody i w (wordAt s.words (s.curIndex + (i + 1))) s with
      | .ret value s1 => (value, s1)
      | .next j s1 => processCommandLoop fuel j s1

/-- State after the `<` branch succeeds at index `i` with file name `name`. -/
def Sh.afterIn (s : Sh) (i : Nat) (name : String) : Sh :=
  { s with redirInpFD := (s.os.fdt.free : Int), os := s.os.opened name O_RDONLY 0o644 }.setNull i

/-- State after the `>` branch succeeds at index `i` with file name `name`. -/
def Sh.afterOut (s : Sh) (i : Nat) (name : String) : Sh :=
  { s with
    redirOutFD := (s.os.fdt.free : Int)
    os := s.os.opened name (O_WRONLY ||| O_CREAT) 0o644 }.setNull i

/-- State after the `|` branch succeeds at index `i`. -/
def Sh.afterPipe (s : Sh) (i : Nat) : Sh :=
  { s with postpipe := s.os.pipe.1, redirOutFD := s.os.pipe.1.2, os := s.os.pipe.2 }.setNull i

/-- State after the `&` branch succeeds at index `i`. -/
def Sh.afterAmp (s : Sh) (i : Nat) : Sh :=
  { s with shellWait := 0 }.setNull i

/-- What an error return of `processCommand` leaves untouched: it changes
neither the array, the wait flag, the pipe slots nor the descriptor table, and
creates no pipe. -/
def ErrFrame (s s1 : Sh) : Prop :=
  s1.words = s.words ∧ s1.shellWait = s.shellWait ∧ s1.curIndex = s.curIndex ∧
  s1.prepipe = s.prepipe ∧ s1.postpipe = s.postpipe ∧ s1.pid = s.pid ∧
  s1.commandLength = s.commandLength ∧ s1.os.fdt = s.os.fdt ∧ s1.os.npipes = s.os.npipes ∧
  s1.os.nextPid = s.os.nextPid ∧ ErrLog s.os.log s1.os.log

/-- Source function `processCommand`, called as
`processCommand(&words[curIndex], &shellWait, &redirInpFD, &redirOutFD, postpipe)`. -/
def processCommand (s : Sh) : Int × Sh :=
  processCommandLoop (s.words.length + 1) 0 s

/-! ## Process orchestrator -/

/-- The argument vector `&words[i]`: the words from index `i` up to the first
`NULL`. -/
def argvAt : Words → Nat → List String
  | [], _ => []
  | none :: _, 0 => []
  | some w :: rest, 0 => w :: argvAt rest 0
  | _ :: rest, i + 1 => argvAt rest i

/-- The child branch of `main`, lines 48 to 73, on the child's copy of the
descriptor table. -/
def childImage (s : Sh) (pid : Int) : Child :=
  let t0 := s.os.fdt
  let t1 := if s.redirInpFD ≥ 0 then t0.dup2 s.redirInpFD 0 else t0
  let t2 := if s.redirOutFD ≥ 0 then t1.dup2 s.redirOutFD 1 else t1
  let t3 := if s.postpipe.1 ≥ 0 then t2.close s.postpipe.1 else t2
  let t4 := if s.prepipe.1 ≥ 0 then t3.close s.prepipe.2 else t3
  { pid := pid
    file := wordAt s.words s.curIndex
    argv := argvAt s.words s.curIndex
    fdt := t4 }

/-- The call `fork()` seen from the parent, which logs the image the child goes
on to execute, followed by the parent branch of `main`, lines 78 to 102. -/
def forkAndContinue (s : Sh) (commandLength : Int) : Sh :=
  let pid : Int := s.os.nextPid
  let s1 : Sh := { s with
    pid := some pid
    os := { s.os with
      nextPid := s.os.nextPid + 1
      log := s.os.log ++ [Event.fork (childImage s pid)] } }
  let s2 : Sh := { s1 with redirInpFD := -1, redirOutFD := -1 }
  let s3 : Sh :=
    if s2.prepipe.1 ≥ 0 then
      { s2 with os := (s2.os.close s2.prepipe.1).close s2.prepipe.2 }
    else s2
  let s4 : Sh :=
    if s3.postpipe.1 ≥ 0 then
      { s3 with prepipe := s3.postpipe, redirInpFD := s3.postpipe.1, postpipe := (-1, -1) }
    else s3
  { s4 with curIndex := s4.curIndex + commandLength.toNat }

/-- The inner `while` loop of `main`, lines 38 to 103.  The first argument
bounds the number of passes. -/
def lineLoop : Nat → Sh → Sh
  | 0, s => s
  | fuel + 1, s =>
    match wordAt s.words s.curIndex with
    | none => s
    | some _ =>
      let r := processCommand s
      let s1 := { r.2 with commandLength := some r.1 }
      if r.1 = -1 then s1
      else lineLoop fuel (forkAndContinue s1 r.1)

/-- The variables of `main` at line 34, for the array `words`. -/
def initSh (os : World) (words : Words) : Sh :=
  { words := words
    shellWait := 1
    curIndex := 0
    redirInpFD := -1
    redirOutFD := -1
    prepipe := (-1, -1)
    postpipe := (-1, -1)
    pid := none
    commandLength := none
    os := os }

/-- One pass of the outer loop of `main`, lines 28 to 108, on the array
`words`. -/
def runWords (os : World) (words : Words) : Sh :=
  let s := lineLoop (words.length + 1) (initSh os words)
  if s.shellWait ≠ 0 then { s with os := s.os.emit (.waitpid s.pid) } else s

/-- The array `readLineOfWords` returns for a line with the tokens `ts`, up to
its sentinel: the tokens followed by `NULL`.  The array `main` receives starts
with these slots when the line has fewer than `MAX_NUM_WORDS` tokens, each
shorter than `MAX_WORD_LENGTH` bytes (`handsOver_of_limits`), and `main` reads
no slot behind the first `NULL` (`runWords_of_take`).  A line of
`MAX_NUM_WORDS` tokens or more is returned without `NULL`, and `lineWords`
does not describe that array. -/
def lineWords (ts : List String) : Words :=
  ts.map some ++ [none]

/-- One pass of the outer loop of `main` on the line with tokens `ts`, where
`ts` has fewer than `MAX_NUM_WORDS` tokens, each shorter than `MAX_WORD_LENGTH`
bytes, so that `main` receives `lineWords ts`. -/
def runLine (os : World) (ts : List String) : Sh :=
  runWords os (lineWords ts)

/-- A shell process with the three standard descriptors open and nothing
else. -/
def World.fresh : World :=
  { fdt := [some (.std 0), some (.std 1), some (.std 2)]
    files := []
    denied := []
    npipes := 0
    nextPid := 100
    log := [] }

/-- What every run of the segmenter loop preserves, and where a successful run
stops. -/
def LoopFrame (i : Nat) (s : Sh) (r : Int × Sh) : Prop :=
  r.2.curIndex = s.curIndex ∧ r.2.words.length = s.words.length ∧ r.2.prepipe = s.prepipe ∧
  r.2.pid = s.pid ∧ r.2.commandLength = s.commandLength ∧ r.2.os.nextPid = s.os.nextPid ∧
  (∀ p, p < s.curIndex + i → wordAt r.2.words p = wordAt s.words p) ∧
  (r.1 = -1 ∨ ∃ L : Nat, r.1 = (L : Int) ∧ i ≤ L ∧
    (∀ p, s.curIndex + L < p → wordAt r.2.words p = wordAt s.words p) ∧
    (wordAt r.2.words (s.curIndex + L) = none ∨
      wordAt r.2.words (s.curIndex + L) = wordAt s.words (s.curIndex + L)) ∧
    (wordAt s.words (s.curIndex + i) ≠ none → i = 0 → 0 < L))

/-- State of `main` after the call of `processCommand` at line 42. -/
def Sh.afterParse (s : Sh) : Sh :=
  { (processCommand s).2 with commandLength := some (processCommand s).1 }

/-- State of `main` at the bottom of one pass of the inner loop, line 103. -/
def Sh.afterCommand (s : Sh) : Sh :=
  forkAndContinue s.afterParse (processCommand s).1

/-- The four operator tokens. -/
def isOperator (t : String) : Bool :=
  t = "<" || t = ">" || t = "|" || t = "&"

/-- The argv the specification describes for a segment: every `<` or `>` and
the file name after it removed, the terminating `|` or `&` removed, all other
words kept in order. -/
def strippedArgv : List String → List String
  | [] => []
  | [t] => if isOperator t then [] else [t]
  | t :: f :: rest =>
    if t = "<" ∨ t = ">" then strippedArgv rest
    else if t = "|" ∨ t = "&" then []
    else t :: strippedArgv (f :: rest)

/-- A shell process with the three standard descriptors open, in a file system
where the paths `fs` exist. -/
def World.withFiles (fs : List String) : World :=
  { World.fresh with files := fs }

/-- The states of two runs of `main`, one on a line that ends in `&` at index
`n` and one on the same line without it: they differ in the array only, the
arrays differ at index `n` only, and from index `k` to `n` the first array has
no `NULL`. -/
def Shadow (n k : Nat) (s1 s2 : Sh) : Prop :=
  s2 = { s1 with words := s2.words } ∧
  (∀ p, p ≠ n → wordAt s1.words p = wordAt s2.words p) ∧
  wordAt s1.words n = some "&" ∧ wordAt s2.words n = none ∧
  (∀ p, k ≤ p → p ≤ n → wordAt s1.words p ≠ none)

/-- The states of the two runs once the final `&` has been consumed: the first
has cleared the wait flag, the second has the wait flag `wait0`, and nothing
else differs. -/
def Ended (n : Nat) (wait0 : Int) (s1 s2 : Sh) : Prop :=
  s1.shellWait = 0 ∧ s2 = { s1 with shellWait := wait0, words := s2.words } ∧
  (∀ p, wordAt s1.words p = wordAt s2.words p) ∧ wordAt s1.words n = none

/-- The calls `main` has added to the log `before` by the time the log is
`after`. -/
def callsSince (before after : List Event) : List Event :=
  after.drop before.length

/-- The `close` calls of the parent branch, lines 83 to 86. -/
def parentCloses (s : Sh) : List Event :=
  if s.prepipe.1 ≥ 0 then [.close s.prepipe.1, .close s.prepipe.2] else []

/-- The commands of a line: the runs of tokens between its `|` tokens. -/
def segments : List String → List (List String)
  | [] => [[]]
  | t :: rest =>
    if t = "|" then [] :: segments rest
    else match segments rest with
      | [] => [[t]]
      | seg :: more => (t :: seg) :: more

/-- The file name that follows the first token `op` of a segment. -/
def redirTarget (op : String) : List String → Option String
  | [] => none
  | [_] => none
  | a :: b :: rest => if a = op then some b else redirTarget op (b :: rest)

/-- The standard input the specification gives command `k` of a line: its `<`
file if it has one, else the read end of the pipe created by command `k-1`,
else (for the first command) the object `dflt`. -/
def stdinSpec (dflt : Option Obj) (np : Nat) (segs : List (List String)) (k : Nat) : Option Obj :=
  match redirTarget "<" (segs.getD k []) with
  | some f => some (.file f O_RDONLY 0o644)
  | none => if k = 0 then dflt else some (.pipeRead (np + k - 1))

/-- The standard output the specification gives command `k` of a line: its `>`
file if it has one, else the write end of the pipe it created, else (for the
last command) the object `shellOut`. -/
def stdoutSpec (shellOut : Option Obj) (np : Nat) (segs : List (List String)) (k : Nat) :
    Option Obj :=
  match redirTarget ">" (segs.getD k []) with
  | some f => some (.file f (O_WRONLY ||| O_CREAT) 0o644)
  | none => if k + 1 < segs.length then some (.pipeWrite (np + k)) else shellOut

/-- What an accepted call of `processCommand` has done, in terms of the tokens
`rest` it started on: the slots and descriptors of the first command of `rest`,
and the array left for the next command. -/
def SegSpec (s : Sh) (rest : List String) (r : Int × Sh) : Prop :=
  ∀ seg more, segments rest = seg :: more →
    (∀ f, redirTarget "<" seg = some f →
      s.redirInpFD < 0 ∧ 0 ≤ r.2.redirInpFD ∧ s.os.fdt.obj r.2.redirInpFD = none ∧
      r.2.os.fdt.obj r.2.redirInpFD = some (.file f O_RDONLY 0o644)) ∧
    (redirTarget "<" seg = none → r.2.redirInpFD = s.redirInpFD) ∧
    (∀ f, redirTarget ">" seg = some f →
      s.redirOutFD < 0 ∧ more = [] ∧ 0 ≤ r.2.redirOutFD ∧ s.os.fdt.obj r.2.redirOutFD = none ∧
      r.2.os.fdt.obj r.2.redirOutFD = some (.file f (O_WRONLY ||| O_CREAT) 0o644)) ∧
    (redirTarget ">" seg = none → more = [] → r.2.redirOutFD = s.redirOutFD) ∧
    (more = [] →
      r.2.postpipe = s.postpipe ∧ r.2.os.npipes = s.os.npipes ∧
      wordAt r.2.words (s.curIndex + r.1.toNat) = none ∧
      pipesOf (callsSince s.os.log r.2.os.log) = []) ∧
    (more ≠ [] → ∃ rest', s.redirOutFD < 0 ∧ more = segments rest' ∧ rest' ≠ [] ∧
      (∀ j, wordAt r.2.words (s.curIndex + (r.1.toNat + j)) = rest'[j]?) ∧
      r.2.redirOutFD = r.2.postpipe.2 ∧ 0 ≤ r.2.postpipe.1 ∧ 0 ≤ r.2.postpipe.2 ∧
      s.os.fdt.obj r.2.postpipe.1 = none ∧ s.os.fdt.obj r.2.postpipe.2 = none ∧
      r.2.os.fdt.obj r.2.postpipe.1 = some (.pipeRead s.os.npipes) ∧
      r.2.os.fdt.obj r.2.postpipe.2 = some (.pipeWrite s.os.npipes) ∧
      r.2.os.npipes = s.os.npipes + 1 ∧
      pipesOf (callsSince s.os.log r.2.os.log) = [r.2.postpipe]) ∧
    (∀ fd o, s.os.fdt.obj fd = some o → r.2.os.fdt.obj fd = some o) ∧
    (∃ evs, r.2.os.log = s.os.log ++ evs)

/-- The state of `main` at the top of a pass of the inner loop, line 38, when
the shell's own standard input and output are `shellIn` and `shellOut` and the
command about to be read takes its input from `dflt` unless redirected: either
nothing is carried over, or `redirInpFD` is the read end `prepipe[0]` of the
pipe the previous command created. -/
def Boundary (shellIn shellOut dflt : Option Obj) (s : Sh) : Prop :=
  s.postpipe.1 < 0 ∧ s.redirOutFD < 0 ∧
  s.os.fdt.obj 0 = shellIn ∧ shellIn ≠ none ∧ s.os.fdt.obj 1 = shellOut ∧ shellOut ≠ none ∧
  ((s.redirInpFD < 0 ∧ s.prepipe.1 < 0 ∧ dflt = shellIn) ∨
    (0 ≤ s.redirInpFD ∧ s.prepipe.1 = s.redirInpFD ∧ s.os.fdt.obj s.redirInpFD = dflt ∧
      dflt ≠ none ∧ s.redirInpFD ≠ 0 ∧ s.redirInpFD ≠ 1 ∧ s.prepipe.2 ≠ 0 ∧ s.prepipe.2 ≠ 1 ∧
      s.os.fdt.obj s.prepipe.2 ≠ none))

/-- The children forked from state `s` on for the tokens `rest` are wired as
the specification says. -/
def Wired (shellOut dflt : Option Obj) (s : Sh) (rest : List String) (f : Sh) : Prop :=
  ∃ evs, f.os.log = s.os.log ++ evs ∧
    (forks evs).length = (segments rest).length ∧
    (pipesOf evs).length + 1 = (segments rest).length ∧
    ∀ k c, (forks evs)[k]? = some c →
      c.stdin = stdinSpec dflt s.os.npipes (segments rest) k ∧
      c.stdout = stdoutSpec shellOut s.os.npipes (segments rest) k ∧
      (k + 1 < (segments rest).length → c.stdout = some (.pipeWrite (s.os.npipes + k))) ∧
      (0 < k → c.stdin = some (.pipeRead (s.os.npipes + k - 1))) ∧
      (k = 0 → 0 ≤ s.redirInpFD → c.stdin = dflt)

/-! ## Tokenizer -/

/-- The constant `MAX_WORD_LENGTH` of `readLineOfWords`, line 261: the number
of bytes allocated for each slot at line 268. -/
def MAX_WORD_LENGTH : Nat := 100

/-- The constant `MAX_NUM_WORDS` of `readLineOfWords`, line 262. -/
def MAX_NUM_WORDS : Nat := 51

/-- Membership in the delimiter string `" \n"` of the `strtok` calls. -/
def isDelim (c : Char) : Bool :=
  c = ' ' || c = '\n'

/-- The C string that starts at the head of `text`: the characters before the
first NUL. -/
def cString (text : List Char) : List Char :=
  text.takeWhile (fun c => c != Char.ofNat 0)

/-- The call `strtok(.., " \n")` on the text not yet scanned, a C string that
ends at its first NUL: leading delimiters are skipped; `none` is the `NULL`
returned when nothing is left, otherwise the result is the token found and the
text behind the delimiter that ended it. -/
def strtok (text : List Char) : Option (List Char × List Char) :=
  match (cString text).dropWhile isDelim with
  | [] => none
  | c :: cs =>
    some ((c :: cs).takeWhile (fun x => !isDelim x),
      ((c :: cs).dropWhile (fun x => !isDelim x)).drop 1)

/-- The array allocated at lines 265 to 269: `MAX_NUM_WORDS` slots, each
pointing to a buffer of its own whose content, `junk i` for slot `i`, is
whatever `malloc` left there. -/
def freshWords (junk : Nat → String) : Words :=
  (List.range MAX_NUM_WORDS).map (fun i => some (junk i))

/-- Whether the call `strcpy(words[i], word)` of line 285 stays inside the
`MAX_WORD_LENGTH` bytes allocated for the slot at line 268: it writes the bytes
of the word and the NUL that ends it. -/
def strcpyFits (word : List Char) : Bool :=
  (String.mk word).utf8ByteSize + 1 ≤ MAX_WORD_LENGTH

/-- The `while` loop of lines 284 to 287, where `word` is the pending result of
`strtok`: the value of `i` and the array when the loop is left.  The first
argument bounds the number of passes.  A slot holds the token copied into it
whole, which is what the program does as long as every copy stays inside its
slot; `copiesFit` tells whether they do. -/
def readLoop : Nat → Nat → Option (List Char × List Char) → Words → Nat × Words
  | 0, i, _, words => (i, words)
  | fuel + 1, i, word, words =>
    match word with
    | none => (i, words)
    | some (tok, rest) =>
      if i < MAX_NUM_WORDS then
        readLoop fuel (i + 1) (strtok rest) (words.set i (some (String.mk tok)))
      else (i, words)

/-- Whether every `strcpy` of the loop of lines 284 to 287 stays inside its
slot.  The arguments are those of `readLoop`, without the array.  When the
result is `false` the program writes past the end of a slot and C leaves its
behaviour open. -/
def copiesFit : Nat → Nat → Option (List Char × List Char) → Bool
  | 0, _, _ => true
  | fuel + 1, i, word =>
    match word with
    | none => true
    | some (tok, rest) =>
      if i < MAX_NUM_WORDS then
        strcpyFits tok && copiesFit fuel (i + 1) (strtok rest)
      else true

/-- Source function `readLineOfWords`.  The argument `input` is what `getline`
delivers: `none` when it returns -1, otherwise the line read, with its final
newline if it has one.  The result is the pointer returned (`none` is `NULL`)
and what was printed. -/
def readLineOfWords (junk : Nat → String) (input : Option String) :
    Option Words × List String :=
  match input with
  | none => (none, [])
  | some line =>
    let r := readLoop (MAX_NUM_WORDS + 1) 0 (strtok line.toList) (freshWords junk)
    if r.1 = MAX_NUM_WORDS then
      (some r.2, ["WARNING: line contains more than 51 words!\n"])
    else
      (some (r.2.set r.1 none), [])

/-- The maximal runs of characters of `l` that are not separators, in order. -/
def maximalRuns (sep : Char → Bool) (l : List Char) : List (List Char) :=
  (l.splitOnP sep).filter (fun t => !t.isEmpty)

/-- The whitespace characters the specification names: space, tab and
newline. -/
def isWhitespace (c : Char) : Bool :=
  c = ' ' || c = '\t' || c = '\n'

/-- The tokens of a line: the maximal runs of characters other than space and
newline of the line as a C string, that is up to its first NUL. -/
def tokensOf (line : String) : List String :=
  (maximalRuns isDelim (cString line.toList)).map String.mk

/-- The tokenizer hands the tokens `ts` of `line` over to `main` intact: every
`strcpy` stays inside its slot, nothing is printed, the array returned holds
the tokens in order, followed by `NULL`, and the pass of `main` on that array
is the one `runLine` makes, whatever the slots behind the `NULL` hold. -/
def HandsOver (ts : List String) (junk : Nat → String) (line : String) : Prop :=
  copiesFit (MAX_NUM_WORDS + 1) 0 (strtok line.toList) = true ∧
  ∃ ws, readLineOfWords junk (some line) = (some ws, []) ∧
    ws.take (ts.length + 1) = lineWords ts ∧
    ∀ os, runWords os ws = { runLine os ts with words := (runWords os ws).words }

/-- The states of two runs of `main` on arrays that agree up to index `m`,
where they hold `NULL`: the states differ in the array only. -/
def SameUpTo (m : Nat) (s1 s2 : Sh) : Prop :=
  s2 = { s1 with words := s2.words } ∧
  (∀ p, p ≤ m → wordAt s2.words p = wordAt s1.words p) ∧ wordAt s1.words m = none

/-! ## The passes of the inner loop -/

/-- Where an accepted call of `processCommand` stops when the array holds `n`
words before its first `NULL`: at that `NULL`, at a final `&`, or behind a `|`
on a valid word, which is left in place. -/
def StopsAt (s : Sh) (n : Nat) (r : Int × Sh) (L : Nat) : Prop :=
  (L = n ∧ wordAt r.2.words (s.curIndex + L) = none) ∨
  (L + 1 = n ∧ wordAt s.words (s.curIndex + L) = some "&" ∧
    wordAt r.2.words (s.curIndex + L) = none) ∨
  (0 < L ∧ L < n ∧ wordAt s.words (s.curIndex + (L - 1)) = some "|" ∧
    ∃ w, wordAt s.words (s.curIndex + L) = some w ∧
      wordAt r.2.words (s.curIndex + L) = some w ∧ isValidWord w = 1)

/-- The states of `main` at line 38, the test of the inner loop, in the order
in which they are reached.  The first argument bounds the number of passes. -/
def lineTrace : Nat → Sh → List Sh
  | 0, s => [s]
  | fuel + 1, s =>
    match wordAt s.words s.curIndex with
    | none => [s]
    | some _ =>
      let r := processCommand s
      let s1 := { r.2 with commandLength := some r.1 }
      if r.1 = -1 then [s]
      else s :: lineTrace fuel (forkAndContinue s1 r.1)

/-- The first `NULL` of the array at or after `curIndex` is at index `m`. -/
def FirstNull (m : Nat) (s : Sh) : Prop :=
  s.curIndex ≤ m ∧ wordAt s.words m = none ∧
  ∀ j, s.curIndex ≤ j → j < m → wordAt s.words j ≠ none

/-! ## Pipes held by the shell process -/

/-- Whether an object is an end of a pipe. -/
def Obj.isPipeEnd : Obj → Bool
  | .pipeRead _ => true
  | .pipeWrite _ => true
  | _ => false

/-- Every end of a pipe that is open in table `t`, at a descriptor other than
those in `carried`, was open at the same descriptor in table `t0`. -/
def PipesWithin (t0 t : FdTable) (carried : List Int) : Prop :=
  ∀ fd o, t.obj fd = some o → o.isPipeEnd = true → fd ∈ carried ∨ t0.obj fd = some o

/-- What a run of the segmenter loop from index `i` does with pipes: open
descriptors stay open, and an accepted run either returns behind a `|`, with
the one pipe it created in `postPipe`, or at the end of the line, with no pipe
created. -/
def PipeStep (i : Nat) (s : Sh) (r : Int × Sh) : Prop :=
  (∀ fd o, s.os.fdt.obj fd = some o → r.2.os.fdt.obj fd = some o) ∧
  ∃ evs, r.2.os.log = s.os.log ++ evs ∧ r.2.os.nextPid = s.os.nextPid ∧
    (r.1 = -1 ∨ ∃ L : Nat, r.1 = (L : Int) ∧ i ≤ L ∧
      ((0 < L ∧ wordAt s.words (s.curIndex + (L - 1)) = some "|" ∧
        (∀ p, s.curIndex + L ≤ p → wordAt r.2.words p = wordAt s.words p) ∧
        0 ≤ r.2.postpipe.1 ∧ 0 ≤ r.2.postpipe.2 ∧
        s.os.fdt.obj r.2.postpipe.1 = none ∧ s.os.fdt.obj r.2.postpipe.2 = none ∧
        r.2.os.fdt.obj r.2.postpipe.1 = some (.pipeRead s.os.npipes) ∧
        r.2.os.fdt.obj r.2.postpipe.2 = some (.pipeWrite s.os.npipes) ∧
        r.2.os.npipes = s.os.npipes + 1 ∧ pipesOf evs = [r.2.postpipe] ∧
        PipesWithin s.os.fdt r.2.os.fdt [r.2.postpipe.1, r.2.postpipe.2]) ∨
       ((i < L → wordAt s.words (s.curIndex + (L - 1)) ≠ some "|") ∧
        wordAt r.2.words (s.curIndex + L) = none ∧
        r.2.postpipe = s.postpipe ∧ r.2.os.npipes = s.os.npipes ∧ pipesOf evs = [] ∧
        PipesWithin s.os.fdt r.2.os.fdt [])))

/-- The invariant of the inner loop of `main` at line 38, for the line with
tokens `ts` and the descriptor table `t0` the shell had when the line started:
no pending pipe and no output redirect; the input slot is bound exactly after
a command that ended with `|`, and then it is `prepipe[0]`, the two ends of the
newest pipe are open at `prepipe[0]` and `prepipe[1]`, and no other end of a
pipe is open that was not open in `t0`; otherwise the input slot is -1 and no
end of a pipe is open that was not open in `t0`. -/
def LineInv (ts : List String) (t0 : FdTable) (s : Sh) : Prop :=
  s.postpipe = (-1, -1) ∧ s.redirOutFD = -1 ∧
  (0 ≤ s.redirInpFD ↔ (0 < s.curIndex ∧ ts[s.curIndex - 1]? = some "|")) ∧
  (0 ≤ s.redirInpFD →
    s.redirInpFD = s.prepipe.1 ∧ 0 < s.os.npipes ∧
    s.os.fdt.obj s.prepipe.1 = some (.pipeRead (s.os.npipes - 1)) ∧
    s.os.fdt.obj s.prepipe.2 = some (.pipeWrite (s.os.npipes - 1)) ∧
    PipesWithin t0 s.os.fdt [s.prepipe.1, s.prepipe.2]) ∧
  (s.redirInpFD < 0 → s.redirInpFD = -1 ∧ PipesWithin t0 s.os.fdt [])

/-- What the proof of `LineInv` carries along: unless the line is at its end,
the array from `curIndex` on holds the tokens of the line, and `prepipe` is set
only together with the input slot. -/
def LineAux (ts : List String) (s : Sh) : Prop :=
  wordAt s.words s.curIndex = none ∨
  ((∀ j, s.curIndex ≤ j → wordAt s.words j = ts[j]?) ∧ (s.redirInpFD < 0 → s.prepipe.1 < 0))

/-- The pipes created in the pass of the inner loop that leads from state `a`
at line 38 to the next such state `b`: the one in `prepipe` when the input
slot of `b` is bound, none otherwise. -/
def PassPipes (a b : Sh) : Prop :=
  (0 ≤ b.redirInpFD →
    pipesOf (callsSince a.os.log b.os.log) = [b.prepipe] ∧ b.os.npipes = a.os.npipes + 1) ∧
  (b.redirInpFD < 0 →
    pipesOf (callsSince a.os.log b.os.log) = [] ∧ b.os.npipes = a.os.npipes)

/-! ## Passes and segments of a line -/

/-- The commands of a line: its segments, and none for the empty line. -/
def commands (ts : List String) : List (List String) :=
  if ts = [] then [] else segments ts

/-- Index `q` is where segment `k` of the line starts: `k` tokens `|` come
before it, and it is index 0 or the index right behind a `|`. -/
def StartsSegment (ts : List String) (k q : Nat) : Prop :=
  (ts.take q).count "|" = k ∧ (q = 0 ∨ ts[q - 1]? = some "|")

/-- Where an accepted run of the segmenter loop from index `i` ends: it has
passed no `|`, and it returns behind the first `|`, which is followed by a
word, or at the end of the line, that is at the `NULL` or at a `&` right before
the `NULL`. -/
def SegEnd (i : Nat) (s : Sh) (r : Int × Sh) : Prop :=
  r.1 = -1 ∨ ∃ L : Nat, r.1 = (L : Int) ∧ i ≤ L ∧
    (∀ p, i ≤ p → p + 1 < L → wordAt s.words (s.curIndex + p) ≠ some "|") ∧
    ((0 < L ∧ wordAt s.words (s.curIndex + (L - 1)) = some "|" ∧
        (∃ w, wordAt s.words (s.curIndex + L) = some w) ∧
        ∀ p, s.curIndex + L ≤ p → wordAt r.2.words p = wordAt s.words p) ∨
      ((i < L → wordAt s.words (s.curIndex + (L - 1)) ≠ some "|") ∧
        wordAt r.2.words (s.curIndex + L) = none ∧
        (wordAt s.words (s.curIndex + L) = none ∨
          (wordAt s.words (s.curIndex + L) = some "&" ∧
            wordAt s.words (s.curIndex + (L + 1)) = none))))

/-- The forks among the calls `evs` are one per segment of the line `ts`, in
the order of the segments: fork `i` executes the first token of segment `i`,
with the tokens of that segment before its first operator as argv. -/
def ForksInOrder (ts : List String) (evs : List Event) : Prop :=
  ∀ i c, (forks evs)[i]? = some c →
    ∃ q, StartsSegment ts i q ∧ c.file = ts[q]? ∧
      c.argv = (ts.drop q).takeWhile (fun t => !isOperator t)

/-- State `s` of `main` at line 38 is about to read segment `j` of the line
`ts`: `curIndex` is where that segment starts, the array from there on holds
the tokens of the line, and the calls made since the world `os` at the start
of the line contain `j` forks, one per earlier segment. -/
def AtSegment (os : World) (ts : List String) (j : Nat) (s : Sh) : Prop :=
  s.curIndex < ts.length ∧ (∀ p, s.curIndex ≤ p → wordAt s.words p = ts[p]?) ∧
  StartsSegment ts j s.curIndex ∧
  ∃ evs, s.os.log = os.log ++ evs ∧ (forks evs).length = j ∧ ForksInOrder ts evs

/-- A shell process started with descriptor 0 closed, as by `./shell <&-`. -/
def World.withoutStdin : World :=
  { World.fresh with fdt := [none, some (.std 1), some (.std 2)] }

/-- A shell process started with descriptor 1 closed, as by `./shell >&-`. -/
def World.withoutStdout : World :=
  { World.fresh with fdt := [some (.std 0), none, some (.std 2)] }

/-! ## Facts about the word validator -/

theorem bool_shape (a b c d e f g h i j : Bool) :
    (!(!(a && b) && !(c && d) && !(e && f) && !g && !h && !i && !j))
      = ((a && b) || (c && d) || (e && f) || g || h || i || j) := by
  revert a b c d e f g h i j; decide

theorem validChar_iff (c : Char) : validChar c = true ↔ SpecChar c := by
  have h1 : ∀ a b : Char, a ≤ b ↔ a.val ≤ b.val := fun a b => Iff.rfl
  have h2 : ∀ a b : Char, (a != b) = !(a == b) := fun a b => rfl
  unfold validChar
  rw [h2, h2, h2, h2, bool_shape]
  simp only [SpecChar, Char.isAlphanum, Char.isAlpha, Char.isUpper, Char.isLower,
    Char.isDigit, h1, Char.reduceVal, ge_iff_le, Bool.or_eq_true, Bool.and_eq_true,
    decide_eq_true_eq, beq_iff_eq]
  tauto

theorem isValidWordLoop_one (l : List Char) :
    isValidWordLoop l = 1 ↔ ∀ c ∈ l, validChar c = true := by
  induction l with
  | nil => simp [isValidWordLoop]
  | cons c rest ih =>
    by_cases hc : validChar c = true
    · simp [isValidWordLoop, hc, ih]
    · simp [isValidWordLoop, hc]

theorem isValidWordLoop_cases (l : List Char) :
    isValidWordLoop l = 0 ∨ isValidWordLoop l = 1 := by
  induction l with
  | nil => simp [isValidWordLoop]
  | cons c rest ih =>
    by_cases hc : validChar c = true
    · simpa [isValidWordLoop, hc] using ih
    · simp [isValidWordLoop, hc]

theorem isValidWord_cases (w : String) : isValidWord w = 0 ∨ isValidWord w = 1 :=
  isValidWordLoop_cases w.toList

theorem isValidWord_ne_zero (w : String) : isValidWord w ≠ 0 ↔ isValidWord w = 1 := by
  rcases isValidWord_cases w with h | h <;> simp [h]

theorem isValidWord_lt : isValidWord "<" = 0 := by decide

theorem isValidWord_gt : isValidWord ">" = 0 := by decide

theorem isValidWord_bar : isValidWord "|" = 0 := by decide

theorem isValidWord_amp : isValidWord "&" = 0 := by decide

/-! ## Facts about descriptor tables -/

theorem getD_put (t : FdTable) (fd x : Nat) (o : Option Obj) :
    (t.put fd o).getD x none = if x = fd then o else t.getD x none := by
  unfold FdTable.put
  simp only [List.getD_eq_getElem?_getD]
  by_cases h : fd < t.length
  · simp only [h, if_true, List.getElem?_set]
    by_cases hx : x = fd
    · subst hx; simp [h]
    · have : ¬ fd = x := fun e => hx e.symm
      simp [hx, this]
  · simp only [h, if_false]
    have hle : t.length ≤ fd := Nat.le_of_not_lt h
    by_cases hx : x = fd
    · subst hx
      rw [List.getElem?_append_right (by simp; omega)]
      simp [hle]
    · simp only [hx, if_false]
      by_cases hxl : x < t.length
      · rw [List.append_assoc, List.getElem?_append_left hxl]
      · have hxl2 : t.length ≤ x := Nat.le_of_not_lt hxl
        rw [List.getElem?_eq_none (by omega : t.length ≤ x)]
        by_cases hxf : x < fd
        · rw [List.getElem?_append_left (by simp; omega), List.getElem?_append_right hxl2]
          simp only [List.getElem?_replicate]
          split <;> rfl
        · rw [List.getElem?_eq_none (by simp; omega)]

theorem obj_put (t : FdTable) (fd : Nat) (x : Int) (o : Option Obj) :
    (t.put fd o).obj x = if x = (fd : Int) then o else t.obj x := by
  unfold FdTable.obj
  by_cases hx : x < 0
  · have : x ≠ (fd : Int) := by omega
    simp [hx, this]
  · simp only [hx, if_false, getD_put]
    have : (x.toNat = fd) ↔ x = (fd : Int) := by omega
    simp [this]

theorem obj_free (t : FdTable) : t.obj (t.free : Int) = none := by
  unfold FdTable.obj FdTable.free
  simp only [Int.toNat_ofNat, List.getD_eq_getElem?_getD]
  have h0 : ¬ ((List.findIdx (fun o => o.isNone) t : Nat) : Int) < 0 := by omega
  simp only [h0, if_false]
  by_cases h : List.findIdx (fun o => o.isNone) t < t.length
  · rw [List.getElem?_eq_getElem h]
    have := @List.findIdx_getElem _ (fun o : Option Obj => o.isNone) t h
    simpa using this
  · rw [List.getElem?_eq_none (Nat.le_of_not_lt h)]; rfl

theorem obj_close (t : FdTable) (fd x : Int) :
    (t.close fd).obj x = if x = fd then none else t.obj x := by
  unfold FdTable.close
  by_cases hfd : fd < 0
  · simp only [hfd, if_true]
    by_cases hx : x = fd
    · subst hx; simp [FdTable.obj, hfd]
    · simp [hx]
  · simp only [hfd, if_false]
    by_cases hl : fd.toNat < t.length
    · simp only [hl, if_true]
      have := obj_put t fd.toNat x none
      unfold FdTable.put at this
      simp only [hl, if_true] at this
      rw [this]
      have : (fd.toNat : Int) = fd := by omega
      rw [this]
    · simp only [hl, if_false]
      by_cases hx : x = fd
      · subst hx
        simp only [if_true, FdTable.obj, hfd, if_false, List.getD_eq_getElem?_getD]
        rw [List.getElem?_eq_none (Nat.le_of_not_lt hl)]; rfl
      · simp [hx]

theorem obj_dup2 (t : FdTable) (oldfd : Int) (newfd : Nat) (x : Int) :
    (t.dup2 oldfd newfd).obj x =
      if x = (newfd : Int) ∧ t.obj oldfd ≠ none then t.obj oldfd else t.obj x := by
  unfold FdTable.dup2
  cases h : t.obj oldfd with
  | none => simp
  | some o => simp [obj_put]

/-! ## Facts about the array of words -/

theorem wordAt_set (l : Words) (j p : Nat) :
    wordAt (l.set j none) p = if p = j then none else wordAt l p := by
  unfold wordAt
  simp only [List.getD_eq_getElem?_getD, List.getElem?_set]
  by_cases h : p = j
  · subst h
    by_cases hl : p < l.length <;> simp [hl]
  · have : ¬ j = p := fun e => h e.symm
    simp [h, this]

theorem wordAt_lineWords (ts : List String) (p : Nat) : wordAt (lineWords ts) p = ts[p]? := by
  unfold wordAt lineWords
  simp only [List.getD_eq_getElem?_getD]
  by_cases h : p < ts.length
  · rw [List.getElem?_append_left (by simpa using h)]
    simp [h]
  · have hle : ts.length ≤ p := Nat.le_of_not_lt h
    rw [List.getElem?_eq_none hle]
    by_cases h2 : p = ts.length
    · subst h2
      rw [List.getElem?_append_right (by simp)]
      simp
    · rw [List.getElem?_eq_none (by simp; omega)]
      rfl

theorem lineWords_length (ts : List String) : (lineWords ts).length = ts.length + 1 := by
  simp [lineWords]

theorem wordAt_eq_none_of_length_le (l : Words) (p : Nat) (h : l.length ≤ p) :
    wordAt l p = none := by
  unfold wordAt
  simp [List.getD_eq_getElem?_getD, List.getElem?_eq_none h]

theorem lt_length_of_wordAt (l : Words) (p : Nat) (w : String) (h : wordAt l p = some w) :
    p < l.length := by
  by_contra hc
  rw [wordAt_eq_none_of_length_le l p (Nat.le_of_not_lt hc)] at h
  cases h

@[simp] theorem setNull_words (s : Sh) (i : Nat) :
    (s.setNull i).words = s.words.set (s.curIndex + i) none := rfl

@[simp] theorem setNull_shellWait (s : Sh) (i : Nat) : (s.setNull i).shellWait = s.shellWait := rfl

@[simp] theorem setNull_curIndex (s : Sh) (i : Nat) : (s.setNull i).curIndex = s.curIndex := rfl

@[simp] theorem setNull_redirInpFD (s : Sh) (i : Nat) :
    (s.setNull i).redirInpFD = s.redirInpFD := rfl

@[simp] theorem setNull_redirOutFD (s : Sh) (i : Nat) :
    (s.setNull i).redirOutFD = s.redirOutFD := rfl

@[simp] theorem setNull_prepipe (s : Sh) (i : Nat) : (s.setNull i).prepipe = s.prepipe := rfl

@[simp] theorem setNull_postpipe (s : Sh) (i : Nat) : (s.setNull i).postpipe = s.postpipe := rfl

@[simp] theorem setNull_pid (s : Sh) (i : Nat) : (s.setNull i).pid = s.pid := rfl

@[simp] theorem setNull_commandLength (s : Sh) (i : Nat) :
    (s.setNull i).commandLength = s.commandLength := rfl

@[simp] theorem setNull_os (s : Sh) (i : Nat) : (s.setNull i).os = s.os := rfl

@[simp] theorem print_words (s : Sh) (m : String) : (s.print m).words = s.words := rfl

@[simp] theorem print_shellWait (s : Sh) (m : String) : (s.print m).shellWait = s.shellWait := rfl

@[simp] theorem print_curIndex (s : Sh) (m : String) : (s.print m).curIndex = s.curIndex := rfl

@[simp] theorem print_redirInpFD (s : Sh) (m : String) :
    (s.print m).redirInpFD = s.redirInpFD := rfl

@[simp] theorem print_redirOutFD (s : Sh) (m : String) :
    (s.print m).redirOutFD = s.redirOutFD := rfl

@[simp] theorem print_prepipe (s : Sh) (m : String) : (s.print m).prepipe = s.prepipe := rfl

@[simp] theorem print_postpipe (s : Sh) (m : String) : (s.print m).postpipe = s.postpipe := rfl

@[simp] theorem print_pid (s : Sh) (m : String) : (s.print m).pid = s.pid := rfl

@[simp] theorem print_commandLength (s : Sh) (m : String) :
    (s.print m).commandLength = s.commandLength := rfl

@[simp] theorem print_os (s : Sh) (m : String) : (s.print m).os = s.os.emit (.print m) := rfl

/-! ## Facts about `open` and `fileRedirect` -/

theorem sysopen_of_openable (w : World) (path : String) (flags mode : Nat)
    (h : w.openable path flags = true) :
    w.sysopen path flags mode = ((w.fdt.free : Int), w.opened path flags mode) := by
  unfold World.openable at h
  unfold World.sysopen World.opened
  simp only [decide_eq_true_eq] at h
  simp [h]

theorem sysopen_of_not_openable (w : World) (path : String) (flags mode : Nat)
    (h : w.openable path flags = false) :
    w.sysopen path flags mode = (-1, w.emit (.sysopen path flags mode (-1))) := by
  unfold World.openable at h
  unfold World.sysopen
  simp only [decide_eq_false_iff_not, not_not] at h
  simp [h]

/-- The condition under which `fileRedirect` succeeds. -/
theorem fileRedirect_ok (FD : Int) (inOut : String) (flags : Nat) (name : String) (os : World)
    (hFD : FD < 0) (hv : isValidWord name = 1) (ho : os.openable name flags = true) :
    fileRedirect FD inOut flags (some name) os
      = (0, (os.fdt.free : Int), os.opened name flags 420) := by
  unfold fileRedirect
  have h1 : ¬ FD ≥ 0 := by omega
  have h2 : ((os.fdt.free : Int) = -1) = False := by
    apply propext; constructor
    · intro h; omega
    · intro h; exact h.elim
  simp [h1, hv, sysopen_of_openable os name flags 420 ho, h2]

/-- When `fileRedirect` does not return -1 its success condition holds. -/
theorem fileRedirect_ne (FD : Int) (inOut : String) (flags : Nat) (fileName : Option String)
    (os : World) (h : (fileRedirect FD inOut flags fileName os).1 ≠ -1) :
    FD < 0 ∧ ∃ name, fileName = some name ∧ isValidWord name = 1 ∧
      os.openable name flags = true := by
  unfold fileRedirect at h
  by_cases h1 : FD ≥ 0
  · simp [h1] at h
  · simp only [h1, if_false] at h
    refine ⟨by omega, ?_⟩
    cases fileName with
    | none => simp at h
    | some name =>
      refine ⟨name, rfl, ?_⟩
      rcases isValidWord_cases name with hv | hv
      · simp [hv] at h
      · refine ⟨hv, ?_⟩
        cases ho : os.openable name flags with
        | true => rfl
        | false =>
          simp [hv, sysopen_of_not_openable os name flags 420 ho] at h

/-! ## Facts about the body of the segmenter loop -/

theorem valid_not_operator (w : String) (h : isValidWord w = 1) :
    w ≠ "<" ∧ w ≠ ">" ∧ w ≠ "|" ∧ w ≠ "&" := by
  refine ⟨?_, ?_, ?_, ?_⟩ <;> intro e <;> subst e <;> revert h <;> decide

theorem errLog_print (log : List Event) (m : String) : ErrLog log (log ++ [.print m]) :=
  ⟨[.print m], rfl, rfl, rfl, rfl, rfl, by simp [printed]⟩

theorem fileRedirect_err_fdt (FD : Int) (inOut : String) (flags : Nat) (fileName : Option String)
    (os : World) (h : (fileRedirect FD inOut flags fileName os).1 = -1) :
    (fileRedirect FD inOut flags fileName os).2.2.fdt = os.fdt ∧
    (fileRedirect FD inOut flags fileName os).2.2.npipes = os.npipes ∧
    (fileRedirect FD inOut flags fileName os).2.2.nextPid = os.nextPid ∧
    ErrLog os.log (fileRedirect FD inOut flags fileName os).2.2.log := by
  by_cases h1 : FD ≥ 0
  · simp [fileRedirect, h1, World.emit, errLog_print]
  · cases fileName with
    | none => simp [fileRedirect, h1, World.emit, errLog_print]
    | some name =>
      rcases isValidWord_cases name with hv | hv
      · simp [fileRedirect, h1, hv, World.emit, errLog_print]
      · cases ho : os.openable name flags with
        | true =>
          rw [fileRedirect_ok FD inOut flags name os (by omega) hv ho] at h
          simp at h
        | false =>
          simp only [fileRedirect, h1, if_false, hv, one_ne_zero,
            sysopen_of_not_openable os name flags 420 ho, if_true, World.emit, true_and]
          exact ⟨[.sysopen name flags 420 (-1), .print ("ERROR: unable to open file: " ++ name ++ "\n")],
            by simp, rfl, rfl, rfl, by simp [outputOpens], by simp [printed]⟩

theorem body_first_invalid (w : String) (nxt : Option String) (s : Sh)
    (hw : isValidWord w = 0) :
    processCommandBody 0 w nxt s
      = .ret (-1) (s.print "ERROR: command cannot begin with an operator\n") := by
  simp [processCommandBody, hw]

theorem body_in (i : Nat) (nxt : Option String) (s : Sh) (hi : 0 < i) :
    processCommandBody i "<" nxt s =
      if (fileRedirect s.redirInpFD "<" O_RDONLY nxt s.os).1 = -1 then
        .ret (-1) { s with
          redirInpFD := (fileRedirect s.redirInpFD "<" O_RDONLY nxt s.os).2.1
          os := (fileRedirect s.redirInpFD "<" O_RDONLY nxt s.os).2.2 }
      else
        .next (i + 1 + 1) ({ s with
          redirInpFD := (fileRedirect s.redirInpFD "<" O_RDONLY nxt s.os).2.1
          os := (fileRedirect s.redirInpFD "<" O_RDONLY nxt s.os).2.2 }.setNull i) := by
  have h0 : ¬ (i = 0 ∧ isValidWord "<" = 0) := fun h => by omega
  simp only [processCommandBody, h0, if_false, if_true]

theorem body_out (i : Nat) (nxt : Option String) (s : Sh) (hi : 0 < i) :
    processCommandBody i ">" nxt s =
      if (fileRedirect s.redirOutFD ">" (O_WRONLY ||| O_CREAT) nxt s.os).1 = -1 then
        .ret (-1) { s with
          redirOutFD := (fileRedirect s.redirOutFD ">" (O_WRONLY ||| O_CREAT) nxt s.os).2.1
          os := (fileRedirect s.redirOutFD ">" (O_WRONLY ||| O_CREAT) nxt s.os).2.2 }
      else
        .next (i + 1 + 1) ({ s with
          redirOutFD := (fileRedirect s.redirOutFD ">" (O_WRONLY ||| O_CREAT) nxt s.os).2.1
          os := (fileRedirect s.redirOutFD ">" (O_WRONLY ||| O_CREAT) nxt s.os).2.2 }.setNull i) := by
  have h0 : ¬ (i = 0 ∧ isValidWord ">" = 0) := fun h => by omega
  have h1 : ¬ (">" = "<") := by decide
  simp only [processCommandBody, h0, h1, if_false, if_true]

theorem body_pipe (i : Nat) (nxt : Option String) (s : Sh) (hi : 0 < i) :
    processCommandBody i "|" nxt s =
      if s.redirOutFD ≥ 0 then
        .ret (-1) (s.print "ERROR: cannot both redirect and pipe output\n")
      else if nxt = none ∨ (nxt.map isValidWord) = some 0 then
        .ret (-1) (s.print "ERROR: | must be followed by command\n")
      else
        .ret ((i + 1 : Nat) : Int) (s.afterPipe i) := by
  have h0 : ¬ (i = 0 ∧ isValidWord "|" = 0) := fun h => by omega
  have h1 : ¬ ("|" = "<") := by decide
  have h2 : ¬ ("|" = ">") := by decide
  simp only [processCommandBody, h0, h1, h2, if_false, if_true, Sh.afterPipe]

theorem body_amp (i : Nat) (nxt : Option String) (s : Sh) (hi : 0 < i) :
    processCommandBody i "&" nxt s =
      if nxt ≠ none then .ret (-1) (s.print "ERROR: illegal use of &\n")
      else .ret (i : Int) (s.afterAmp i) := by
  have h0 : ¬ (i = 0 ∧ isValidWord "&" = 0) := fun h => by omega
  have h1 : ¬ ("&" = "<") := by decide
  have h2 : ¬ ("&" = ">") := by decide
  have h3 : ¬ ("&" = "|") := by decide
  simp only [processCommandBody, h0, h1, h2, h3, if_false, if_true, Sh.afterAmp]

theorem body_word (i : Nat) (w : String) (nxt : Option String) (s : Sh)
    (hv : isValidWord w = 1) :
    processCommandBody i w nxt s = .next (i + 1) s := by
  obtain ⟨h1, h2, h3, h4⟩ := valid_not_operator w hv
  simp [processCommandBody, hv, h1, h2, h3, h4]

theorem body_invalid (i : Nat) (w : String) (nxt : Option String) (s : Sh) (hi : 0 < i)
    (hv : isValidWord w = 0) (h1 : w ≠ "<") (h2 : w ≠ ">") (h3 : w ≠ "|") (h4 : w ≠ "&") :
    processCommandBody i w nxt s
      = .ret (-1) (s.print ("ERROR: " ++ w ++ " contains invalid characters\n")) := by
  have h0 : ¬ i = 0 := by omega
  simp [processCommandBody, h0, h1, h2, h3, h4, hv]

/-- The six ways one pass through the loop body can end. -/
theorem body_cases (i : Nat) (w : String) (nxt : Option String) (s : Sh) :
    (∃ s1, processCommandBody i w nxt s = .ret (-1) s1 ∧ ErrFrame s s1) ∨
    (isValidWord w = 1 ∧ processCommandBody i w nxt s = .next (i + 1) s) ∨
    (w = "<" ∧ 0 < i ∧ s.redirInpFD < 0 ∧ ∃ name, nxt = some name ∧ isValidWord name = 1 ∧
      s.os.openable name O_RDONLY = true ∧
      processCommandBody i w nxt s = .next (i + 1 + 1) (s.afterIn i name)) ∨
    (w = ">" ∧ 0 < i ∧ s.redirOutFD < 0 ∧ ∃ name, nxt = some name ∧ isValidWord name = 1 ∧
      s.os.openable name (O_WRONLY ||| O_CREAT) = true ∧
      processCommandBody i w nxt s = .next (i + 1 + 1) (s.afterOut i name)) ∨
    (w = "|" ∧ 0 < i ∧ s.redirOutFD < 0 ∧ (∃ name, nxt = some name ∧ isValidWord name = 1) ∧
      processCommandBody i w nxt s = .ret ((i + 1 : Nat) : Int) (s.afterPipe i)) ∨
    (w = "&" ∧ 0 < i ∧ nxt = none ∧
      processCommandBody i w nxt s = .ret (i : Int) (s.afterAmp i)) := by
  rcases isValidWord_cases w with hv | hv
  swap
  · exact Or.inr (Or.inl ⟨hv, body_word i w nxt s hv⟩)
  rcases Nat.eq_zero_or_pos i with hi | hi
  · subst hi
    exact Or.inl ⟨_, body_first_invalid w nxt s hv, by simp [ErrFrame, World.emit, errLog_print]⟩
  by_cases hlt : w = "<"
  · subst hlt
    rw [body_in i nxt s hi]
    by_cases hr : (fileRedirect s.redirInpFD "<" O_RDONLY nxt s.os).1 = -1
    · left
      refine ⟨_, if_pos hr, ?_⟩
      have := fileRedirect_err_fdt _ _ _ _ _ hr
      simp [ErrFrame, this]
    · right; right; left
      obtain ⟨hFD, name, hn, hv, ho⟩ := fileRedirect_ne _ _ _ _ _ hr
      refine ⟨rfl, hi, hFD, name, hn, hv, ho, ?_⟩
      rw [if_neg hr]
      subst hn
      rw [fileRedirect_ok _ _ _ _ _ hFD hv ho]
      rfl
  by_cases hgt : w = ">"
  · subst hgt
    rw [body_out i nxt s hi]
    by_cases hr : (fileRedirect s.redirOutFD ">" (O_WRONLY ||| O_CREAT) nxt s.os).1 = -1
    · left
      refine ⟨_, if_pos hr, ?_⟩
      have := fileRedirect_err_fdt _ _ _ _ _ hr
      simp [ErrFrame, this]
    · right; right; right; left
      obtain ⟨hFD, name, hn, hv, ho⟩ := fileRedirect_ne _ _ _ _ _ hr
      refine ⟨rfl, hi, hFD, name, hn, hv, ho, ?_⟩
      rw [if_neg hr]
      subst hn
      rw [fileRedirect_ok _ _ _ _ _ hFD hv ho]
      rfl
  by_cases hbar : w = "|"
  · subst hbar
    rw [body_pipe i nxt s hi]
    by_cases hout : s.redirOutFD ≥ 0
    · exact Or.inl ⟨_, if_pos hout, by simp [ErrFrame, World.emit, errLog_print]⟩
    · rw [if_neg hout]
      by_cases hn : nxt = none ∨ nxt.map isValidWord = some 0
      · exact Or.inl ⟨_, if_pos hn, by simp [ErrFrame, World.emit, errLog_print]⟩
      · right; right; right; right; left
        refine ⟨rfl, hi, by omega, ?_, if_neg hn⟩
        cases nxt with
        | none => simp at hn
        | some name =>
          refine ⟨name, rfl, ?_⟩
          rcases isValidWord_cases name with hv | hv
          · simp [hv] at hn
          · exact hv
  by_cases hamp : w = "&"
  · subst hamp
    rw [body_amp i nxt s hi]
    by_cases hn : nxt = none
    · right; right; right; right; right
      exact ⟨rfl, hi, hn, if_neg (by simp [hn])⟩
    · exact Or.inl ⟨_, if_pos hn, by simp [ErrFrame, World.emit, errLog_print]⟩
  exact Or.inl ⟨_, body_invalid i w nxt s hi hv hlt hgt hbar hamp, by simp [ErrFrame, World.emit, errLog_print]⟩

/-! ## Facts about the segmenter loop -/

theorem loop_null (fuel i : Nat) (s : Sh) (h : wordAt s.words (s.curIndex + i) = none) :
    processCommandLoop (fuel + 1) i s = ((i : Int), s) := by
  simp [processCommandLoop, h]

theorem loop_ret (fuel i : Nat) (s s1 : Sh) (w : String) (v : Int)
    (h : wordAt s.words (s.curIndex + i) = some w)
    (hb : processCommandBody i w (wordAt s.words (s.curIndex + (i + 1))) s = .ret v s1) :
    processCommandLoop (fuel + 1) i s = (v, s1) := by
  simp [processCommandLoop, h, hb]

theorem loop_next (fuel i j : Nat) (s s1 : Sh) (w : String)
    (h : wordAt s.words (s.curIndex + i) = some w)
    (hb : processCommandBody i w (wordAt s.words (s.curIndex + (i + 1))) s = .next j s1) :
    processCommandLoop (fuel + 1) i s = processCommandLoop fuel j s1 := by
  simp [processCommandLoop, h, hb]

/-- Induction over the passes of the segmenter loop, given fuel for every word
that is left. -/
theorem loop_rec (P : Nat → Sh → Int × Sh → Prop)
    (hnull : ∀ i s, wordAt s.words (s.curIndex + i) = none → P i s ((i : Int), s))
    (herr : ∀ i s w s1, wordAt s.words (s.curIndex + i) = some w →
      processCommandBody i w (wordAt s.words (s.curIndex + (i + 1))) s = .ret (-1) s1 →
      ErrFrame s s1 → P i s (-1, s1))
    (hword : ∀ i s w r, wordAt s.words (s.curIndex + i) = some w → isValidWord w = 1 →
      P (i + 1) s r → P i s r)
    (hin : ∀ i s name r, wordAt s.words (s.curIndex + i) = some "<" → 0 < i →
      s.redirInpFD < 0 → wordAt s.words (s.curIndex + (i + 1)) = some name →
      isValidWord name = 1 → s.os.openable name O_RDONLY = true →
      P (i + 1 + 1) (s.afterIn i name) r → P i s r)
    (hout : ∀ i s name r, wordAt s.words (s.curIndex + i) = some ">" → 0 < i →
      s.redirOutFD < 0 → wordAt s.words (s.curIndex + (i + 1)) = some name →
      isValidWord name = 1 → s.os.openable name (O_WRONLY ||| O_CREAT) = true →
      P (i + 1 + 1) (s.afterOut i name) r → P i s r)
    (hpipe : ∀ i s name, wordAt s.words (s.curIndex + i) = some "|" → 0 < i →
      s.redirOutFD < 0 → wordAt s.words (s.curIndex + (i + 1)) = some name →
      isValidWord name = 1 → P i s (((i + 1 : Nat) : Int), s.afterPipe i))
    (hamp : ∀ i s, wordAt s.words (s.curIndex + i) = some "&" → 0 < i →
      wordAt s.words (s.curIndex + (i + 1)) = none → P i s ((i : Int), s.afterAmp i)) :
    ∀ fuel i s, s.words.length - (s.curIndex + i) < fuel →
      P i s (processCommandLoop fuel i s) := by
  intro fuel
  induction fuel with
  | zero => intro i s h; omega
  | succ fuel ih =>
    intro i s hf
    cases hw : wordAt s.words (s.curIndex + i) with
    | none => rw [loop_null fuel i s hw]; exact hnull i s hw
    | some w =>
      have hlen := lt_length_of_wordAt _ _ _ hw
      rcases body_cases i w (wordAt s.words (s.curIndex + (i + 1))) s with
        ⟨s1, hb, hfr⟩ | ⟨hv, hb⟩ | ⟨rfl, hi, hfd, name, hn, hv, ho, hb⟩ |
        ⟨rfl, hi, hfd, name, hn, hv, ho, hb⟩ | ⟨rfl, hi, hfd, ⟨name, hn, hv⟩, hb⟩ |
        ⟨rfl, hi, hn, hb⟩
      · rw [loop_ret fuel i s s1 w _ hw hb]; exact herr i s w s1 hw hb hfr
      · rw [loop_next fuel i _ s s w hw hb]
        exact hword i s w _ hw hv (ih (i + 1) s (by omega))
      · rw [loop_next fuel i _ s _ _ hw hb]
        exact hin i s name _ hw hi hfd hn hv ho
          (ih _ _ (by simp [Sh.afterIn]; omega))
      · rw [loop_next fuel i _ s _ _ hw hb]
        exact hout i s name _ hw hi hfd hn hv ho
          (ih _ _ (by simp [Sh.afterOut]; omega))
      · rw [loop_ret fuel i s _ _ _ hw hb]; exact hpipe i s name hw hi hfd hn hv
      · rw [loop_ret fuel i s _ _ _ hw hb]; exact hamp i s hw hi hn

theorem processCommand_rec (P : Nat → Sh → Int × Sh → Prop)
    (hnull : ∀ i s, wordAt s.words (s.curIndex + i) = none → P i s ((i : Int), s))
    (herr : ∀ i s w s1, wordAt s.words (s.curIndex + i) = some w →
      processCommandBody i w (wordAt s.words (s.curIndex + (i + 1))) s = .ret (-1) s1 →
      ErrFrame s s1 → P i s (-1, s1))
    (hword : ∀ i s w r, wordAt s.words (s.curIndex + i) = some w → isValidWord w = 1 →
      P (i + 1) s r → P i s r)
    (hin : ∀ i s name r, wordAt s.words (s.curIndex + i) = some "<" → 0 < i →
      s.redirInpFD < 0 → wordAt s.words (s.curIndex + (i + 1)) = some name →
      isValidWord name = 1 → s.os.openable name O_RDONLY = true →
      P (i + 1 + 1) (s.afterIn i name) r → P i s r)
    (hout : ∀ i s name r, wordAt s.words (s.curIndex + i) = some ">" → 0 < i →
      s.redirOutFD < 0 → wordAt s.words (s.curIndex + (i + 1)) = some name →
      isValidWord name = 1 → s.os.openable name (O_WRONLY ||| O_CREAT) = true →
      P (i + 1 + 1) (s.afterOut i name) r → P i s r)
    (hpipe : ∀ i s name, wordAt s.words (s.curIndex + i) = some "|" → 0 < i →
      s.redirOutFD < 0 → wordAt s.words (s.curIndex + (i + 1)) = some name →
      isValidWord name = 1 → P i s (((i + 1 : Nat) : Int), s.afterPipe i))
    (hamp : ∀ i s, wordAt s.words (s.curIndex + i) = some "&" → 0 < i →
      wordAt s.words (s.curIndex + (i + 1)) = none → P i s ((i : Int), s.afterAmp i))
    (s : Sh) : P 0 s (processCommand s) :=
  loop_rec P hnull herr hword hin hout hpipe hamp (s.words.length + 1) 0 s (by omega)

theorem wordAt_afterIn (s : Sh) (i : Nat) (name : String) (p : Nat) :
    wordAt (s.afterIn i name).words p
      = if p = s.curIndex + i then none else wordAt s.words p := by
  simp [Sh.afterIn, wordAt_set]

theorem wordAt_afterOut (s : Sh) (i : Nat) (name : String) (p : Nat) :
    wordAt (s.afterOut i name).words p
      = if p = s.curIndex + i then none else wordAt s.words p := by
  simp [Sh.afterOut, wordAt_set]

theorem wordAt_afterPipe (s : Sh) (i : Nat) (p : Nat) :
    wordAt (s.afterPipe i).words p
      = if p = s.curIndex + i then none else wordAt s.words p := by
  simp [Sh.afterPipe, wordAt_set]

theorem wordAt_afterAmp (s : Sh) (i : Nat) (p : Nat) :
    wordAt (s.afterAmp i).words p
      = if p = s.curIndex + i then none else wordAt s.words p := by
  simp [Sh.afterAmp, wordAt_set]

theorem loop_frame (fuel i : Nat) (s : Sh) (hf : s.words.length - (s.curIndex + i) < fuel) :
    LoopFrame i s (processCommandLoop fuel i s) := by
  refine loop_rec LoopFrame ?_ ?_ ?_ ?_ ?_ ?_ ?_ fuel i s hf
  · intro i s h
    refine ⟨rfl, rfl, rfl, rfl, rfl, rfl, fun _ _ => rfl, Or.inr ⟨i, rfl, le_refl _, ?_, ?_, ?_⟩⟩
    · intro p _; rfl
    · exact Or.inl h
    · intro hne; exact absurd h hne
  · intro i s w s1 _ _ hfr
    obtain ⟨h1, h2, h3, h4, h5, h6, h7, h8, h9, h10, _⟩ := hfr
    exact ⟨h3, by rw [h1], h4, h6, h7, h10, fun p _ => by rw [h1], Or.inl rfl⟩
  · intro i s w r _ _ ih
    obtain ⟨h1, h2, h3, h4, h5, h6, h7, h8⟩ := ih
    refine ⟨h1, h2, h3, h4, h5, h6, fun p hp => h7 p (by omega), ?_⟩
    rcases h8 with h8 | ⟨L, hL, hiL, ha, hb, hc⟩
    · exact Or.inl h8
    · exact Or.inr ⟨L, hL, by omega, ha, hb, fun _ _ => by omega⟩
  · intro i s name r _ hi _ _ _ _ ih
    obtain ⟨h1, h2, h3, h4, h5, h6, h7, h8⟩ := ih
    have hc : (s.afterIn i name).curIndex = s.curIndex := rfl
    rw [hc] at h1 h7 h8
    refine ⟨h1, by rw [h2]; simp [Sh.afterIn], h3, h4, h5, h6, ?_, ?_⟩
    · intro p hp
      rw [h7 p (by omega), wordAt_afterIn, if_neg (by omega)]
    · rcases h8 with h8 | ⟨L, hL, hiL, ha, hb, _⟩
      · exact Or.inl h8
      · refine Or.inr ⟨L, hL, by omega, ?_, ?_, fun _ _ => by omega⟩
        · intro p hp
          rw [ha p hp, wordAt_afterIn, if_neg (by omega)]
        · rw [wordAt_afterIn, if_neg (by omega)] at hb
          exact hb
  · intro i s name r _ hi _ _ _ _ ih
    obtain ⟨h1, h2, h3, h4, h5, h6, h7, h8⟩ := ih
    have hc : (s.afterOut i name).curIndex = s.curIndex := rfl
    rw [hc] at h1 h7 h8
    refine ⟨h1, by rw [h2]; simp [Sh.afterOut], h3, h4, h5, h6, ?_, ?_⟩
    · intro p hp
      rw [h7 p (by omega), wordAt_afterOut, if_neg (by omega)]
    · rcases h8 with h8 | ⟨L, hL, hiL, ha, hb, _⟩
      · exact Or.inl h8
      · refine Or.inr ⟨L, hL, by omega, ?_, ?_, fun _ _ => by omega⟩
        · intro p hp
          rw [ha p hp, wordAt_afterOut, if_neg (by omega)]
        · rw [wordAt_afterOut, if_neg (by omega)] at hb
          exact hb
  · intro i s name _ hi _ _ _
    refine ⟨rfl, by simp [Sh.afterPipe], rfl, rfl, rfl, ?_, ?_, Or.inr ⟨i + 1, rfl, by omega, ?_, ?_, ?_⟩⟩
    · simp [Sh.afterPipe, World.pipe]
    · intro p hp
      show wordAt (s.afterPipe i).words p = _
      rw [wordAt_afterPipe, if_neg (by omega)]
    · intro p hp
      show wordAt (s.afterPipe i).words p = _
      rw [wordAt_afterPipe, if_neg (by omega)]
    · right
      show wordAt (s.afterPipe i).words _ = _
      rw [wordAt_afterPipe, if_neg (by omega)]
    · intro _ _; omega
  · intro i s _ hi _
    refine ⟨rfl, by simp [Sh.afterAmp], rfl, rfl, rfl, rfl, ?_, Or.inr ⟨i, rfl, le_refl _, ?_, ?_, ?_⟩⟩
    · intro p hp
      show wordAt (s.afterAmp i).words p = _
      rw [wordAt_afterAmp, if_neg (by omega)]
    · intro p hp
      show wordAt (s.afterAmp i).words p = _
      rw [wordAt_afterAmp, if_neg (by omega)]
    · left
      show wordAt (s.afterAmp i).words _ = _
      rw [wordAt_afterAmp, if_pos rfl]
    · intro _ h0; omega

theorem processCommand_frame (s : Sh) : LoopFrame 0 s (processCommand s) :=
  loop_frame (s.words.length + 1) 0 s (by omega)

/-! ## Facts about the orchestrator loop -/

/-- The parent branch with its two tests pulled to the front. -/
theorem forkAndContinue_eq (s : Sh) (n : Int) :
    forkAndContinue s n =
      if s.postpipe.1 ≥ 0 then
        { s with
          pid := some (s.os.nextPid : Int)
          redirInpFD := s.postpipe.1
          redirOutFD := -1
          prepipe := s.postpipe
          postpipe := (-1, -1)
          curIndex := s.curIndex + n.toNat
          os := if s.prepipe.1 ≥ 0 then
              (({ s.os with
                  nextPid := s.os.nextPid + 1
                  log := s.os.log ++ [Event.fork (childImage s s.os.nextPid)] } : World).close
                s.prepipe.1).close s.prepipe.2
            else
              { s.os with
                nextPid := s.os.nextPid + 1
                log := s.os.log ++ [Event.fork (childImage s s.os.nextPid)] } }
      else
        { s with
          pid := some (s.os.nextPid : Int)
          redirInpFD := -1
          redirOutFD := -1
          curIndex := s.curIndex + n.toNat
          os := if s.prepipe.1 ≥ 0 then
              (({ s.os with
                  nextPid := s.os.nextPid + 1
                  log := s.os.log ++ [Event.fork (childImage s s.os.nextPid)] } : World).close
                s.prepipe.1).close s.prepipe.2
            else
              { s.os with
                nextPid := s.os.nextPid + 1
                log := s.os.log ++ [Event.fork (childImage s s.os.nextPid)] } } := by
  unfold forkAndContinue
  by_cases h1 : s.prepipe.1 ≥ 0 <;> by_cases h2 : s.postpipe.1 ≥ 0 <;> simp [h1, h2]

@[simp] theorem forkAndContinue_words (s : Sh) (n : Int) :
    (forkAndContinue s n).words = s.words := by
  by_cases h : s.postpipe.1 ≥ 0 <;> simp [forkAndContinue_eq, h]

@[simp] theorem forkAndContinue_shellWait (s : Sh) (n : Int) :
    (forkAndContinue s n).shellWait = s.shellWait := by
  by_cases h : s.postpipe.1 ≥ 0 <;> simp [forkAndContinue_eq, h]

@[simp] theorem forkAndContinue_curIndex (s : Sh) (n : Int) :
    (forkAndContinue s n).curIndex = s.curIndex + n.toNat := by
  by_cases h : s.postpipe.1 ≥ 0 <;> simp [forkAndContinue_eq, h]

@[simp] theorem forkAndContinue_commandLength (s : Sh) (n : Int) :
    (forkAndContinue s n).commandLength = s.commandLength := by
  by_cases h : s.postpipe.1 ≥ 0 <;> simp [forkAndContinue_eq, h]

@[simp] theorem forkAndContinue_pid (s : Sh) (n : Int) :
    (forkAndContinue s n).pid = some (s.os.nextPid : Int) := by
  by_cases h : s.postpipe.1 ≥ 0 <;> simp [forkAndContinue_eq, h]

@[simp] theorem afterParse_words (s : Sh) : s.afterParse.words = (processCommand s).2.words := rfl

@[simp] theorem afterParse_shellWait (s : Sh) :
    s.afterParse.shellWait = (processCommand s).2.shellWait := rfl

@[simp] theorem afterParse_curIndex (s : Sh) :
    s.afterParse.curIndex = (processCommand s).2.curIndex := rfl

@[simp] theorem afterParse_commandLength (s : Sh) :
    s.afterParse.commandLength = some (processCommand s).1 := rfl

@[simp] theorem afterParse_os (s : Sh) : s.afterParse.os = (processCommand s).2.os := rfl

@[simp] theorem afterParse_redirInpFD (s : Sh) :
    s.afterParse.redirInpFD = (processCommand s).2.redirInpFD := rfl

@[simp] theorem afterParse_redirOutFD (s : Sh) :
    s.afterParse.redirOutFD = (processCommand s).2.redirOutFD := rfl

@[simp] theorem afterParse_prepipe (s : Sh) :
    s.afterParse.prepipe = (processCommand s).2.prepipe := rfl

@[simp] theorem afterParse_postpipe (s : Sh) :
    s.afterParse.postpipe = (processCommand s).2.postpipe := rfl

@[simp] theorem afterParse_pid (s : Sh) : s.afterParse.pid = (processCommand s).2.pid := rfl

theorem lineLoop_stop (fuel : Nat) (s : Sh) (h : wordAt s.words s.curIndex = none) :
    lineLoop (fuel + 1) s = s := by
  simp [lineLoop, h]

theorem lineLoop_fail (fuel : Nat) (s : Sh) (w : String)
    (h : wordAt s.words s.curIndex = some w) (hr : (processCommand s).1 = -1) :
    lineLoop (fuel + 1) s = s.afterParse := by
  simp [lineLoop, h, hr, Sh.afterParse]

theorem lineLoop_step (fuel : Nat) (s : Sh) (w : String)
    (h : wordAt s.words s.curIndex = some w) (hr : (processCommand s).1 ≠ -1) :
    lineLoop (fuel + 1) s = lineLoop fuel s.afterCommand := by
  simp [lineLoop, h, hr, Sh.afterCommand, Sh.afterParse]

/-- Where the next pass starts after an accepted command: further on in the
same array. -/
theorem afterCommand_progress (s : Sh) (w : String)
    (h : wordAt s.words s.curIndex = some w) (hr : (processCommand s).1 ≠ -1) :
    ∃ L : Nat, (processCommand s).1 = (L : Int) ∧ 0 < L ∧
      s.afterCommand.curIndex = s.curIndex + L ∧
      s.afterCommand.words.length = s.words.length ∧
      (∀ p, s.curIndex + L < p → wordAt s.afterCommand.words p = wordAt s.words p) ∧
      (wordAt s.afterCommand.words (s.curIndex + L) = none ∨
        wordAt s.afterCommand.words (s.curIndex + L) = wordAt s.words (s.curIndex + L)) := by
  obtain ⟨h1, h2, _, _, _, _, _, h8⟩ := processCommand_frame s
  rcases h8 with h8 | ⟨L, hL, _, ha, hb, hc⟩
  · exact absurd h8 hr
  · refine ⟨L, hL, hc (by simp [h]) rfl, ?_, ?_, ?_, ?_⟩
    · simp [Sh.afterCommand, h1, hL]
    · simp [Sh.afterCommand, h2]
    · simpa [Sh.afterCommand] using ha
    · simpa [Sh.afterCommand] using hb

/-- Induction over the passes of the inner loop of `main`, given fuel for every
word that is left. -/
theorem lineLoop_rec (Q : Sh → Sh → Prop)
    (hstop : ∀ s, wordAt s.words s.curIndex = none → Q s s)
    (hfail : ∀ s w, wordAt s.words s.curIndex = some w → (processCommand s).1 = -1 →
      Q s s.afterParse)
    (hstep : ∀ s w f, wordAt s.words s.curIndex = some w → (processCommand s).1 ≠ -1 →
      Q s.afterCommand f → Q s f) :
    ∀ fuel s, s.words.length - s.curIndex < fuel → Q s (lineLoop fuel s) := by
  intro fuel
  induction fuel with
  | zero => intro s h; omega
  | succ fuel ih =>
    intro s hf
    cases hw : wordAt s.words s.curIndex with
    | none => rw [lineLoop_stop fuel s hw]; exact hstop s hw
    | some w =>
      by_cases hr : (processCommand s).1 = -1
      · rw [lineLoop_fail fuel s w hw hr]; exact hfail s w hw hr
      · rw [lineLoop_step fuel s w hw hr]
        obtain ⟨L, _, hL, hc, hl, _, _⟩ := afterCommand_progress s w hw hr
        have hlen := lt_length_of_wordAt _ _ _ hw
        exact hstep s w _ hw hr (ih _ (by rw [hc, hl]; omega))

/-! ## Facts about the log -/

theorem forks_append (a b : List Event) : forks (a ++ b) = forks a ++ forks b := by
  induction a with
  | nil => rfl
  | cons e rest ih => cases e <;> simp [forks, ih]

theorem pipesOf_append (a b : List Event) : pipesOf (a ++ b) = pipesOf a ++ pipesOf b := by
  induction a with
  | nil => rfl
  | cons e rest ih => cases e <;> simp [pipesOf, ih]

theorem printed_append (a b : List Event) : printed (a ++ b) = printed a ++ printed b := by
  induction a with
  | nil => rfl
  | cons e rest ih => cases e <;> simp [printed, ih]

theorem waits_append (a b : List Event) : waits (a ++ b) = waits a ++ waits b := by
  induction a with
  | nil => rfl
  | cons e rest ih => cases e <;> simp [waits, ih]

theorem outputOpens_append (a b : List Event) :
    outputOpens (a ++ b) = outputOpens a ++ outputOpens b := by
  induction a with
  | nil => rfl
  | cons e rest ih =>
    cases e <;> simp [outputOpens, ih]
    split <;> simp

theorem free_ne_of_obj (t : FdTable) (fd : Int) (o : Obj) (h : t.obj fd = some o) :
    (t.free : Int) ≠ fd := by
  intro e
  rw [← e, obj_free] at h
  cases h

theorem pipe_read_ne_write (w : World) : w.pipe.1.1 ≠ w.pipe.1.2 := by
  intro e
  have h := free_ne_of_obj (w.fdt.put w.fdt.free (some (.pipeRead w.npipes))) (w.fdt.free : Int)
    (.pipeRead w.npipes) (by simp [obj_put])
  exact h e.symm

theorem pipe_obj_write (w : World) : w.pipe.2.fdt.obj w.pipe.1.2 = some (.pipeWrite w.npipes) := by
  simp [World.pipe, obj_put]

theorem pipe_obj_read (w : World) : w.pipe.2.fdt.obj w.pipe.1.1 = some (.pipeRead w.npipes) := by
  have h := pipe_read_ne_write w
  simp only [World.pipe] at h ⊢
  rw [obj_put, if_neg h]
  simp [obj_put]

theorem pipe_log (w : World) : w.pipe.2.log = w.log ++ [.pipe w.pipe.1.1 w.pipe.1.2] := rfl

/-- A successful run of the segmenter loop never both opens a file for output
and creates a pipe. -/
theorem loop_no_redirect_and_pipe (fuel i : Nat) (s : Sh)
    (hf : s.words.length - (s.curIndex + i) < fuel) :
    (processCommandLoop fuel i s).1 ≠ -1 →
      ∃ evs, (processCommandLoop fuel i s).2.os.log = s.os.log ++ evs ∧
        (0 ≤ s.redirOutFD → pipesOf evs = []) ∧ (outputOpens evs = [] ∨ pipesOf evs = []) := by
  refine loop_rec (fun i s r => r.1 ≠ -1 → ∃ evs, r.2.os.log = s.os.log ++ evs ∧
    (0 ≤ s.redirOutFD → pipesOf evs = []) ∧ (outputOpens evs = [] ∨ pipesOf evs = []))
    ?_ ?_ ?_ ?_ ?_ ?_ ?_ fuel i s hf
  · intro i s _ _
    exact ⟨[], by simp, fun _ => rfl, Or.inl rfl⟩
  · intro i s w s1 _ _ _ h
    exact absurd rfl h
  · intro i s w r _ _ ih h
    exact ih h
  · intro i s name r _ _ _ _ _ _ ih h
    obtain ⟨evs, h1, h2, h3⟩ := ih h
    refine ⟨.sysopen name O_RDONLY 420 s.os.fdt.free :: evs, ?_, ?_, ?_⟩
    · rw [h1]; simp [Sh.afterIn, World.opened]
    · intro h0; simpa [pipesOf] using h2 h0
    · simpa [pipesOf, outputOpens, O_RDONLY, O_WRONLY] using h3
  · intro i s name r _ _ _ _ _ _ ih h
    obtain ⟨evs, h1, h2, _⟩ := ih h
    have hp : pipesOf evs = [] := h2 (by simp [Sh.afterOut])
    refine ⟨.sysopen name (O_WRONLY ||| O_CREAT) 420 s.os.fdt.free :: evs, ?_, ?_, ?_⟩
    · rw [h1]; simp [Sh.afterOut, World.opened]
    · intro _; simpa [pipesOf] using hp
    · right; simpa [pipesOf] using hp
  · intro i s name _ _ hfd _ _ _
    refine ⟨[.pipe s.os.pipe.1.1 s.os.pipe.1.2], ?_, ?_, ?_⟩
    · simp [Sh.afterPipe, pipe_log]
    · intro h0; omega
    · left; rfl
  · intro i s _ _ _ _
    exact ⟨[], by simp [Sh.afterAmp], fun _ => rfl, Or.inl rfl⟩

/-! ## The wait flag -/

theorem runLine_shellWait (os : World) (ts : List String) :
    (runLine os ts).shellWait = (lineLoop ((lineWords ts).length + 1) (initSh os (lineWords ts))).shellWait := by
  unfold runLine runWords
  simp only []
  split <;> rfl

/-! ## The argument vector -/

theorem argvAt_step (w : Words) (c : Nat) :
    argvAt w c = match wordAt w c with
      | none => []
      | some x => x :: argvAt w (c + 1) := by
  induction w generalizing c with
  | nil => cases c <;> simp [argvAt, wordAt]
  | cons a rest ih =>
    cases c with
    | zero =>
      cases a with
      | none => simp [argvAt, wordAt]
      | some x =>
        have h1 : argvAt (some x :: rest) 0 = x :: argvAt rest 0 := rfl
        have h2 : argvAt (some x :: rest) (0 + 1) = argvAt rest 0 := rfl
        rw [h1, h2]
        simp [wordAt]
    | succ c =>
      have h1 : argvAt (a :: rest) (c + 1) = argvAt rest c := by
        cases a <;> rfl
      have h2 : argvAt (a :: rest) (c + 1 + 1) = argvAt rest (c + 1) := by
        cases a <;> rfl
      have h3 : wordAt (a :: rest) (c + 1) = wordAt rest c := by simp [wordAt]
      rw [h1, h2, h3]
      exact ih c

theorem argvAt_lineWords (ts : List String) : argvAt (lineWords ts) 0 = ts := by
  induction ts with
  | nil => rfl
  | cons t rest ih =>
    have : argvAt (lineWords (t :: rest)) 0 = t :: argvAt (lineWords rest) 0 := rfl
    rw [this, ih]

/-- The argument vector read from an array that agrees with another array on
the words before the first operator or `NULL` of that one, and has `NULL`
there. -/
theorem argvAt_takeWhile (k : Nat) : ∀ (c : Nat) (w1 w2 : Words),
    (∀ j, j < k → ∃ x, wordAt w2 (c + j) = some x ∧ isOperator x = false ∧
      wordAt w1 (c + j) = some x) →
    wordAt w1 (c + k) = none →
    (wordAt w2 (c + k) = none ∨ ∃ op, wordAt w2 (c + k) = some op ∧ isOperator op = true) →
    argvAt w1 c = (argvAt w2 c).takeWhile (fun t => !isOperator t) := by
  induction k with
  | zero =>
    intro c w1 w2 _ h1 h2
    rw [argvAt_step w1 c, argvAt_step w2 c]
    simp only [Nat.add_zero] at h1 h2
    rw [h1]
    rcases h2 with h2 | ⟨op, h2, h3⟩
    · rw [h2]; rfl
    · rw [h2]; simp [List.takeWhile, h3]
  | succ k ih =>
    intro c w1 w2 h h1 h2
    obtain ⟨x, hx2, hxo, hx1⟩ := h 0 (by omega)
    simp only [Nat.add_zero] at hx1 hx2
    rw [argvAt_step w1 c, argvAt_step w2 c, hx1, hx2]
    simp only [List.takeWhile, hxo, Bool.not_false]
    congr 1
    refine ih (c + 1) w1 w2 ?_ ?_ ?_
    · intro j hj
      have := h (j + 1) (by omega)
      rwa [show c + (j + 1) = c + 1 + j by omega] at this
    · rwa [show c + (k + 1) = c + 1 + k by omega] at h1
    · rwa [show c + (k + 1) = c + 1 + k by omega] at h2

theorem valid_isOperator (w : String) (h : isValidWord w = 1) : isOperator w = false := by
  obtain ⟨h1, h2, h3, h4⟩ := valid_not_operator w h
  simp [isOperator, h1, h2, h3, h4]

/-! ## Lines of plain words -/

/-- Over `k` valid words followed by `NULL` the segmenter loop returns the index
of that `NULL` and changes nothing. -/
theorem loop_plain (k : Nat) : ∀ (fuel i : Nat) (s : Sh),
    (∀ j, j < k → ∃ w, wordAt s.words (s.curIndex + (i + j)) = some w ∧ isValidWord w = 1) →
    wordAt s.words (s.curIndex + (i + k)) = none → k < fuel →
    processCommandLoop fuel i s = (((i + k : Nat) : Int), s) := by
  induction k with
  | zero =>
    intro fuel i s _ h hf
    obtain ⟨f, rfl⟩ : ∃ f, fuel = f + 1 := ⟨fuel - 1, by omega⟩
    exact loop_null f i s h
  | succ k ih =>
    intro fuel i s h hn hf
    obtain ⟨f, rfl⟩ : ∃ f, fuel = f + 1 := ⟨fuel - 1, by omega⟩
    obtain ⟨w, hw, hv⟩ := h 0 (by omega)
    rw [loop_next f i (i + 1) s s w hw (body_word i w _ s hv)]
    rw [ih f (i + 1) s ?_ ?_ (by omega)]
    · rw [show i + 1 + k = i + (k + 1) by omega]
    · intro j hj
      have := h (j + 1) (by omega)
      rwa [show i + (j + 1) = i + 1 + j by omega] at this
    · rwa [show i + (k + 1) = i + 1 + k by omega] at hn

theorem processCommand_plain (os : World) (ts : List String)
    (hv : ∀ t ∈ ts, isValidWord t = 1) :
    processCommand (initSh os (lineWords ts))
      = ((ts.length : Int), initSh os (lineWords ts)) := by
  unfold processCommand
  have := loop_plain ts.length ((initSh os (lineWords ts)).words.length + 1) 0
    (initSh os (lineWords ts)) ?_ ?_ ?_
  · simpa using this
  · intro j hj
    refine ⟨ts[j], ?_, hv _ (List.getElem_mem _)⟩
    simp [initSh, wordAt_lineWords, hj]
  · simp [initSh, wordAt_lineWords]
  · simp [initSh, lineWords_length]; omega

/-! ## The argument vector of an accepted command -/

/-- In a successful run of the segmenter loop from index `i` there is a first
index `k ≥ i` holding an operator or `NULL`; the words before it are valid, the
result has `NULL` at `k` and is unchanged before `k`. -/
theorem loop_first_operator (fuel i : Nat) (s : Sh)
    (hf : s.words.length - (s.curIndex + i) < fuel) :
    (processCommandLoop fuel i s).1 ≠ -1 →
      ∃ k, i ≤ k ∧
        (∀ j, i ≤ j → j < k → ∃ w, wordAt s.words (s.curIndex + j) = some w ∧ isValidWord w = 1) ∧
        wordAt (processCommandLoop fuel i s).2.words (s.curIndex + k) = none ∧
        (wordAt s.words (s.curIndex + k) = none ∨
          ∃ op, wordAt s.words (s.curIndex + k) = some op ∧ isOperator op = true) ∧
        (∀ p, p < s.curIndex + k →
          wordAt (processCommandLoop fuel i s).2.words p = wordAt s.words p) := by
  refine loop_rec (fun i s r => r.1 ≠ -1 →
      ∃ k, i ≤ k ∧
        (∀ j, i ≤ j → j < k → ∃ w, wordAt s.words (s.curIndex + j) = some w ∧ isValidWord w = 1) ∧
        wordAt r.2.words (s.curIndex + k) = none ∧
        (wordAt s.words (s.curIndex + k) = none ∨
          ∃ op, wordAt s.words (s.curIndex + k) = some op ∧ isOperator op = true) ∧
        (∀ p, p < s.curIndex + k → wordAt r.2.words p = wordAt s.words p))
    ?_ ?_ ?_ ?_ ?_ ?_ ?_ fuel i s hf
  · intro i s h _
    exact ⟨i, le_refl _, fun j h1 h2 => by omega, h, Or.inl h, fun _ _ => rfl⟩
  · intro i s w s1 _ _ _ h
    exact absurd rfl h
  · intro i s w r hw hv ih h
    obtain ⟨k, h1, h2, h3, h4, h5⟩ := ih h
    refine ⟨k, by omega, ?_, h3, h4, h5⟩
    intro j hj1 hj2
    rcases Nat.eq_or_lt_of_le hj1 with e | e
    · subst e; exact ⟨w, hw, hv⟩
    · exact h2 j (by omega) hj2
  · intro i s name r hw _ _ _ _ _ ih h
    obtain ⟨k, h1, _, _, _, h5⟩ := ih h
    have hc : (s.afterIn i name).curIndex = s.curIndex := rfl
    rw [hc] at h5
    refine ⟨i, le_refl _, fun j h1 h2 => by omega, ?_, Or.inr ⟨"<", hw, rfl⟩, ?_⟩
    · rw [h5 _ (by omega), wordAt_afterIn, if_pos rfl]
    · intro p hp
      rw [h5 p (by omega), wordAt_afterIn, if_neg (by omega)]
  · intro i s name r hw _ _ _ _ _ ih h
    obtain ⟨k, h1, _, _, _, h5⟩ := ih h
    have hc : (s.afterOut i name).curIndex = s.curIndex := rfl
    rw [hc] at h5
    refine ⟨i, le_refl _, fun j h1 h2 => by omega, ?_, Or.inr ⟨">", hw, rfl⟩, ?_⟩
    · rw [h5 _ (by omega), wordAt_afterOut, if_pos rfl]
    · intro p hp
      rw [h5 p (by omega), wordAt_afterOut, if_neg (by omega)]
  · intro i s name hw _ _ _ _ _
    refine ⟨i, le_refl _, fun j h1 h2 => by omega, ?_, Or.inr ⟨"|", hw, rfl⟩, ?_⟩
    · show wordAt (s.afterPipe i).words _ = none
      rw [wordAt_afterPipe, if_pos rfl]
    · intro p hp
      show wordAt (s.afterPipe i).words _ = _
      rw [wordAt_afterPipe, if_neg (by omega)]
  · intro i s hw _ _ _
    refine ⟨i, le_refl _, fun j h1 h2 => by omega, ?_, Or.inr ⟨"&", hw, rfl⟩, ?_⟩
    · show wordAt (s.afterAmp i).words _ = none
      rw [wordAt_afterAmp, if_pos rfl]
    · intro p hp
      show wordAt (s.afterAmp i).words _ = _
      rw [wordAt_afterAmp, if_neg (by omega)]

/-! ## Calls made by the segmenter -/

/-- The segmenter loop only appends to the log, and neither forks nor waits. -/
theorem loop_log (fuel i : Nat) (s : Sh) (hf : s.words.length - (s.curIndex + i) < fuel) :
    ∃ evs, (processCommandLoop fuel i s).2.os.log = s.os.log ++ evs ∧ forks evs = [] ∧
      waits evs = [] := by
  refine loop_rec (fun i s r => ∃ evs, r.2.os.log = s.os.log ++ evs ∧ forks evs = [] ∧
      waits evs = []) ?_ ?_ ?_ ?_ ?_ ?_ ?_ fuel i s hf
  · intro i s _; exact ⟨[], by simp, rfl, rfl⟩
  · intro i s w s1 _ _ hfr
    obtain ⟨evs, h1, h2, h3, _⟩ := hfr.2.2.2.2.2.2.2.2.2.2
    exact ⟨evs, h1, h2, h3⟩
  · intro i s w r _ _ ih; exact ih
  · intro i s name r _ _ _ _ _ _ ih
    obtain ⟨evs, h1, h2, h3⟩ := ih
    refine ⟨.sysopen name O_RDONLY 420 s.os.fdt.free :: evs, ?_, ?_, ?_⟩
    · rw [h1]; simp [Sh.afterIn, World.opened]
    · simpa [forks] using h2
    · simpa [waits] using h3
  · intro i s name r _ _ _ _ _ _ ih
    obtain ⟨evs, h1, h2, h3⟩ := ih
    refine ⟨.sysopen name (O_WRONLY ||| O_CREAT) 420 s.os.fdt.free :: evs, ?_, ?_, ?_⟩
    · rw [h1]; simp [Sh.afterOut, World.opened]
    · simpa [forks] using h2
    · simpa [waits] using h3
  · intro i s name _ _ _ _ _
    exact ⟨[.pipe s.os.pipe.1.1 s.os.pipe.1.2], by simp [Sh.afterPipe, pipe_log], rfl, rfl⟩
  · intro i s _ _ _
    exact ⟨[], by simp [Sh.afterAmp], rfl, rfl⟩

theorem body_in_ok (i : Nat) (name : String) (s : Sh) (hi : 0 < i) (hfd : s.redirInpFD < 0)
    (hv : isValidWord name = 1) (ho : s.os.openable name O_RDONLY = true) :
    processCommandBody i "<" (some name) s = .next (i + 1 + 1) (s.afterIn i name) := by
  rw [body_in i _ s hi, fileRedirect_ok _ _ _ _ _ hfd hv ho]
  rfl

theorem body_out_ok (i : Nat) (name : String) (s : Sh) (hi : 0 < i) (hfd : s.redirOutFD < 0)
    (hv : isValidWord name = 1) (ho : s.os.openable name (O_WRONLY ||| O_CREAT) = true) :
    processCommandBody i ">" (some name) s = .next (i + 1 + 1) (s.afterOut i name) := by
  rw [body_out i _ s hi, fileRedirect_ok _ _ _ _ _ hfd hv ho]
  rfl

theorem body_pipe_ok (i : Nat) (name : String) (s : Sh) (hi : 0 < i) (hfd : s.redirOutFD < 0)
    (hv : isValidWord name = 1) :
    processCommandBody i "|" (some name) s = .ret ((i + 1 : Nat) : Int) (s.afterPipe i) := by
  rw [body_pipe i _ s hi, if_neg (by omega), if_neg (by simp [hv])]

theorem body_amp_ok (i : Nat) (s : Sh) (hi : 0 < i) :
    processCommandBody i "&" none s = .ret (i : Int) (s.afterAmp i) := by
  rw [body_amp i _ s hi, if_neg (by simp)]

theorem shadow_word (n k : Nat) (s1 s2 : Sh) (h : Shadow n k s1 s2) (p : Nat) (w : String)
    (hw : wordAt s1.words p = some w) (hv : w ≠ "&") : wordAt s2.words p = some w ∧ p ≠ n := by
  have hp : p ≠ n := by
    intro e
    rw [e, h.2.2.1] at hw
    cases hw
    exact hv rfl
  exact ⟨by rw [← h.2.1 p hp]; exact hw, hp⟩

theorem shadow_set (n k k2 : Nat) (s1 s2 t1 t2 : Sh) (j : Nat) (h : Shadow n k s1 s2)
    (hj : j ≠ n) (hjk : j < k2) (hk : k ≤ k2)
    (ht1 : t1.words = s1.words.set j none) (ht2 : t2.words = s2.words.set j none)
    (ht : t2 = { t1 with words := t2.words }) :
    Shadow n k2 t1 t2 := by
  refine ⟨ht, ?_, ?_, ?_, ?_⟩
  · intro p hp
    rw [ht1, ht2, wordAt_set, wordAt_set, h.2.1 p hp]
  · rw [ht1, wordAt_set, if_neg (fun e => hj e.symm)]
    exact h.2.2.1
  · rw [ht2, wordAt_set, if_neg (fun e => hj e.symm)]
    exact h.2.2.2.1
  · intro p hp1 hp2
    rw [ht1, wordAt_set, if_neg (by omega)]
    exact h.2.2.2.2 p (by omega) hp2

theorem shadow_mono (n k k2 : Nat) (s1 s2 : Sh) (h : Shadow n k s1 s2) (hk : k ≤ k2) :
    Shadow n k2 s1 s2 :=
  ⟨h.1, h.2.1, h.2.2.1, h.2.2.2.1, fun p hp1 hp2 => h.2.2.2.2 p (by omega) hp2⟩

/-- The segmenter loop on the line without the final `&` follows an accepted
run on the line with it. -/
theorem loop_shadow (n : Nat) (fuel1 i : Nat) (s1 : Sh)
    (hf : s1.words.length - (s1.curIndex + i) < fuel1) :
    ∀ (fuel2 : Nat) (s2 : Sh), Shadow n (s1.curIndex + i) s1 s2 → s1.curIndex + i ≤ n →
      s2.words.length - (s2.curIndex + i) < fuel2 →
      (processCommandLoop fuel1 i s1).1 ≠ -1 →
      ∃ L : Nat, (processCommandLoop fuel1 i s1).1 = (L : Int) ∧
        (processCommandLoop fuel2 i s2).1 = (L : Int) ∧
        ((Shadow n (s1.curIndex + L) (processCommandLoop fuel1 i s1).2
            (processCommandLoop fuel2 i s2).2 ∧ s1.curIndex + L ≤ n ∧
            (processCommandLoop fuel1 i s1).2.shellWait = s1.shellWait) ∨
          (Ended n s1.shellWait (processCommandLoop fuel1 i s1).2 (processCommandLoop fuel2 i s2).2 ∧
            s1.curIndex + L = n)) := by
  refine loop_rec (fun i s1 r1 => ∀ (fuel2 : Nat) (s2 : Sh),
      Shadow n (s1.curIndex + i) s1 s2 → s1.curIndex + i ≤ n →
      s2.words.length - (s2.curIndex + i) < fuel2 → r1.1 ≠ -1 →
      ∃ L : Nat, r1.1 = (L : Int) ∧ (processCommandLoop fuel2 i s2).1 = (L : Int) ∧
        ((Shadow n (s1.curIndex + L) r1.2 (processCommandLoop fuel2 i s2).2 ∧
            s1.curIndex + L ≤ n ∧ r1.2.shellWait = s1.shellWait) ∨
          (Ended n s1.shellWait r1.2 (processCommandLoop fuel2 i s2).2 ∧ s1.curIndex + L = n)))
    ?_ ?_ ?_ ?_ ?_ ?_ ?_ fuel1 i s1 hf
  · intro i s1 hw fuel2 s2 hsh hle _ _
    exact absurd hw (hsh.2.2.2.2 _ (le_refl _) hle)
  · intro i s1 w t1 _ _ _ fuel2 s2 _ _ _ h
    exact absurd rfl h
  · intro i s1 w r1 hw hv ih fuel2 s2 hsh hle hf2 hacc
    obtain ⟨f2, rfl⟩ : ∃ f, fuel2 = f + 1 := ⟨fuel2 - 1, by omega⟩
    have hc : s2.curIndex = s1.curIndex := by rw [hsh.1]
    obtain ⟨hw2, hne⟩ := shadow_word n _ s1 s2 hsh _ w hw (valid_not_operator w hv).2.2.2
    rw [← hc] at hw2
    rw [loop_next f2 i (i + 1) s2 s2 w hw2 (body_word i w _ s2 hv)]
    have hlen := lt_length_of_wordAt _ _ _ hw2
    exact ih f2 s2 (shadow_mono n _ _ s1 s2 hsh (by omega)) (by omega) (by omega) hacc
  · intro i s1 name r1 hw hi hfd hn hv ho ih fuel2 s2 hsh hle hf2 hacc
    obtain ⟨f2, rfl⟩ : ∃ f, fuel2 = f + 1 := ⟨fuel2 - 1, by omega⟩
    have hc : s2.curIndex = s1.curIndex := by rw [hsh.1]
    obtain ⟨hw2, hne⟩ := shadow_word n _ s1 s2 hsh _ "<" hw (by decide)
    obtain ⟨hn2, hne2⟩ := shadow_word n _ s1 s2 hsh _ name hn (valid_not_operator name hv).2.2.2
    rw [← hc] at hw2 hn2
    have hfd2 : s2.redirInpFD < 0 := by rw [hsh.1]; exact hfd
    have ho2 : s2.os.openable name O_RDONLY = true := by rw [hsh.1]; exact ho
    have hb2 := body_in_ok i name s2 hi hfd2 hv ho2
    rw [← hn2] at hb2
    rw [loop_next f2 i _ s2 _ "<" hw2 hb2]
    have hlen := lt_length_of_wordAt _ _ _ hn2
    have hsh2 : Shadow n (s1.curIndex + (i + 1 + 1)) (s1.afterIn i name) (s2.afterIn i name) := by
      refine shadow_set n _ _ s1 s2 _ _ (s1.curIndex + i) hsh hne (by omega) (by omega) rfl
        (by simp [Sh.afterIn, hc]) ?_
      have := hsh.1
      rw [this]
      rfl
    have := ih f2 (s2.afterIn i name) hsh2 (by show s1.curIndex + _ ≤ n; omega)
      (by simp [Sh.afterIn] at hlen ⊢; omega) hacc
    exact this
  · intro i s1 name r1 hw hi hfd hn hv ho ih fuel2 s2 hsh hle hf2 hacc
    obtain ⟨f2, rfl⟩ : ∃ f, fuel2 = f + 1 := ⟨fuel2 - 1, by omega⟩
    have hc : s2.curIndex = s1.curIndex := by rw [hsh.1]
    obtain ⟨hw2, hne⟩ := shadow_word n _ s1 s2 hsh _ ">" hw (by decide)
    obtain ⟨hn2, hne2⟩ := shadow_word n _ s1 s2 hsh _ name hn (valid_not_operator name hv).2.2.2
    rw [← hc] at hw2 hn2
    have hfd2 : s2.redirOutFD < 0 := by rw [hsh.1]; exact hfd
    have ho2 : s2.os.openable name (O_WRONLY ||| O_CREAT) = true := by rw [hsh.1]; exact ho
    have hb2 := body_out_ok i name s2 hi hfd2 hv ho2
    rw [← hn2] at hb2
    rw [loop_next f2 i _ s2 _ ">" hw2 hb2]
    have hlen := lt_length_of_wordAt _ _ _ hn2
    have hsh2 : Shadow n (s1.curIndex + (i + 1 + 1)) (s1.afterOut i name) (s2.afterOut i name) := by
      refine shadow_set n _ _ s1 s2 _ _ (s1.curIndex + i) hsh hne (by omega) (by omega) rfl
        (by simp [Sh.afterOut, hc]) ?_
      have := hsh.1
      rw [this]
      rfl
    have := ih f2 (s2.afterOut i name) hsh2 (by show s1.curIndex + _ ≤ n; omega)
      (by simp [Sh.afterOut] at hlen ⊢; omega) hacc
    exact this
  · intro i s1 name hw hi hfd hn hv fuel2 s2 hsh hle hf2 _
    obtain ⟨f2, rfl⟩ : ∃ f, fuel2 = f + 1 := ⟨fuel2 - 1, by omega⟩
    have hc : s2.curIndex = s1.curIndex := by rw [hsh.1]
    obtain ⟨hw2, hne⟩ := shadow_word n _ s1 s2 hsh _ "|" hw (by decide)
    obtain ⟨hn2, hne2⟩ := shadow_word n _ s1 s2 hsh _ name hn (valid_not_operator name hv).2.2.2
    rw [← hc] at hw2 hn2
    have hfd2 : s2.redirOutFD < 0 := by rw [hsh.1]; exact hfd
    have hb2 := body_pipe_ok i name s2 hi hfd2 hv
    rw [← hn2] at hb2
    rw [loop_ret f2 i s2 _ "|" _ hw2 hb2]
    refine ⟨i + 1, rfl, rfl, Or.inl ⟨?_, by omega, rfl⟩⟩
    refine shadow_set n _ _ s1 s2 _ _ (s1.curIndex + i) hsh hne (by omega) (by omega) rfl
      (by simp [Sh.afterPipe, hc]) ?_
    have := hsh.1
    rw [this]
    rfl
  · intro i s1 hw hi hn fuel2 s2 hsh hle hf2 _
    obtain ⟨f2, rfl⟩ : ∃ f, fuel2 = f + 1 := ⟨fuel2 - 1, by omega⟩
    have hc : s2.curIndex = s1.curIndex := by rw [hsh.1]
    have hin : s1.curIndex + i = n := by
      by_contra hcon
      exact hsh.2.2.2.2 (s1.curIndex + (i + 1)) (by omega) (by omega) hn
    have hw2 : wordAt s2.words (s2.curIndex + i) = none := by
      rw [hc, hin]; exact hsh.2.2.2.1
    rw [loop_null f2 i s2 hw2]
    refine ⟨i, rfl, rfl, Or.inr ⟨⟨rfl, ?_, ?_, ?_⟩, hin⟩⟩
    · have := hsh.1
      rw [this]
      rfl
    · intro p
      rw [wordAt_afterAmp, hin]
      by_cases hp : p = n
      · rw [if_pos hp, hp, hsh.2.2.2.1]
      · rw [if_neg hp, hsh.2.1 p hp]
    · show wordAt (s1.afterAmp i).words n = none
      rw [wordAt_afterAmp, hin, if_pos rfl]

theorem processCommand_of_first_invalid (s : Sh) (w : String)
    (hfirst : wordAt s.words s.curIndex = some w) (hv : isValidWord w = 0) :
    processCommand s = (-1, s.print "ERROR: command cannot begin with an operator\n") := by
  unfold processCommand
  exact loop_ret _ 0 s _ w _ (by simpa using hfirst) (body_first_invalid w _ s hv)

/-- Two arrays that agree from `c` up to a `NULL` give the same argv at `c`. -/
theorem argvAt_congr (k : Nat) : ∀ (c : Nat) (w1 w2 : Words),
    (∀ j, j ≤ k → wordAt w1 (c + j) = wordAt w2 (c + j)) → wordAt w1 (c + k) = none →
    argvAt w1 c = argvAt w2 c := by
  induction k with
  | zero =>
    intro c w1 w2 h h1
    have h2 := h 0 (le_refl _)
    simp only [Nat.add_zero] at h1 h2
    rw [argvAt_step w1 c, argvAt_step w2 c, ← h2, h1]
  | succ k ih =>
    intro c w1 w2 h h1
    have h2 := h 0 (by omega)
    simp only [Nat.add_zero] at h2
    rw [argvAt_step w1 c, argvAt_step w2 c, ← h2]
    cases hw : wordAt w1 c with
    | none => rfl
    | some x =>
      simp only
      congr 1
      refine ih (c + 1) w1 w2 ?_ ?_
      · intro j hj
        have := h (j + 1) (by omega)
        rwa [show c + (j + 1) = c + 1 + j by omega] at this
      · rwa [show c + (k + 1) = c + 1 + k by omega] at h1

theorem argvAt_ext (c : Nat) (w1 w2 : Words) (h : ∀ p, wordAt w1 p = wordAt w2 p) :
    argvAt w1 c = argvAt w2 c :=
  argvAt_congr w1.length c w1 w2 (fun j _ => h _)
    (wordAt_eq_none_of_length_le _ _ (by omega))

theorem fork_congr (s : Sh) (W : Words) (x : Int) (n : Int)
    (hfile : wordAt W s.curIndex = wordAt s.words s.curIndex)
    (hargv : argvAt W s.curIndex = argvAt s.words s.curIndex) :
    forkAndContinue { s with words := W, shellWait := x } n
      = { forkAndContinue s n with words := W, shellWait := x } := by
  by_cases h : s.postpipe.1 ≥ 0 <;> simp [forkAndContinue_eq, childImage, h, hfile, hargv]

theorem lineLoop_of_null (fuel : Nat) (s : Sh) (h : wordAt s.words s.curIndex = none) :
    lineLoop fuel s = s := by
  cases fuel with
  | zero => rfl
  | succ f => exact lineLoop_stop f s h

/-- The inner loop of `main` on the line without the final `&` follows an
accepted run on the line with it: the two end in states that differ in the wait
flag and the array only. -/
theorem lineLoop_shadow (n : Nat) (fuel1 : Nat) : ∀ (s1 : Sh) (fuel2 : Nat) (s2 : Sh),
    s1.words.length - s1.curIndex < fuel1 → s2.words.length - s2.curIndex < fuel2 →
    Shadow n s1.curIndex s1 s2 → s1.curIndex ≤ n →
    (lineLoop fuel1 s1).commandLength ≠ some (-1) →
    Ended n s1.shellWait (lineLoop fuel1 s1) (lineLoop fuel2 s2) := by
  induction fuel1 with
  | zero => intro s1 fuel2 s2 h; omega
  | succ f1 ih =>
    intro s1 fuel2 s2 hf1 hf2 hsh hle hacc
    obtain ⟨f2, rfl⟩ : ∃ f, fuel2 = f + 1 := ⟨fuel2 - 1, by omega⟩
    have hc : s2.curIndex = s1.curIndex := by rw [hsh.1]
    cases hw : wordAt s1.words s1.curIndex with
    | none => exact absurd hw (hsh.2.2.2.2 _ (le_refl _) hle)
    | some w =>
      by_cases hr : (processCommand s1).1 = -1
      · rw [lineLoop_fail f1 s1 w hw hr] at hacc
        simp [hr] at hacc
      · have hwamp : w ≠ "&" := by
          intro e
          subst e
          rw [processCommand_of_first_invalid s1 "&" hw isValidWord_amp] at hr
          exact hr rfl
        obtain ⟨hw2, hne⟩ := shadow_word n _ s1 s2 hsh _ w hw hwamp
        rw [← hc] at hw2
        obtain ⟨L, hL1, hL2, hcase⟩ := loop_shadow n (s1.words.length + 1) 0 s1 (by omega)
          (s2.words.length + 1) s2 (by simpa using hsh) (by simpa using hle) (by omega) hr
        have hL1' : (processCommand s1).1 = (L : Int) := hL1
        have hL2' : (processCommand s2).1 = (L : Int) := hL2
        have hr2 : (processCommand s2).1 ≠ -1 := by rw [hL2']; omega
        rw [lineLoop_step f1 s1 w hw hr] at hacc ⊢
        rw [lineLoop_step f2 s2 w hw2 hr2]
        have hfr1 := processCommand_frame s1
        have hfr2 := processCommand_frame s2
        have hLpos : 0 < L := by
          obtain ⟨L1, hL1'', hp, _⟩ := afterCommand_progress s1 w hw hr
          rw [hL1'] at hL1''
          omega
        have hcur1 : s1.afterCommand.curIndex = s1.curIndex + L := by
          simp [Sh.afterCommand, hL1', hfr1.1]
        have hcur2 : s2.afterCommand.curIndex = s2.curIndex + L := by
          simp [Sh.afterCommand, hL2', hfr2.1]
        have hlen1 : s1.afterCommand.words.length = s1.words.length := by
          simp [Sh.afterCommand, hfr1.2.1]
        have hlen2 : s2.afterCommand.words.length = s2.words.length := by
          simp [Sh.afterCommand, hfr2.2.1]
        have hlenw := lt_length_of_wordAt _ _ _ hw
        have hlenw2 := lt_length_of_wordAt _ _ _ hw2
        have hwait : s1.afterCommand.shellWait = (processCommand s1).2.shellWait := by
          simp [Sh.afterCommand]
        rcases hcase with ⟨hsh', hle', hwt⟩ | ⟨hend, hLn⟩
        · -- the command ended at a pipe before the final token
          have hsh'' : Shadow n s1.afterCommand.curIndex s1.afterCommand s2.afterCommand := by
            have hP1 : (processCommandLoop (s1.words.length + 1) 0 s1) = processCommand s1 := rfl
            have hP2 : (processCommandLoop (s2.words.length + 1) 0 s2) = processCommand s2 := rfl
            rw [hP1, hP2] at hsh'
            obtain ⟨k, _, hk2, hk3, hk4, hk5⟩ :=
              loop_first_operator (s1.words.length + 1) 0 s1 (by omega) hr
            rw [hP1] at hk3 hk5
            have hkn : s1.curIndex + k < n := by
              by_contra hcon
              rcases Nat.lt_or_ge n (s1.curIndex + k) with h | h
              · obtain ⟨x, hx, hxv⟩ := hk2 (n - s1.curIndex) (by omega) (by omega)
                rw [show s1.curIndex + (n - s1.curIndex) = n by omega, hsh.2.2.1] at hx
                cases hx
                rw [isValidWord_amp] at hxv
                cases hxv
              · have e : s1.curIndex + k = n := by omega
                rw [e, hsh'.2.2.1] at hk3
                cases hk3
            have hargv : argvAt (processCommand s2).2.words s1.curIndex
                = argvAt (processCommand s1).2.words s1.curIndex := by
              symm
              refine argvAt_congr k _ _ _ ?_ hk3
              intro j hj
              exact hsh'.2.1 _ (by omega)
            have hfile : wordAt (processCommand s2).2.words s1.curIndex
                = wordAt (processCommand s1).2.words s1.curIndex :=
              (hsh'.2.1 _ (by omega)).symm
            have hs2 : s2.afterCommand
                = { s1.afterCommand with words := (processCommand s2).2.words } := by
              have h1 := hsh'.1
              unfold Sh.afterCommand Sh.afterParse
              rw [hL1', hL2', h1]
              have := fork_congr
                { (processCommand s1).2 with commandLength := some (L : Int) }
                (processCommand s2).2.words (processCommand s1).2.shellWait (L : Int)
                (by simpa [hfr1.1] using hfile) (by simpa [hfr1.1] using hargv)
              simpa using this
            refine ⟨?_, ?_, ?_, ?_, ?_⟩
            · rw [hs2]
            · intro p hp
              rw [hs2]
              simpa [Sh.afterCommand] using hsh'.2.1 p hp
            · simpa [Sh.afterCommand] using hsh'.2.2.1
            · rw [hs2]
              simpa using hsh'.2.2.2.1
            · intro p hp1 hp2
              rw [hcur1] at hp1
              simpa [Sh.afterCommand] using hsh'.2.2.2.2 p hp1 hp2
          have := ih s1.afterCommand f2 s2.afterCommand (by rw [hcur1, hlen1]; omega)
            (by rw [hcur2, hlen2]; omega) hsh'' (by rw [hcur1]; exact hle') hacc
          have hwt' : (processCommand s1).2.shellWait = s1.shellWait := hwt
          rw [hwait, hwt'] at this
          exact this
        · -- the command consumed the final `&`
          have hP1 : (processCommandLoop (s1.words.length + 1) 0 s1) = processCommand s1 := rfl
          have hP2 : (processCommandLoop (s2.words.length + 1) 0 s2) = processCommand s2 := rfl
          rw [hP1, hP2] at hend
          obtain ⟨he1, he2, he3, he4⟩ := hend
          have hn1 : wordAt s1.afterCommand.words s1.afterCommand.curIndex = none := by
            rw [hcur1, hLn]
            simpa [Sh.afterCommand] using he4
          have hs2 : s2.afterCommand
              = { s1.afterCommand with
                  words := (processCommand s2).2.words, shellWait := s1.shellWait } := by
            unfold Sh.afterCommand Sh.afterParse
            rw [hL1', hL2', he2]
            have := fork_congr
              { (processCommand s1).2 with commandLength := some (L : Int) }
              (processCommand s2).2.words s1.shellWait (L : Int)
              (by simpa using (he3 _).symm)
              (by simpa using (argvAt_ext _ _ _ he3).symm)
            simpa using this
          have hn2 : wordAt s2.afterCommand.words s2.afterCommand.curIndex = none := by
            rw [hs2]
            show wordAt (processCommand s2).2.words s1.afterCommand.curIndex = none
            rw [← he3, hcur1, hLn]
            exact he4
          rw [lineLoop_of_null f1 _ hn1, lineLoop_of_null f2 _ hn2]
          refine ⟨?_, ?_, ?_, ?_⟩
          · rw [hwait]; exact he1
          · rw [hs2]
          · intro p
            rw [hs2]
            simpa [Sh.afterCommand] using he3 p
          · simpa [Sh.afterCommand] using he4

/-! ## Calls made by the orchestrator -/

theorem forkAndContinue_log (s : Sh) (n : Int) :
    (forkAndContinue s n).os.log
      = s.os.log ++ (.fork (childImage s s.os.nextPid) :: parentCloses s) := by
  by_cases h : s.postpipe.1 ≥ 0 <;> by_cases h2 : s.prepipe.1 ≥ 0 <;>
    simp [forkAndContinue_eq, h, h2, parentCloses, World.close]

theorem forks_parentCloses (s : Sh) : forks (parentCloses s) = [] := by
  unfold parentCloses; split <;> rfl

theorem waits_parentCloses (s : Sh) : waits (parentCloses s) = [] := by
  unfold parentCloses; split <;> rfl

theorem pipesOf_parentCloses (s : Sh) : pipesOf (parentCloses s) = [] := by
  unfold parentCloses; split <;> rfl

theorem childImage_pid (s : Sh) (pid : Int) : (childImage s pid).pid = pid := rfl

/-- The inner loop of `main` only appends to the log and never waits; `pid`
ends as the pid of the last child it forked; and an accepted non-empty rest of
a line forks at least once. -/
theorem lineLoop_forks (fuel : Nat) (s : Sh) (hf : s.words.length - s.curIndex < fuel) :
    ∃ evs, (lineLoop fuel s).os.log = s.os.log ++ evs ∧ waits evs = [] ∧
      (lineLoop fuel s).pid = (match (forks evs).getLast? with
        | some c => some c.pid
        | none => s.pid) ∧
      (wordAt s.words s.curIndex ≠ none → (lineLoop fuel s).commandLength ≠ some (-1) →
        forks evs ≠ []) := by
  refine lineLoop_rec (fun s f => ∃ evs, f.os.log = s.os.log ++ evs ∧ waits evs = [] ∧
      f.pid = (match (forks evs).getLast? with
        | some c => some c.pid
        | none => s.pid) ∧
      (wordAt s.words s.curIndex ≠ none → f.commandLength ≠ some (-1) → forks evs ≠ []))
    ?_ ?_ ?_ fuel s hf
  · intro s h
    exact ⟨[], by simp, rfl, rfl, fun hn => absurd h hn⟩
  · intro s w _ hr
    obtain ⟨evs, h1, h2, h3⟩ := loop_log (s.words.length + 1) 0 s (by omega)
    refine ⟨evs, h1, h3, ?_, ?_⟩
    · rw [h2]
      exact (processCommand_frame s).2.2.2.1
    · intro _ h
      simp [hr] at h
  · intro s w f _ _ ih
    obtain ⟨evs, h1, h2, h3, _⟩ := ih
    obtain ⟨evs0, g1, g2, g3⟩ := loop_log (s.words.length + 1) 0 s (by omega)
    have g1' : s.afterParse.os.log = s.os.log ++ evs0 := g1
    have hlog : s.afterCommand.os.log = s.os.log ++
        (evs0 ++ (.fork (childImage s.afterParse s.afterParse.os.nextPid)
          :: parentCloses s.afterParse)) := by
      unfold Sh.afterCommand
      rw [forkAndContinue_log, g1', List.append_assoc]
    refine ⟨evs0 ++ (.fork (childImage s.afterParse s.afterParse.os.nextPid)
          :: parentCloses s.afterParse) ++ evs, ?_, ?_, ?_, ?_⟩
    · rw [h1, hlog, List.append_assoc]
    · simp [waits_append, g3, waits, waits_parentCloses, h2]
    · rw [h3]
      simp only [forks_append, g2, forks, forks_parentCloses, List.nil_append,
        List.append_nil]
      cases hl : (forks evs).getLast? with
      | none =>
        have : forks evs = [] := by simpa using hl
        simp [this, Sh.afterCommand, childImage_pid]
      | some c =>
        have hne : forks evs ≠ [] := by
          intro e; rw [e] at hl; cases hl
        rw [List.getLast?_append_of_ne_nil _ hne, hl]
    · intro _ _
      simp [forks_append, forks]

/-- What one pass of the outer loop of `main` adds to the log, from the state
the inner loop ends in. -/
theorem runLine_log (os : World) (ts : List String) :
    (runLine os ts).os.log
      = (lineLoop ((lineWords ts).length + 1) (initSh os (lineWords ts))).os.log ++
        (if (lineLoop ((lineWords ts).length + 1) (initSh os (lineWords ts))).shellWait ≠ 0
          then [.waitpid (lineLoop ((lineWords ts).length + 1) (initSh os (lineWords ts))).pid]
          else []) := by
  unfold runLine runWords
  simp only []
  split <;> simp [World.emit]

theorem runLine_commandLength (os : World) (ts : List String) :
    (runLine os ts).commandLength
      = (lineLoop ((lineWords ts).length + 1) (initSh os (lineWords ts))).commandLength := by
  unfold runLine runWords
  simp only []
  split <;> rfl

theorem shadow_init (os : World) (ts : List String) :
    Shadow ts.length 0 (initSh os (lineWords (ts ++ ["&"]))) (initSh os (lineWords ts)) := by
  refine ⟨rfl, ?_, ?_, ?_, ?_⟩
  · intro p hp
    show wordAt (lineWords (ts ++ ["&"])) p = wordAt (lineWords ts) p
    rw [wordAt_lineWords, wordAt_lineWords]
    rcases Nat.lt_or_ge p ts.length with h | h
    · rw [List.getElem?_append_left h]
    · rw [List.getElem?_eq_none (by simp; omega), List.getElem?_eq_none h]
  · show wordAt (lineWords (ts ++ ["&"])) ts.length = some "&"
    rw [wordAt_lineWords]; simp
  · show wordAt (lineWords ts) ts.length = none
    rw [wordAt_lineWords]; simp
  · intro p _ hp
    show wordAt (lineWords (ts ++ ["&"])) p ≠ none
    rw [wordAt_lineWords, List.getElem?_eq_getElem (by simp; omega)]
    simp

/-! ## Segments of a line -/

theorem segments_ne_nil (ts : List String) : segments ts ≠ [] := by
  induction ts with
  | nil => simp [segments]
  | cons t rest ih =>
    unfold segments
    split
    · simp
    · split <;> simp

theorem segments_bar (rest : List String) : segments ("|" :: rest) = [] :: segments rest := by
  simp [segments]

theorem segments_word (t : String) (rest seg : List String) (more : List (List String))
    (ht : t ≠ "|") (h : segments (t :: rest) = seg :: more) :
    ∃ seg', seg = t :: seg' ∧ segments rest = seg' :: more := by
  unfold segments at h
  rw [if_neg ht] at h
  cases hs : segments rest with
  | nil => exact absurd hs (segments_ne_nil rest)
  | cons seg' more' =>
    rw [hs] at h
    simp only [List.cons.injEq] at h
    exact ⟨seg', h.1.symm, by rw [h.2]⟩

theorem redirTarget_ne (op a : String) (l : List String) (h : a ≠ op) :
    redirTarget op (a :: l) = redirTarget op l := by
  cases l with
  | nil => rfl
  | cons b rest => simp [redirTarget, h]

theorem redirTarget_eq (op b : String) (l : List String) :
    redirTarget op (op :: b :: l) = some b := by
  simp [redirTarget]

theorem callsSince_append (a b : List Event) : callsSince a (a ++ b) = b := by
  simp [callsSince]

theorem callsSince_self (a : List Event) : callsSince a a = [] := by
  simp [callsSince]

/-! ## Descriptors opened by the segmenter -/

theorem opened_obj_new (w : World) (path : String) (flags mode : Nat) :
    (w.opened path flags mode).fdt.obj (w.fdt.free : Int) = some (.file path flags mode) := by
  simp [World.opened, obj_put]

theorem opened_obj_mono (w : World) (path : String) (flags mode : Nat) (fd : Int) (o : Obj)
    (h : w.fdt.obj fd = some o) : (w.opened path flags mode).fdt.obj fd = some o := by
  have hne : fd ≠ (w.fdt.free : Int) := fun e => by
    rw [e, obj_free] at h; cases h
  simp [World.opened, obj_put, hne, h]

theorem opened_obj_none (w : World) (path : String) (flags mode : Nat) (fd : Int)
    (h : (w.opened path flags mode).fdt.obj fd = none) : w.fdt.obj fd = none := by
  cases h2 : w.fdt.obj fd with
  | none => rfl
  | some o => rw [opened_obj_mono w path flags mode fd o h2] at h; cases h

theorem pipe_obj_mono (w : World) (fd : Int) (o : Obj) (h : w.fdt.obj fd = some o) :
    w.pipe.2.fdt.obj fd = some o := by
  have h1 : fd ≠ (w.fdt.free : Int) := fun e => by
    rw [e, obj_free] at h; cases h
  have h2 : (w.fdt.put w.fdt.free (some (.pipeRead w.npipes))).obj fd = some o := by
    rw [obj_put, if_neg h1]; exact h
  have h3 : fd ≠ ((w.fdt.put w.fdt.free (some (.pipeRead w.npipes))).free : Int) := fun e => by
    rw [e, obj_free] at h2; cases h2
  simp only [World.pipe]
  rw [obj_put, if_neg h3]
  exact h2

theorem pipe_fresh (w : World) :
    w.fdt.obj w.pipe.1.1 = none ∧ w.fdt.obj w.pipe.1.2 = none := by
  refine ⟨obj_free w.fdt, ?_⟩
  cases h2 : w.fdt.obj w.pipe.1.2 with
  | none => rfl
  | some o =>
    exfalso
    have h1 : w.pipe.1.2 ≠ (w.fdt.free : Int) := fun e => by
      rw [e, obj_free] at h2; cases h2
    have h3 : (w.fdt.put w.fdt.free (some (.pipeRead w.npipes))).obj w.pipe.1.2 = some o := by
      rw [obj_put, if_neg h1]; exact h2
    have := obj_free (w.fdt.put w.fdt.free (some (.pipeRead w.npipes)))
    simp only [World.pipe] at h3
    rw [this] at h3
    cases h3

theorem getElem?_zero_eq_none {α : Type} (l : List α) (h : l[0]? = none) : l = [] := by
  cases l with
  | nil => rfl
  | cons a rest => simp at h

theorem getElem?_zero_eq_some {α : Type} (l : List α) (a : α) (h : l[0]? = some a) :
    ∃ rest, l = a :: rest := by
  cases l with
  | nil => simp at h
  | cons b rest =>
    simp at h
    exact ⟨rest, by rw [h]⟩

/-- An accepted run of the segmenter loop meets `SegSpec` for the tokens it
starts on. -/
theorem loop_segSpec (fuel i : Nat) (s : Sh) (hf : s.words.length - (s.curIndex + i) < fuel) :
    ∀ rest : List String, (∀ j, wordAt s.words (s.curIndex + (i + j)) = rest[j]?) →
      (processCommandLoop fuel i s).1 ≠ -1 → SegSpec s rest (processCommandLoop fuel i s) := by
  refine loop_rec (fun i s r => ∀ rest : List String,
      (∀ j, wordAt s.words (s.curIndex + (i + j)) = rest[j]?) → r.1 ≠ -1 → SegSpec s rest r)
    ?_ ?_ ?_ ?_ ?_ ?_ ?_ fuel i s hf
  · -- the end of the line
    intro i s h rest hview _ seg more hseg
    have hr : rest = [] := getElem?_zero_eq_none rest (by rw [← hview 0]; exact h)
    subst hr
    simp only [segments, List.cons.injEq] at hseg
    obtain ⟨rfl, rfl⟩ := hseg
    refine ⟨?_, fun _ => rfl, ?_, fun _ _ => rfl, fun _ => ⟨rfl, rfl, ?_, ?_⟩,
      fun h => absurd rfl h, fun _ _ h => h, ⟨[], by simp⟩⟩
    · intro f hf; simp [redirTarget] at hf
    · intro f hf; simp [redirTarget] at hf
    · simpa using h
    · simp [callsSince_self, pipesOf]
  · intro i s w s1 _ _ _ rest _ h
    exact absurd rfl h
  · -- an ordinary word
    intro i s w r hw hv ih rest hview hacc seg more hseg
    obtain ⟨rest', rfl⟩ := getElem?_zero_eq_some rest w (by rw [← hview 0]; exact hw)
    obtain ⟨h1, h2, h3, h4⟩ := valid_not_operator w hv
    obtain ⟨seg', rfl, hseg'⟩ := segments_word w rest' seg more h3 hseg
    have hview' : ∀ j, wordAt s.words (s.curIndex + (i + 1 + j)) = rest'[j]? := by
      intro j
      have := hview (j + 1)
      rw [show i + (j + 1) = i + 1 + j by omega] at this
      simpa using this
    have := ih rest' hview' hacc seg' more hseg'
    rw [redirTarget_ne "<" w seg' h1, redirTarget_ne ">" w seg' h2]
    exact this
  · -- a `<` redirect
    intro i s name r hw hi hfd hn hv ho ih rest hview hacc seg more hseg
    obtain ⟨rest1, rfl⟩ := getElem?_zero_eq_some rest "<" (by rw [← hview 0]; exact hw)
    obtain ⟨rest2, rfl⟩ := getElem?_zero_eq_some rest1 name (by
      have := hview 1
      rw [hn] at this
      simpa using this.symm)
    obtain ⟨n1, n2, n3, n4⟩ := valid_not_operator name hv
    obtain ⟨seg1, rfl, hseg1⟩ := segments_word "<" _ seg more (by decide) hseg
    obtain ⟨seg2, rfl, hseg2⟩ := segments_word name _ seg1 more n3 hseg1
    have hview' : ∀ j, wordAt (s.afterIn i name).words
        ((s.afterIn i name).curIndex + (i + 1 + 1 + j)) = rest2[j]? := by
      intro j
      have := hview (j + 2)
      rw [wordAt_afterIn, if_neg (by show s.curIndex + _ ≠ _; omega)]
      rw [show i + (j + 2) = i + 1 + 1 + j by omega] at this
      simpa using this
    obtain ⟨I1, I2, I3, I4, I5, I6, I7, I8⟩ := ih rest2 hview' hacc seg2 more hseg2
    have hin1 : (s.afterIn i name).redirInpFD = (s.os.fdt.free : Int) := rfl
    have hos1 : (s.afterIn i name).os = s.os.opened name O_RDONLY 420 := rfl
    have hlog1 : (s.afterIn i name).os.log
        = s.os.log ++ [.sysopen name O_RDONLY 420 s.os.fdt.free] := rfl
    have hnone : redirTarget "<" seg2 = none := by
      cases ht : redirTarget "<" seg2 with
      | none => rfl
      | some f' =>
        have := (I1 f' ht).1
        rw [hin1] at this
        omega
    have hrin : r.2.redirInpFD = (s.os.fdt.free : Int) := by rw [I2 hnone, hin1]
    obtain ⟨evs, hevs⟩ := I8
    have hcalls : callsSince s.os.log r.2.os.log
        = .sysopen name O_RDONLY 420 s.os.fdt.free :: callsSince (s.afterIn i name).os.log r.2.os.log := by
      rw [hevs, hlog1, callsSince_append, List.append_assoc, callsSince_append]
      rfl
    refine ⟨?_, ?_, ?_, ?_, ?_, ?_, ?_, ?_⟩
    · intro f hf
      rw [redirTarget_eq] at hf
      cases hf
      refine ⟨hfd, by rw [hrin]; omega, by rw [hrin]; exact obj_free _, ?_⟩
      rw [hrin]
      exact I7 _ _ (by rw [hos1]; exact opened_obj_new _ _ _ _)
    · intro hf
      rw [redirTarget_eq] at hf
      cases hf
    · intro f hf
      rw [redirTarget_ne ">" "<" _ (by decide), redirTarget_ne ">" name _ n2] at hf
      obtain ⟨a0, a, b, c, d⟩ := I3 f hf
      exact ⟨a0, a, b, opened_obj_none _ _ _ _ _ (by rw [← hos1]; exact c), d⟩
    · intro hf hm
      rw [redirTarget_ne ">" "<" _ (by decide), redirTarget_ne ">" name _ n2] at hf
      exact I4 hf hm
    · intro hm
      obtain ⟨a, b, c, d⟩ := I5 hm
      refine ⟨a, by rw [b]; rfl, c, ?_⟩
      rw [hcalls]
      simpa [pipesOf] using d
    · intro hm
      obtain ⟨rest', a0, a, b, c, d, e, e', f, g, h, k, l, m⟩ := I6 hm
      refine ⟨rest', a0, a, b, c, d, e, e', opened_obj_none _ _ _ _ _ (by rw [← hos1]; exact f),
        opened_obj_none _ _ _ _ _ (by rw [← hos1]; exact g), h, k, by rw [l]; rfl, ?_⟩
      rw [hcalls]
      simpa [pipesOf] using m
    · intro fd o h
      exact I7 fd o (by rw [hos1]; exact opened_obj_mono _ _ _ _ _ _ h)
    · exact ⟨.sysopen name O_RDONLY 420 s.os.fdt.free :: evs, by rw [hevs, hlog1]; simp⟩
  · -- a `>` redirect
    intro i s name r hw hi hfd hn hv ho ih rest hview hacc seg more hseg
    obtain ⟨rest1, rfl⟩ := getElem?_zero_eq_some rest ">" (by rw [← hview 0]; exact hw)
    obtain ⟨rest2, rfl⟩ := getElem?_zero_eq_some rest1 name (by
      have := hview 1
      rw [hn] at this
      simpa using this.symm)
    obtain ⟨n1, n2, n3, n4⟩ := valid_not_operator name hv
    obtain ⟨seg1, rfl, hseg1⟩ := segments_word ">" _ seg more (by decide) hseg
    obtain ⟨seg2, rfl, hseg2⟩ := segments_word name _ seg1 more n3 hseg1
    have hview' : ∀ j, wordAt (s.afterOut i name).words
        ((s.afterOut i name).curIndex + (i + 1 + 1 + j)) = rest2[j]? := by
      intro j
      have := hview (j + 2)
      rw [wordAt_afterOut, if_neg (by show s.curIndex + _ ≠ _; omega)]
      rw [show i + (j + 2) = i + 1 + 1 + j by omega] at this
      simpa using this
    obtain ⟨I1, I2, I3, I4, I5, I6, I7, I8⟩ := ih rest2 hview' hacc seg2 more hseg2
    have hout1 : (s.afterOut i name).redirOutFD = (s.os.fdt.free : Int) := rfl
    have hos1 : (s.afterOut i name).os = s.os.opened name (O_WRONLY ||| O_CREAT) 420 := rfl
    have hlog1 : (s.afterOut i name).os.log
        = s.os.log ++ [.sysopen name (O_WRONLY ||| O_CREAT) 420 s.os.fdt.free] := rfl
    have hnone : redirTarget ">" seg2 = none := by
      cases ht : redirTarget ">" seg2 with
      | none => rfl
      | some f' =>
        have := (I3 f' ht).1
        rw [hout1] at this
        omega
    have hmore : more = [] := by
      by_contra hm
      obtain ⟨_, h0, _⟩ := I6 hm
      rw [hout1] at h0
      omega
    have hrout : r.2.redirOutFD = (s.os.fdt.free : Int) := by rw [I4 hnone hmore, hout1]
    obtain ⟨evs, hevs⟩ := I8
    have hcalls : callsSince s.os.log r.2.os.log
        = .sysopen name (O_WRONLY ||| O_CREAT) 420 s.os.fdt.free
          :: callsSince (s.afterOut i name).os.log r.2.os.log := by
      rw [hevs, hlog1, callsSince_append, List.append_assoc, callsSince_append]
      rfl
    refine ⟨?_, ?_, ?_, ?_, ?_, ?_, ?_, ?_⟩
    · intro f hf
      rw [redirTarget_ne "<" ">" _ (by decide), redirTarget_ne "<" name _ n1] at hf
      obtain ⟨a, b, c, d⟩ := I1 f hf
      exact ⟨a, b, opened_obj_none _ _ _ _ _ (by rw [← hos1]; exact c), d⟩
    · intro hf
      rw [redirTarget_ne "<" ">" _ (by decide), redirTarget_ne "<" name _ n1] at hf
      exact I2 hf
    · intro f hf
      rw [redirTarget_eq] at hf
      cases hf
      refine ⟨hfd, hmore, by rw [hrout]; omega, by rw [hrout]; exact obj_free _, ?_⟩
      rw [hrout]
      exact I7 _ _ (by rw [hos1]; exact opened_obj_new _ _ _ _)
    · intro hf
      rw [redirTarget_eq] at hf
      cases hf
    · intro hm
      obtain ⟨a, b, c, d⟩ := I5 hm
      refine ⟨a, by rw [b]; rfl, c, ?_⟩
      rw [hcalls]
      simpa [pipesOf] using d
    · intro hm
      exact absurd hmore hm
    · intro fd o h
      exact I7 fd o (by rw [hos1]; exact opened_obj_mono _ _ _ _ _ _ h)
    · exact ⟨.sysopen name (O_WRONLY ||| O_CREAT) 420 s.os.fdt.free :: evs,
        by rw [hevs, hlog1]; simp⟩
  · -- a `|`
    intro i s name hw hi hfd hn hv rest hview _ seg more hseg
    obtain ⟨rest1, rfl⟩ := getElem?_zero_eq_some rest "|" (by rw [← hview 0]; exact hw)
    obtain ⟨rest2, rfl⟩ := getElem?_zero_eq_some rest1 name (by
      have := hview 1
      rw [hn] at this
      simpa using this.symm)
    rw [segments_bar] at hseg
    simp only [List.cons.injEq] at hseg
    obtain ⟨rfl, rfl⟩ := hseg
    obtain ⟨hf1, hf2⟩ := pipe_fresh s.os
    refine ⟨?_, fun _ => rfl, ?_, ?_, ?_, ?_, ?_, ?_⟩
    · intro f hf; simp [redirTarget] at hf
    · intro f hf; simp [redirTarget] at hf
    · intro _ hm; exact absurd hm (segments_ne_nil _)
    · intro hm; exact absurd hm (segments_ne_nil _)
    · intro _
      refine ⟨name :: rest2, hfd, rfl, by simp, ?_, rfl, ?_, ?_, hf1, hf2, ?_, ?_, rfl, ?_⟩
      · intro j
        show wordAt (s.afterPipe i).words _ = _
        rw [wordAt_afterPipe, if_neg (by simp; omega)]
        have := hview (j + 1)
        simp only [Int.toNat_ofNat]
        rw [show i + (j + 1) = i + 1 + j by omega] at this
        simpa using this
      · show (0 : Int) ≤ (s.os.fdt.free : Int); omega
      · show (0 : Int) ≤ s.os.pipe.1.2
        simp [World.pipe]
      · exact pipe_obj_read s.os
      · exact pipe_obj_write s.os
      · show pipesOf (callsSince s.os.log s.os.pipe.2.log) = [s.os.pipe.1]
        rw [pipe_log, callsSince_append]
        rfl
    · intro fd o h
      exact pipe_obj_mono s.os fd o h
    · exact ⟨[.pipe s.os.pipe.1.1 s.os.pipe.1.2], pipe_log s.os⟩
  · -- the final `&`
    intro i s hw hi hn rest hview _ seg more hseg
    obtain ⟨rest1, rfl⟩ := getElem?_zero_eq_some rest "&" (by rw [← hview 0]; exact hw)
    have hr : rest1 = [] := getElem?_zero_eq_none rest1 (by
      have := hview 1
      rw [hn] at this
      simpa using this.symm)
    subst hr
    have hs : segments ["&"] = [["&"]] := by decide
    rw [hs] at hseg
    simp only [List.cons.injEq] at hseg
    obtain ⟨rfl, rfl⟩ := hseg
    refine ⟨?_, fun _ => rfl, ?_, fun _ _ => rfl, fun _ => ⟨rfl, rfl, ?_, ?_⟩,
      fun h => absurd rfl h, fun _ _ h => h, ⟨[], by simp [Sh.afterAmp]⟩⟩
    · intro f hf; simp [redirTarget] at hf
    · intro f hf; simp [redirTarget] at hf
    · show wordAt (s.afterAmp i).words _ = none
      rw [wordAt_afterAmp, if_pos (by simp)]
    · show pipesOf (callsSince s.os.log s.os.log) = []
      rw [callsSince_self]; rfl

/-! ## Descriptors of a forked child -/

theorem child_stdin (s : Sh) (pid : Int) (h1 : s.postpipe.1 ≥ 0 → s.postpipe.1 ≠ 0)
    (h2 : s.prepipe.1 ≥ 0 → s.prepipe.2 ≠ 0) :
    (childImage s pid).stdin =
      if s.redirInpFD ≥ 0 ∧ s.os.fdt.obj s.redirInpFD ≠ none then s.os.fdt.obj s.redirInpFD
      else s.os.fdt.obj 0 := by
  have e1 : ((0 : Int) = ((1 : Nat) : Int)) = False := by simp
  have e0 : ((0 : Int) = ((0 : Nat) : Int)) = True := by simp
  have g1 : s.postpipe.1 ≥ 0 → ((0 : Int) = s.postpipe.1) = False :=
    fun h => eq_false (Ne.symm (h1 h))
  have g2 : s.prepipe.1 ≥ 0 → ((0 : Int) = s.prepipe.2) = False :=
    fun h => eq_false (Ne.symm (h2 h))
  unfold Child.stdin childImage
  simp only []
  by_cases hp : s.prepipe.1 ≥ 0 <;> by_cases hq : s.postpipe.1 ≥ 0 <;>
    by_cases ho : s.redirOutFD ≥ 0 <;> by_cases hi : s.redirInpFD ≥ 0 <;>
    simp [hp, hq, ho, hi, obj_close, obj_dup2, e1, e0, g1, g2]

theorem child_stdout (s : Sh) (pid : Int) (h0 : s.redirOutFD ≠ 0)
    (h1 : s.postpipe.1 ≥ 0 → s.postpipe.1 ≠ 1) (h2 : s.prepipe.1 ≥ 0 → s.prepipe.2 ≠ 1) :
    (childImage s pid).stdout =
      if s.redirOutFD ≥ 0 ∧ s.os.fdt.obj s.redirOutFD ≠ none then s.os.fdt.obj s.redirOutFD
      else s.os.fdt.obj 1 := by
  have e1 : ((1 : Int) = ((1 : Nat) : Int)) = True := by simp
  have e0 : ((1 : Int) = ((0 : Nat) : Int)) = False := by simp
  have e2 : (s.redirOutFD = ((0 : Nat) : Int)) = False := by simpa using h0
  have g1 : s.postpipe.1 ≥ 0 → ((1 : Int) = s.postpipe.1) = False :=
    fun h => eq_false (Ne.symm (h1 h))
  have g2 : s.prepipe.1 ≥ 0 → ((1 : Int) = s.prepipe.2) = False :=
    fun h => eq_false (Ne.symm (h2 h))
  unfold Child.stdout childImage
  simp only []
  by_cases hp : s.prepipe.1 ≥ 0 <;> by_cases hq : s.postpipe.1 ≥ 0 <;>
    by_cases ho : s.redirOutFD ≥ 0 <;> by_cases hi : s.redirInpFD ≥ 0 <;>
    simp [hp, hq, ho, hi, obj_close, obj_dup2, e1, e0, e2, g1, g2, h0]

theorem forkAndContinue_obj (s : Sh) (n : Int) (x : Int) :
    (forkAndContinue s n).os.fdt.obj x =
      if s.prepipe.1 ≥ 0 ∧ (x = s.prepipe.1 ∨ x = s.prepipe.2) then none
      else s.os.fdt.obj x := by
  by_cases h : s.postpipe.1 ≥ 0 <;> by_cases h2 : s.prepipe.1 ≥ 0 <;>
    simp only [forkAndContinue_eq, h, h2, if_true, if_false, World.close, obj_close, true_and,
      false_and] <;>
    by_cases hx2 : x = s.prepipe.2 <;> by_cases hx1 : x = s.prepipe.1 <;> simp [hx1, hx2]

theorem forkAndContinue_npipes (s : Sh) (n : Int) :
    (forkAndContinue s n).os.npipes = s.os.npipes := by
  by_cases h : s.postpipe.1 ≥ 0 <;> by_cases h2 : s.prepipe.1 ≥ 0 <;>
    simp [forkAndContinue_eq, h, h2, World.close]

theorem forkAndContinue_piped (s : Sh) (n : Int) (h : s.postpipe.1 ≥ 0) :
    (forkAndContinue s n).redirInpFD = s.postpipe.1 ∧
    (forkAndContinue s n).redirOutFD = -1 ∧
    (forkAndContinue s n).prepipe = s.postpipe ∧
    (forkAndContinue s n).postpipe = (-1, -1) := by
  simp [forkAndContinue_eq, h]

/-! ## Wiring of a pipeline -/

theorem stdinSpec_zero (dflt : Option Obj) (np : Nat) (seg : List String)
    (more : List (List String)) :
    stdinSpec dflt np (seg :: more) 0 =
      match redirTarget "<" seg with
      | some f => some (.file f O_RDONLY 0o644)
      | none => dflt := by
  simp [stdinSpec]

theorem stdinSpec_succ (dflt : Option Obj) (np : Nat) (seg : List String)
    (more : List (List String)) (k : Nat) :
    stdinSpec dflt np (seg :: more) (k + 1) = stdinSpec (some (.pipeRead np)) (np + 1) more k := by
  unfold stdinSpec
  simp only [List.getD_cons_succ]
  split
  · rfl
  · by_cases hk : k = 0
    · subst hk; simp
    · simp only [hk, if_false, Nat.add_one_ne_zero]
      congr 2
      omega

theorem stdoutSpec_zero (so : Option Obj) (np : Nat) (seg : List String)
    (more : List (List String)) :
    stdoutSpec so np (seg :: more) 0 =
      match redirTarget ">" seg with
      | some f => some (.file f (O_WRONLY ||| O_CREAT) 0o644)
      | none => if more ≠ [] then some (.pipeWrite np) else so := by
  unfold stdoutSpec
  simp only [List.getD_cons_zero, List.length_cons]
  split
  · rfl
  · cases more <;> simp

theorem stdoutSpec_succ (so : Option Obj) (np : Nat) (seg : List String)
    (more : List (List String)) (k : Nat) :
    stdoutSpec so np (seg :: more) (k + 1) = stdoutSpec so (np + 1) more k := by
  unfold stdoutSpec
  simp only [List.getD_cons_succ, List.length_cons]
  split
  · rfl
  · by_cases hk : k + 1 < more.length
    · have : k + 1 + 1 < more.length + 1 := by omega
      simp only [hk, this, if_true]
      congr 2
      omega
    · have : ¬ k + 1 + 1 < more.length + 1 := by omega
      simp only [hk, this, if_false]

theorem ne_of_obj_none (t : FdTable) (fd x : Int) (h1 : t.obj fd = none) (h2 : t.obj x ≠ none) :
    fd ≠ x := by
  intro e; rw [e] at h1; exact h2 h1

/-- The descriptors of the child forked for the first command of `rest`. -/
theorem first_child (si so dflt : Option Obj) (s : Sh) (rest seg : List String)
    (more : List (List String)) (hseg : segments rest = seg :: more)
    (hB : Boundary si so dflt s) (hS : SegSpec s rest (processCommand s)) (pid : Int) :
    (childImage s.afterParse pid).stdin = stdinSpec dflt s.os.npipes (seg :: more) 0 ∧
    (childImage s.afterParse pid).stdout = stdoutSpec so s.os.npipes (seg :: more) 0 ∧
    (more ≠ [] → (childImage s.afterParse pid).stdout = some (.pipeWrite s.os.npipes)) ∧
    (0 ≤ s.redirInpFD → (childImage s.afterParse pid).stdin = dflt) := by
  obtain ⟨S1, S2, S3, S4, S5, S6, S7, _⟩ := hS seg more hseg
  obtain ⟨B1, B2, B3, B4, B5, B6, B7⟩ := hB
  have hpre : s.afterParse.prepipe = s.prepipe := (processCommand_frame s).2.2.1
  obtain ⟨o0, ho0⟩ : ∃ o, s.os.fdt.obj 0 = some o := by
    cases h : s.os.fdt.obj 0 with
    | none => rw [h] at B3; exact absurd B3.symm B4
    | some o => exact ⟨o, rfl⟩
  obtain ⟨o1, ho1⟩ : ∃ o, s.os.fdt.obj 1 = some o := by
    cases h : s.os.fdt.obj 1 with
    | none => rw [h] at B5; exact absurd B5.symm B6
    | some o => exact ⟨o, rfl⟩
  have hn0 : s.os.fdt.obj 0 ≠ none := by rw [ho0]; simp
  have hn1 : s.os.fdt.obj 1 ≠ none := by rw [ho1]; simp
  have hr0 : (processCommand s).2.os.fdt.obj 0 = si := by rw [S7 0 o0 ho0, ← B3, ho0]
  have hr1 : (processCommand s).2.os.fdt.obj 1 = so := by rw [S7 1 o1 ho1, ← B5, ho1]
  -- the pipe slots of the child are neither 0 nor 1
  have hpost : s.afterParse.postpipe.1 ≥ 0 →
      s.afterParse.postpipe.1 ≠ 0 ∧ s.afterParse.postpipe.1 ≠ 1 := by
    intro h
    by_cases hm : more = []
    · rw [afterParse_postpipe, (S5 hm).1] at h; omega
    · obtain ⟨_, _, _, _, _, _, _, _, f, _⟩ := S6 hm
      exact ⟨ne_of_obj_none _ _ _ f hn0, ne_of_obj_none _ _ _ f hn1⟩
  have hprep : s.afterParse.prepipe.1 ≥ 0 →
      s.afterParse.prepipe.2 ≠ 0 ∧ s.afterParse.prepipe.2 ≠ 1 := by
    intro h
    rw [hpre] at h ⊢
    rcases B7 with ⟨_, h2, _⟩ | ⟨_, _, _, _, _, _, h7, h8, _⟩
    · omega
    · exact ⟨h7, h8⟩
  have hout0 : s.afterParse.redirOutFD ≠ 0 := by
    rw [afterParse_redirOutFD]
    cases ht : redirTarget ">" seg with
    | some g =>
      obtain ⟨_, _, _, c, _⟩ := S3 g ht
      exact ne_of_obj_none _ _ _ c hn0
    | none =>
      by_cases hm : more = []
      · rw [S4 ht hm]; omega
      · obtain ⟨_, _, _, _, _, e, _, _, _, g, _⟩ := S6 hm
        rw [e]
        exact ne_of_obj_none _ _ _ g hn0
  have hin := child_stdin s.afterParse pid (fun h => (hpost h).1) (fun h => (hprep h).1)
  have hout := child_stdout s.afterParse pid hout0 (fun h => (hpost h).2) (fun h => (hprep h).2)
  simp only [afterParse_redirInpFD, afterParse_redirOutFD, afterParse_os] at hin hout
  have hstdin : (childImage s.afterParse pid).stdin = stdinSpec dflt s.os.npipes (seg :: more) 0 ∧
      (0 ≤ s.redirInpFD → (childImage s.afterParse pid).stdin = dflt) := by
    rw [hin, stdinSpec_zero]
    cases ht : redirTarget "<" seg with
    | some f =>
      obtain ⟨a, b, _, d⟩ := S1 f ht
      have : (processCommand s).2.redirInpFD ≥ 0 ∧
          (processCommand s).2.os.fdt.obj (processCommand s).2.redirInpFD ≠ none := by
        rw [d]; exact ⟨b, by simp⟩
      rw [if_pos this, d]
      exact ⟨rfl, fun h => by omega⟩
    | none =>
      rw [S2 ht]
      rcases B7 with ⟨h1, _, h3⟩ | ⟨h1, _, h3, h4, _⟩
      · rw [if_neg (by intro hc; omega), hr0, h3]
        exact ⟨rfl, fun _ => rfl⟩
      · obtain ⟨o, ho⟩ : ∃ o, s.os.fdt.obj s.redirInpFD = some o := by
          cases h : s.os.fdt.obj s.redirInpFD with
          | none => rw [h] at h3; exact absurd h3.symm h4
          | some o => exact ⟨o, rfl⟩
        have hm := S7 _ _ ho
        rw [if_pos ⟨h1, by rw [hm]; simp⟩, hm, ← h3, ho]
        exact ⟨rfl, fun _ => rfl⟩
  have hstdout : (childImage s.afterParse pid).stdout = stdoutSpec so s.os.npipes (seg :: more) 0 ∧
      (more ≠ [] → (childImage s.afterParse pid).stdout = some (.pipeWrite s.os.npipes)) := by
    rw [hout, stdoutSpec_zero]
    cases ht : redirTarget ">" seg with
    | some g =>
      obtain ⟨_, a, b, _, d⟩ := S3 g ht
      have : (processCommand s).2.redirOutFD ≥ 0 ∧
          (processCommand s).2.os.fdt.obj (processCommand s).2.redirOutFD ≠ none := by
        rw [d]; exact ⟨b, by simp⟩
      rw [if_pos this, d]
      exact ⟨rfl, fun h => absurd a h⟩
    | none =>
      by_cases hm : more = []
      · rw [S4 ht hm, if_neg (by intro hc; omega), hr1]
        simp [hm]
      · obtain ⟨_, _, _, _, _, e, _, e2, _, _, _, k, _⟩ := S6 hm
        have : (processCommand s).2.redirOutFD ≥ 0 ∧
            (processCommand s).2.os.fdt.obj (processCommand s).2.redirOutFD ≠ none := by
          rw [e, k]; exact ⟨e2, by simp⟩
        rw [if_pos this, e, k]
        simp [hm]
  exact ⟨hstdin.1, hstdout.1, hstdout.2, hstdin.2⟩

/-- After an accepted command that ends in `|`, `main` is again at a loop
boundary, carrying the read end of the pipe the command created, with the rest
of the line in front of it. -/
theorem next_boundary (si so dflt : Option Obj) (s : Sh) (rest seg : List String)
    (more : List (List String)) (hseg : segments rest = seg :: more)
    (hB : Boundary si so dflt s) (hS : SegSpec s rest (processCommand s))
    (hmore : more ≠ []) :
    Boundary si so (some (.pipeRead s.os.npipes)) s.afterCommand ∧
    s.afterCommand.os.npipes = s.os.npipes + 1 ∧ 0 ≤ s.afterCommand.redirInpFD ∧
    ∃ rest', more = segments rest' ∧ rest' ≠ [] ∧
      ∀ j, wordAt s.afterCommand.words (s.afterCommand.curIndex + j) = rest'[j]? := by
  obtain ⟨_, _, _, _, _, S6, S7, _⟩ := hS seg more hseg
  obtain ⟨B1, B2, B3, B4, B5, B6, B7⟩ := hB
  obtain ⟨rest', _, hm, hr, hview, e, p1, p2, f1, f2, g1, g2, hnp, _⟩ := S6 hmore
  have hfr := processCommand_frame s
  have hpre : s.afterParse.prepipe = s.prepipe := hfr.2.2.1
  obtain ⟨o0, ho0⟩ : ∃ o, s.os.fdt.obj 0 = some o := by
    cases h : s.os.fdt.obj 0 with
    | none => rw [h] at B3; exact absurd B3.symm B4
    | some o => exact ⟨o, rfl⟩
  obtain ⟨o1, ho1⟩ : ∃ o, s.os.fdt.obj 1 = some o := by
    cases h : s.os.fdt.obj 1 with
    | none => rw [h] at B5; exact absurd B5.symm B6
    | some o => exact ⟨o, rfl⟩
  have hn0 : s.os.fdt.obj 0 ≠ none := by rw [ho0]; simp
  have hn1 : s.os.fdt.obj 1 ≠ none := by rw [ho1]; simp
  have hpost : s.afterParse.postpipe.1 ≥ 0 := p1
  obtain ⟨q1, q2, q3, q4⟩ := forkAndContinue_piped s.afterParse (processCommand s).1 hpost
  simp only [afterParse_postpipe] at q1 q3
  -- the descriptors the parent closes are open before the command and so differ from the new ones
  have hclosed : ∀ x : Int, s.os.fdt.obj x = none →
      ¬ (s.afterParse.prepipe.1 ≥ 0 ∧ (x = s.afterParse.prepipe.1 ∨ x = s.afterParse.prepipe.2)) := by
    intro x hx
    rw [hpre]
    rintro ⟨h1, h2⟩
    rcases B7 with ⟨_, h3, _⟩ | ⟨_, h3, h4, h5, _, _, _, _, h9⟩
    · omega
    · rcases h2 with h2 | h2
      · rw [h2, h3, h4] at hx; exact h5 hx
      · rw [h2] at hx; exact h9 hx
  have hkeep : ∀ x : Int, s.os.fdt.obj x ≠ none → (x = 0 ∨ x = 1) →
      ¬ (s.afterParse.prepipe.1 ≥ 0 ∧ (x = s.afterParse.prepipe.1 ∨ x = s.afterParse.prepipe.2)) := by
    intro x _ hx
    rw [hpre]
    rintro ⟨h1, h2⟩
    rcases B7 with ⟨_, h3, _⟩ | ⟨_, h3, _, _, h6, h7, h8, h9, _⟩
    · omega
    · rcases hx with rfl | rfl <;> rcases h2 with h2 | h2
      · rw [h3] at h2; exact h6 h2.symm
      · exact h8 h2.symm
      · rw [h3] at h2; exact h7 h2.symm
      · exact h9 h2.symm
  refine ⟨⟨?_, ?_, ?_, B4, ?_, B6, Or.inr ⟨?_, ?_, ?_, by simp, ?_, ?_, ?_, ?_, ?_⟩⟩, ?_, ?_, ?_⟩
  · show (forkAndContinue _ _).postpipe.1 < 0
    rw [q4]; decide
  · show (forkAndContinue _ _).redirOutFD < 0
    rw [q2]; decide
  · show (forkAndContinue _ _).os.fdt.obj 0 = si
    rw [forkAndContinue_obj, if_neg (hkeep 0 hn0 (Or.inl rfl)), afterParse_os, S7 0 o0 ho0,
      ← B3, ho0]
  · show (forkAndContinue _ _).os.fdt.obj 1 = so
    rw [forkAndContinue_obj, if_neg (hkeep 1 hn1 (Or.inr rfl)), afterParse_os, S7 1 o1 ho1,
      ← B5, ho1]
  · show 0 ≤ (forkAndContinue _ _).redirInpFD
    rw [q1]; exact p1
  · show (forkAndContinue _ _).prepipe.1 = (forkAndContinue _ _).redirInpFD
    rw [q1, q3]
  · show (forkAndContinue _ _).os.fdt.obj (forkAndContinue _ _).redirInpFD = _
    rw [q1, forkAndContinue_obj, if_neg (hclosed _ f1)]
    exact g1
  · show (forkAndContinue _ _).redirInpFD ≠ 0
    rw [q1]; exact ne_of_obj_none _ _ _ f1 hn0
  · show (forkAndContinue _ _).redirInpFD ≠ 1
    rw [q1]; exact ne_of_obj_none _ _ _ f1 hn1
  · show (forkAndContinue _ _).prepipe.2 ≠ 0
    rw [q3]; exact ne_of_obj_none _ _ _ f2 hn0
  · show (forkAndContinue _ _).prepipe.2 ≠ 1
    rw [q3]; exact ne_of_obj_none _ _ _ f2 hn1
  · show (forkAndContinue _ _).os.fdt.obj (forkAndContinue _ _).prepipe.2 ≠ none
    rw [q3, forkAndContinue_obj, if_neg (hclosed _ f2)]
    show (processCommand s).2.os.fdt.obj _ ≠ none
    rw [g2]; simp
  · show (forkAndContinue _ _).os.npipes = _
    rw [forkAndContinue_npipes]; exact hnp
  · show 0 ≤ (forkAndContinue _ _).redirInpFD
    rw [q1]; exact p1
  · refine ⟨rest', hm, hr, ?_⟩
    intro j
    have := hview j
    simpa [Sh.afterCommand, hfr.1, Nat.add_assoc] using this

theorem forks_cons_fork (c : Child) (l : List Event) : forks (.fork c :: l) = c :: forks l := rfl

theorem pipesOf_cons_fork (c : Child) (l : List Event) : pipesOf (.fork c :: l) = pipesOf l := rfl

/-- The inner loop of `main` wires the children of an accepted rest of a line
as the specification says. -/
theorem lineLoop_wired (si so : Option Obj) (fuel : Nat) (s : Sh)
    (hf : s.words.length - s.curIndex < fuel) :
    (wordAt s.words s.curIndex = none → lineLoop fuel s = s) ∧
    ∀ (rest : List String) (dflt : Option Obj),
      (∀ j, wordAt s.words (s.curIndex + j) = rest[j]?) → rest ≠ [] → Boundary si so dflt s →
      (lineLoop fuel s).commandLength ≠ some (-1) → Wired so dflt s rest (lineLoop fuel s) := by
  refine lineLoop_rec (fun s f => (wordAt s.words s.curIndex = none → f = s) ∧
    ∀ (rest : List String) (dflt : Option Obj),
      (∀ j, wordAt s.words (s.curIndex + j) = rest[j]?) → rest ≠ [] → Boundary si so dflt s →
      f.commandLength ≠ some (-1) → Wired so dflt s rest f) ?_ ?_ ?_ fuel s hf
  · intro s h
    refine ⟨fun _ => rfl, ?_⟩
    intro rest dflt hview hne _ _
    exfalso
    have := hview 0
    rw [Nat.add_zero, h] at this
    exact hne (getElem?_zero_eq_none rest this.symm)
  · intro s w hw hr
    refine ⟨fun h => (by rw [hw] at h; cases h), ?_⟩
    intro rest dflt _ _ _ hacc
    simp [hr] at hacc
  · intro s w f hw hr ih
    refine ⟨fun h => (by rw [hw] at h; cases h), ?_⟩
    intro rest dflt hview hne hB hacc
    obtain ⟨ih1, ih2⟩ := ih
    have hS : SegSpec s rest (processCommand s) :=
      loop_segSpec (s.words.length + 1) 0 s (by omega) rest
        (fun j => by simpa using hview j) hr
    obtain ⟨seg, more, hseg⟩ : ∃ seg more, segments rest = seg :: more := by
      cases h : segments rest with
      | nil => exact absurd h (segments_ne_nil rest)
      | cons seg more => exact ⟨seg, more, rfl⟩
    obtain ⟨c1, c2, c3, c4⟩ := first_child si so dflt s rest seg more hseg hB hS
      s.afterParse.os.nextPid
    obtain ⟨evs0, g1, g2, _⟩ := loop_log (s.words.length + 1) 0 s (by omega)
    have g1' : s.afterParse.os.log = s.os.log ++ evs0 := g1
    have hpipes0 : pipesOf evs0 = pipesOf (callsSince s.os.log (processCommand s).2.os.log) := by
      have : (processCommand s).2.os.log = s.os.log ++ evs0 := g1
      rw [this, callsSince_append]
    have hlog : s.afterCommand.os.log = s.os.log ++
        (evs0 ++ (.fork (childImage s.afterParse s.afterParse.os.nextPid)
          :: parentCloses s.afterParse)) := by
      unfold Sh.afterCommand
      rw [forkAndContinue_log, g1', List.append_assoc]
    obtain ⟨_, _, _, _, S5, S6, _, _⟩ := hS seg more hseg
    have hfr := processCommand_frame s
    by_cases hm : more = []
    · -- the last command of the line
      subst hm
      obtain ⟨_, _, hnull, hp⟩ := S5 rfl
      have hstop : wordAt s.afterCommand.words s.afterCommand.curIndex = none := by
        simpa [Sh.afterCommand, hfr.1] using hnull
      rw [ih1 hstop]
      refine ⟨_, hlog, ?_, ?_, ?_⟩
      · simp [forks_append, g2, forks_cons_fork, forks_parentCloses, hseg]
      · simp [pipesOf_append, hpipes0, hp, pipesOf_cons_fork, pipesOf_parentCloses, hseg]
      · intro k c hk
        simp only [forks_append, g2, forks_cons_fork, forks_parentCloses, List.nil_append] at hk
        cases k with
        | zero =>
          simp only [List.getElem?_cons_zero, Option.some.injEq] at hk
          subst hk
          rw [hseg]
          exact ⟨c1, c2, fun h => by simp at h, fun h => by omega, fun _ h => c4 h⟩
        | succ k => simp at hk
    · -- a command that ends in `|`
      obtain ⟨hB', hnp, hcar, rest', hm', hr', hview'⟩ :=
        next_boundary si so dflt s rest seg more hseg hB hS hm
      obtain ⟨evs, h1, h2, h3, h4⟩ := ih2 rest' _ hview' hr' hB' hacc
      obtain ⟨_, _, _, _, _, _, _, _, _, _, _, _, hp⟩ := S6 hm
      refine ⟨evs0 ++ (.fork (childImage s.afterParse s.afterParse.os.nextPid)
          :: parentCloses s.afterParse) ++ evs, ?_, ?_, ?_, ?_⟩
      · rw [h1, hlog, List.append_assoc]
      · simp [forks_append, g2, forks_cons_fork, forks_parentCloses, hseg, h2, hm']
      · simp [pipesOf_append, hpipes0, hp, pipesOf_cons_fork, pipesOf_parentCloses, hseg, hm']
        omega
      · intro k c hk
        simp only [forks_append, g2, forks_cons_fork, forks_parentCloses, List.nil_append,
          List.append_nil, List.cons_append] at hk
        rw [hseg]
        cases k with
        | zero =>
          simp only [List.getElem?_cons_zero, Option.some.injEq] at hk
          subst hk
          refine ⟨c1, c2, fun _ => ?_, fun h => by omega, fun _ h => c4 h⟩
          rw [Nat.add_zero]; exact c3 hm
        | succ k =>
          simp only [List.getElem?_cons_succ] at hk
          obtain ⟨a, b, c', d, e⟩ := h4 k c hk
          rw [hnp] at a b c' d
          rw [← hm'] at a b c'
          refine ⟨?_, ?_, ?_, ?_, fun h => by omega⟩
          · rw [stdinSpec_succ]; exact a
          · rw [stdoutSpec_succ]; exact b
          · intro h
            rw [show s.os.npipes + (k + 1) = s.os.npipes + 1 + k by omega]
            exact c' (by simpa using h)
          · intro _
            rcases Nat.eq_zero_or_pos k with h0 | h0
            · subst h0
              rw [e rfl hcar]
              simp
            · rw [d h0]
              congr 2
              omega

theorem segments_length (ts : List String) : (segments ts).length = ts.count "|" + 1 := by
  induction ts with
  | nil => rfl
  | cons t rest ih =>
    by_cases ht : t = "|"
    · subst ht
      rw [segments_bar]
      simp [ih]
    · obtain ⟨seg, more, hs⟩ : ∃ seg more, segments (t :: rest) = seg :: more := by
        cases h : segments (t :: rest) with
        | nil => exact absurd h (segments_ne_nil _)
        | cons seg more => exact ⟨seg, more, rfl⟩
      obtain ⟨seg', _, hs'⟩ := segments_word t rest seg more ht hs
      rw [hs, List.count_cons_of_ne (fun e => ht e.symm), ← ih, hs']
      rfl

theorem boundary_init (os : World) (ts : List String) (h0 : os.fdt.obj 0 ≠ none)
    (h1 : os.fdt.obj 1 ≠ none) :
    Boundary (os.fdt.obj 0) (os.fdt.obj 1) (os.fdt.obj 0) (initSh os (lineWords ts)) :=
  ⟨by simp [initSh], by simp [initSh], rfl, h0, rfl, h1,
    Or.inl ⟨by simp [initSh], by simp [initSh], rfl⟩⟩

/-! ## The bounds on the number of passes are never reached -/

/-- Any two bounds that cover the words left give the same run of the
segmenter loop: the bound is not what ends it. -/
theorem processCommandLoop_fuel (fuel1 i : Nat) (s : Sh)
    (hf : s.words.length - (s.curIndex + i) < fuel1) :
    ∀ fuel2, s.words.length - (s.curIndex + i) < fuel2 →
      processCommandLoop fuel2 i s = processCommandLoop fuel1 i s := by
  refine loop_rec (fun i s r => ∀ fuel2, s.words.length - (s.curIndex + i) < fuel2 →
      processCommandLoop fuel2 i s = r) ?_ ?_ ?_ ?_ ?_ ?_ ?_ fuel1 i s hf
  · intro i s h fuel2 hf2
    obtain ⟨f2, rfl⟩ : ∃ f, fuel2 = f + 1 := ⟨fuel2 - 1, by omega⟩
    exact loop_null f2 i s h
  · intro i s w s1 hw hb _ fuel2 hf2
    obtain ⟨f2, rfl⟩ : ∃ f, fuel2 = f + 1 := ⟨fuel2 - 1, by omega⟩
    exact loop_ret f2 i s s1 w _ hw hb
  · intro i s w r hw hv ih fuel2 hf2
    obtain ⟨f2, rfl⟩ : ∃ f, fuel2 = f + 1 := ⟨fuel2 - 1, by omega⟩
    have hlen := lt_length_of_wordAt _ _ _ hw
    rw [loop_next f2 i (i + 1) s s w hw (body_word i w _ s hv)]
    exact ih f2 (by omega)
  · intro i s name r hw hi hfd hn hv ho ih fuel2 hf2
    obtain ⟨f2, rfl⟩ : ∃ f, fuel2 = f + 1 := ⟨fuel2 - 1, by omega⟩
    have hlen := lt_length_of_wordAt _ _ _ hw
    have hb := body_in_ok i name s hi hfd hv ho
    rw [← hn] at hb
    rw [loop_next f2 i _ s _ "<" hw hb]
    exact ih f2 (by simp [Sh.afterIn]; omega)
  · intro i s name r hw hi hfd hn hv ho ih fuel2 hf2
    obtain ⟨f2, rfl⟩ : ∃ f, fuel2 = f + 1 := ⟨fuel2 - 1, by omega⟩
    have hlen := lt_length_of_wordAt _ _ _ hw
    have hb := body_out_ok i name s hi hfd hv ho
    rw [← hn] at hb
    rw [loop_next f2 i _ s _ ">" hw hb]
    exact ih f2 (by simp [Sh.afterOut]; omega)
  · intro i s name hw hi hfd hn hv fuel2 hf2
    obtain ⟨f2, rfl⟩ : ∃ f, fuel2 = f + 1 := ⟨fuel2 - 1, by omega⟩
    have hb := body_pipe_ok i name s hi hfd hv
    rw [← hn] at hb
    exact loop_ret f2 i s _ "|" _ hw hb
  · intro i s hw hi hn fuel2 hf2
    obtain ⟨f2, rfl⟩ : ∃ f, fuel2 = f + 1 := ⟨fuel2 - 1, by omega⟩
    have hb := body_amp_ok i s hi
    rw [← hn] at hb
    exact loop_ret f2 i s _ "&" _ hw hb

/-- Any two bounds that cover the words left give the same run of the inner
loop of `main`. -/
theorem lineLoop_fuel (fuel1 : Nat) (s : Sh) (hf : s.words.length - s.curIndex < fuel1) :
    ∀ fuel2, s.words.length - s.curIndex < fuel2 → lineLoop fuel2 s = lineLoop fuel1 s := by
  refine lineLoop_rec (fun s f => ∀ fuel2, s.words.length - s.curIndex < fuel2 →
      lineLoop fuel2 s = f) ?_ ?_ ?_ fuel1 s hf
  · intro s h fuel2 _
    exact lineLoop_of_null fuel2 s h
  · intro s w hw hr fuel2 hf2
    obtain ⟨f2, rfl⟩ : ∃ f, fuel2 = f + 1 := ⟨fuel2 - 1, by omega⟩
    exact lineLoop_fail f2 s w hw hr
  · intro s w f hw hr ih fuel2 hf2
    obtain ⟨f2, rfl⟩ : ∃ f, fuel2 = f + 1 := ⟨fuel2 - 1, by omega⟩
    rw [lineLoop_step f2 s w hw hr]
    obtain ⟨L, _, hL, hc, hl, _, _⟩ := afterCommand_progress s w hw hr
    have hlen := lt_length_of_wordAt _ _ _ hw
    exact ih f2 (by rw [hc, hl]; omega)

theorem maximalRuns_nil (sep : Char → Bool) : maximalRuns sep [] = [] := by
  simp [maximalRuns]

theorem maximalRuns_cons_sep (sep : Char → Bool) (x : Char) (xs : List Char) (h : sep x = true) :
    maximalRuns sep (x :: xs) = maximalRuns sep xs := by
  simp [maximalRuns, h]

theorem maximalRuns_dropWhile (sep : Char → Bool) (l : List Char) :
    maximalRuns sep (l.dropWhile sep) = maximalRuns sep l := by
  induction l with
  | nil => rfl
  | cons x xs ih =>
    by_cases h : sep x = true
    · rw [List.dropWhile_cons_of_pos h, ih, maximalRuns_cons_sep sep x xs h]
    · rw [List.dropWhile_cons_of_neg h]

/-- A text that starts with a character that is no separator: its first run
is its longest prefix without separators, and the other runs are those of the
text behind the separator that ends the first. -/
theorem maximalRuns_token (sep : Char → Bool) (c : Char) (cs : List Char) (hc : sep c = false) :
    maximalRuns sep (c :: cs)
      = (c :: cs).takeWhile (fun x => !sep x)
        :: maximalRuns sep (((c :: cs).dropWhile (fun x => !sep x)).drop 1) := by
  have hsplit := List.takeWhile_append_dropWhile (fun x => !sep x) (c :: cs)
  have hne : (c :: cs).takeWhile (fun x => !sep x) ≠ [] := by
    simp [List.takeWhile_cons, hc]
  have hall : ∀ x ∈ (c :: cs).takeWhile (fun x => !sep x), ¬ sep x = true := by
    intro x hx
    have := List.mem_takeWhile_imp hx
    simpa using this
  cases hd : (c :: cs).dropWhile (fun x => !sep x) with
  | nil =>
    rw [hd, List.append_nil] at hsplit
    have h1 : (c :: cs).splitOnP sep = [c :: cs] := by
      refine List.splitOnP_eq_single _ _ ?_
      rw [← hsplit]; exact hall
    rw [hsplit]
    simp [maximalRuns, h1]
  | cons d ds =>
    have hdsep : sep d = true := by
      have := List.head_dropWhile_not (fun x => !sep x) (c :: cs) (by rw [hd]; simp)
      simpa [hd] using this
    rw [hd] at hsplit
    have h1 : (c :: cs).splitOnP sep
        = (c :: cs).takeWhile (fun x => !sep x) :: ds.splitOnP sep := by
      conv_lhs => rw [← hsplit]
      exact List.splitOnP_first _ _ hall d hdsep ds
    simp only [maximalRuns, h1, List.drop_one, List.tail_cons]
    rw [List.filter_cons_of_pos (by simpa using hne)]

theorem cString_of_no_nul (l : List Char) (h : ∀ c ∈ l, c ≠ Char.ofNat 0) : cString l = l := by
  unfold cString
  rw [List.takeWhile_eq_self_iff]
  intro c hc
  simpa using h c hc

theorem cString_no_nul (text : List Char) : ∀ c ∈ cString text, c ≠ Char.ofNat 0 := by
  intro c hc
  have := List.mem_takeWhile_imp hc
  simpa using this

theorem cString_length_le (text : List Char) : (cString text).length ≤ text.length :=
  (List.takeWhile_sublist _).length_le

/-- A character appended to a text is behind its first NUL, or the text has no
NUL. -/
theorem cString_append (l : List Char) (d : Char) (hd : d ≠ Char.ofNat 0) :
    cString (l ++ [d]) = cString l ∨ (cString (l ++ [d]) = l ++ [d] ∧ cString l = l) := by
  induction l with
  | nil =>
    right
    exact ⟨cString_of_no_nul [d] (by simpa using hd), rfl⟩
  | cons x xs ih =>
    by_cases hx : x = Char.ofNat 0
    · left
      subst hx
      rfl
    · have h1 : ∀ m : List Char, cString (x :: m) = x :: cString m := by
        intro m
        unfold cString
        rw [List.takeWhile_cons_of_pos (by simpa using hx)]
      rw [List.cons_append, h1, h1]
      rcases ih with e | ⟨e1, e2⟩
      · left; rw [e]
      · right; rw [e1, e2]; exact ⟨rfl, rfl⟩

theorem strtok_none (text : List Char) (h : strtok text = none) :
    maximalRuns isDelim (cString text) = [] := by
  unfold strtok at h
  rw [← maximalRuns_dropWhile]
  cases hd : (cString text).dropWhile isDelim with
  | nil => exact maximalRuns_nil _
  | cons c cs => rw [hd] at h; cases h

/-- The text `strtok` leaves for its next call holds no NUL. -/
theorem strtok_rest (text tok rest : List Char) (h : strtok text = some (tok, rest)) :
    cString rest = rest := by
  unfold strtok at h
  cases hd : (cString text).dropWhile isDelim with
  | nil => rw [hd] at h; cases h
  | cons c cs =>
    rw [hd] at h
    simp only [Option.some.injEq, Prod.mk.injEq] at h
    apply cString_of_no_nul
    intro x hx
    rw [← h.2] at hx
    have h1 : x ∈ (c :: cs).dropWhile (fun x => !isDelim x) := List.mem_of_mem_drop hx
    have h2 : x ∈ c :: cs := (List.dropWhile_sublist _).subset h1
    rw [← hd] at h2
    exact cString_no_nul text x ((List.dropWhile_sublist _).subset h2)

theorem strtok_some (text tok rest : List Char) (h : strtok text = some (tok, rest)) :
    maximalRuns isDelim (cString text) = tok :: maximalRuns isDelim (cString rest) := by
  rw [strtok_rest text tok rest h]
  unfold strtok at h
  rw [← maximalRuns_dropWhile]
  cases hd : (cString text).dropWhile isDelim with
  | nil => rw [hd] at h; cases h
  | cons c cs =>
    rw [hd] at h
    simp only [Option.some.injEq, Prod.mk.injEq] at h
    have hc : isDelim c = false := by
      have := List.head_dropWhile_not isDelim (cString text) (by rw [hd]; simp)
      simpa [hd] using this
    rw [maximalRuns_token isDelim c cs hc, h.1, h.2]

theorem wordAt_set_val (l : Words) (j p : Nat) (v : Option String) :
    wordAt (l.set j v) p = if p = j ∧ j < l.length then v else wordAt l p := by
  unfold wordAt
  simp only [List.getD_eq_getElem?_getD, List.getElem?_set]
  by_cases h : p = j
  · subst h
    by_cases hl : p < l.length
    · simp [hl]
    · simp [hl, List.getElem?_eq_none (Nat.le_of_not_lt hl)]
  · have : ¬ j = p := fun e => h e.symm
    simp [h, this]

theorem readLoop_none (fuel i : Nat) (words : Words) :
    readLoop fuel i none words = (i, words) := by
  cases fuel <;> rfl

theorem readLoop_some (fuel i : Nat) (tok rest : List Char) (words : Words)
    (hi : i < MAX_NUM_WORDS) :
    readLoop (fuel + 1) i (some (tok, rest)) words
      = readLoop fuel (i + 1) (strtok rest) (words.set i (some (String.mk tok))) := by
  simp [readLoop, hi]

theorem readLoop_full (fuel : Nat) (word : Option (List Char × List Char)) (words : Words) :
    readLoop fuel MAX_NUM_WORDS word words = (MAX_NUM_WORDS, words) := by
  cases fuel with
  | zero => rfl
  | succ fuel =>
    cases word with
    | none => rfl
    | some w => simp [readLoop]

/-- What the copying loop leaves: it stops at the number of tokens or at
`MAX_NUM_WORDS`, whichever comes first, and the slots it passed hold the tokens
in order. -/
theorem readLoop_spec (fuel : Nat) :
    ∀ (i : Nat) (text : List Char) (words : Words), MAX_NUM_WORDS - i < fuel →
      i ≤ MAX_NUM_WORDS → words.length = MAX_NUM_WORDS →
      (readLoop fuel i (strtok text) words).1
          = min (i + (maximalRuns isDelim (cString text)).length) MAX_NUM_WORDS ∧
      (readLoop fuel i (strtok text) words).2.length = MAX_NUM_WORDS ∧
      ∀ j, wordAt (readLoop fuel i (strtok text) words).2 j
          = if i ≤ j ∧ j < (readLoop fuel i (strtok text) words).1
            then ((maximalRuns isDelim (cString text))[j - i]?).map String.mk
            else wordAt words j := by
  induction fuel with
  | zero => intro i text words hf; omega
  | succ fuel ih =>
    intro i text words hf hi hlen
    cases hs : strtok text with
    | none =>
      rw [readLoop_none, strtok_none text hs]
      refine ⟨by simp [hi], hlen, fun j => ?_⟩
      rw [if_neg (by simp only []; omega)]
    | some w =>
      obtain ⟨tok, rest⟩ := w
      rw [strtok_some text tok rest hs]
      rcases Nat.eq_or_lt_of_le hi with e | e
      · subst e
        rw [readLoop_full]
        refine ⟨by simp, hlen, fun j => ?_⟩
        rw [if_neg (by simp only []; omega)]
      · rw [readLoop_some fuel i tok rest words e]
        obtain ⟨h1, h2, h3⟩ := ih (i + 1) rest (words.set i (some (String.mk tok)))
          (by omega) (by omega) (by simpa using hlen)
        refine ⟨?_, h2, fun j => ?_⟩
        · rw [h1, List.length_cons]
          congr 1; omega
        · have hge : i + 1 ≤ (readLoop fuel (i + 1) (strtok rest)
              (words.set i (some (String.mk tok)))).1 := by
            rw [h1]; exact Nat.le_min.2 ⟨by omega, by omega⟩
          rw [h3 j, wordAt_set_val]
          by_cases hj : j = i
          · subst hj
            rw [if_neg (by omega), if_pos ⟨rfl, by omega⟩, if_pos ⟨le_refl _, by omega⟩]
            simp
          · by_cases hc : i + 1 ≤ j ∧ j < (readLoop fuel (i + 1) (strtok rest)
                (words.set i (some (String.mk tok)))).1
            · rw [if_pos hc, if_pos ⟨by omega, hc.2⟩]
              have : j - i = (j - (i + 1)) + 1 := by omega
              rw [this, List.getElem?_cons_succ]
            · rw [if_neg hc, if_neg (fun h => hj h.1), if_neg (fun h => hc ⟨by omega, h.2⟩)]

theorem freshWords_length (junk : Nat → String) : (freshWords junk).length = MAX_NUM_WORDS := by
  simp [freshWords]

theorem tokensOf_getElem? (line : String) (j : Nat) :
    (tokensOf line)[j]? = ((maximalRuns isDelim (cString line.toList))[j]?).map String.mk := by
  simp [tokensOf]

theorem tokensOf_length (line : String) :
    (tokensOf line).length = (maximalRuns isDelim (cString line.toList)).length := by
  simp [tokensOf]

/-- A line with fewer than `MAX_NUM_WORDS` tokens: no warning, and the array
returned holds the tokens in order, then `NULL`, then the slots never
written. -/
theorem readLineOfWords_short (junk : Nat → String) (line : String)
    (h : (tokensOf line).length < MAX_NUM_WORDS) :
    ∃ ws, readLineOfWords junk (some line) = (some ws, []) ∧ ws.length = MAX_NUM_WORDS ∧
      (∀ j, wordAt ws j = if j < (tokensOf line).length then (tokensOf line)[j]?
        else if j = (tokensOf line).length then none else wordAt (freshWords junk) j) := by
  obtain ⟨h1, h2, h3⟩ := readLoop_spec (MAX_NUM_WORDS + 1) 0 line.toList (freshWords junk)
    (by omega) (Nat.zero_le _) (freshWords_length junk)
  rw [tokensOf_length] at h
  have hi : (readLoop (MAX_NUM_WORDS + 1) 0 (strtok line.toList) (freshWords junk)).1
      = (maximalRuns isDelim (cString line.toList)).length := by
    rw [h1, Nat.zero_add]; exact Nat.min_eq_left (Nat.le_of_lt h)
  refine ⟨(readLoop (MAX_NUM_WORDS + 1) 0 (strtok line.toList) (freshWords junk)).2.set
    (readLoop (MAX_NUM_WORDS + 1) 0 (strtok line.toList) (freshWords junk)).1 none, ?_, ?_, ?_⟩
  · unfold readLineOfWords
    simp only []
    rw [if_neg (by rw [hi]; omega)]
  · simpa using h2
  · intro j
    rw [wordAt_set, hi, h3 j, hi, tokensOf_length, tokensOf_getElem?]
    by_cases hj : j = (maximalRuns isDelim (cString line.toList)).length
    · rw [if_pos hj, if_neg (by omega), if_pos hj]
    · rw [if_neg hj]
      by_cases hlt : j < (maximalRuns isDelim (cString line.toList)).length
      · rw [if_pos ⟨Nat.zero_le _, hlt⟩, if_pos hlt, Nat.sub_zero]
      · rw [if_neg (fun hc => hlt hc.2), if_neg hlt, if_neg hj]

/-- A line with `MAX_NUM_WORDS` tokens or more: the warning is printed and the
array returned holds the first `MAX_NUM_WORDS` tokens and no `NULL`. -/
theorem readLineOfWords_full (junk : Nat → String) (line : String)
    (h : MAX_NUM_WORDS ≤ (tokensOf line).length) :
    readLineOfWords junk (some line)
      = (some (((tokensOf line).take MAX_NUM_WORDS).map some),
          ["WARNING: line contains more than 51 words!\n"]) := by
  obtain ⟨h1, h2, h3⟩ := readLoop_spec (MAX_NUM_WORDS + 1) 0 line.toList (freshWords junk)
    (by omega) (Nat.zero_le _) (freshWords_length junk)
  have h0 := h
  rw [tokensOf_length] at h
  have hi : (readLoop (MAX_NUM_WORDS + 1) 0 (strtok line.toList) (freshWords junk)).1
      = MAX_NUM_WORDS := by
    rw [h1, Nat.zero_add]; exact Nat.min_eq_right h
  unfold readLineOfWords
  simp only []
  rw [if_pos hi]
  congr 2
  apply List.ext_getElem?
  intro j
  by_cases hj : j < MAX_NUM_WORDS
  · have hw := h3 j
    rw [hi, if_pos ⟨Nat.zero_le _, hj⟩, Nat.sub_zero, ← tokensOf_getElem?] at hw
    have hl : j < (readLoop (MAX_NUM_WORDS + 1) 0 (strtok line.toList)
        (freshWords junk)).2.length := by rw [h2]; exact hj
    have hjt : j < (tokensOf line).length := by omega
    unfold wordAt at hw
    rw [List.getD_eq_getElem?_getD, List.getElem?_eq_getElem hl] at hw
    simp only [Option.getD_some] at hw
    rw [List.getElem?_eq_getElem hl, hw, List.getElem?_map, List.getElem?_take_of_lt hj,
      List.getElem?_eq_getElem hjt]
    rfl
  · rw [List.getElem?_eq_none (by rw [h2]; omega),
      List.getElem?_eq_none (by simp; omega)]

/-! ## Facts about maximal runs -/

theorem splitOnP_no_sep (sep : Char → Bool) (l : List Char) :
    ∀ t ∈ l.splitOnP sep, ∀ c ∈ t, sep c = false := by
  induction l with
  | nil => intro t ht c hc; simp at ht; subst ht; cases hc
  | cons x xs ih =>
    intro t ht c hc
    rw [List.splitOnP_cons] at ht
    by_cases hx : sep x = true
    · rw [if_pos hx] at ht
      rcases List.mem_cons.1 ht with e | e
      · subst e; cases hc
      · exact ih t e c hc
    · rw [if_neg hx] at ht
      cases hS : xs.splitOnP sep with
      | nil => exact absurd hS (List.splitOnP_ne_nil sep xs)
      | cons h T =>
        rw [hS] at ht ih
        simp only [List.modifyHead_cons, List.mem_cons] at ht
        rcases ht with e | e
        · subst e
          rcases List.mem_cons.1 hc with e2 | e2
          · subst e2; simpa using hx
          · exact ih h (List.mem_cons_self _ _) c e2
        · exact ih t (List.mem_cons_of_mem _ e) c hc

theorem splitOnP_flatten (sep : Char → Bool) (l : List Char) :
    (l.splitOnP sep).flatten = l.filter (fun c => !sep c) := by
  induction l with
  | nil => rfl
  | cons x xs ih =>
    rw [List.splitOnP_cons]
    by_cases hx : sep x = true
    · rw [if_pos hx, List.flatten_cons, List.nil_append, ih, List.filter_cons_of_neg (by simp [hx])]
    · rw [if_neg hx, List.filter_cons_of_pos (by simpa using hx), ← ih]
      cases hS : xs.splitOnP sep with
      | nil => exact absurd hS (List.splitOnP_ne_nil sep xs)
      | cons h T => simp

theorem flatten_filter_nonempty (L : List (List Char)) :
    (L.filter (fun t => !t.isEmpty)).flatten = L.flatten := by
  induction L with
  | nil => rfl
  | cons t T ih =>
    cases t with
    | nil => simpa using ih
    | cons c cs => simp [ih]

/-- No run is empty and no run contains a separator. -/
theorem maximalRuns_mem (sep : Char → Bool) (l t : List Char) (h : t ∈ maximalRuns sep l) :
    t ≠ [] ∧ ∀ c ∈ t, sep c = false := by
  unfold maximalRuns at h
  rw [List.mem_filter] at h
  refine ⟨?_, splitOnP_no_sep sep l t h.1⟩
  rintro rfl
  simp at h

/-- The runs, laid end to end, are the text without its separators. -/
theorem maximalRuns_flatten (sep : Char → Bool) (l : List Char) :
    (maximalRuns sep l).flatten = l.filter (fun c => !sep c) := by
  unfold maximalRuns
  rw [flatten_filter_nonempty, splitOnP_flatten]

theorem splitOnP_append_sep (sep : Char → Bool) (l : List Char) (d : Char) (hd : sep d = true) :
    (l ++ [d]).splitOnP sep = l.splitOnP sep ++ [[]] := by
  induction l with
  | nil => simp [hd]
  | cons x xs ih =>
    rw [List.cons_append, List.splitOnP_cons, List.splitOnP_cons, ih]
    by_cases hx : sep x = true
    · rw [if_pos hx, if_pos hx]; rfl
    · rw [if_neg hx, if_neg hx]
      cases hS : xs.splitOnP sep with
      | nil => exact absurd hS (List.splitOnP_ne_nil sep xs)
      | cons h T => rfl

/-- A separator at the end of the text adds no run. -/
theorem maximalRuns_append_sep (sep : Char → Bool) (l : List Char) (d : Char)
    (hd : sep d = true) : maximalRuns sep (l ++ [d]) = maximalRuns sep l := by
  unfold maximalRuns
  rw [splitOnP_append_sep sep l d hd, List.filter_append]
  simp

/-- Two runs are at least one separator apart: `n` runs need `2n - 1`
characters. -/
theorem maximalRuns_length (sep : Char → Bool) (l : List Char) :
    2 * (maximalRuns sep l).length ≤ l.length + 1 := by
  have key : ∀ l : List Char,
      2 * ((l.splitOnP sep).filter (fun t => !t.isEmpty)).length
        ≤ l.length + (if (l.splitOnP sep).head? = some [] then 0 else 1) := by
    intro l
    induction l with
    | nil => simp
    | cons x xs ih =>
      rw [List.splitOnP_cons]
      by_cases hx : sep x = true
      · rw [if_pos hx]
        simp only [List.head?_cons, if_true, List.length_cons]
        rw [List.filter_cons_of_neg (by simp)]
        split at ih <;> omega
      · rw [if_neg hx]
        cases hS : xs.splitOnP sep with
        | nil => exact absurd hS (List.splitOnP_ne_nil sep xs)
        | cons h T =>
          rw [hS] at ih
          simp only [List.modifyHead_cons, List.head?_cons, List.length_cons]
          rw [List.filter_cons_of_pos (by simp)]
          rw [if_neg (by simp)]
          cases h with
          | nil =>
            rw [List.filter_cons_of_neg (by simp)] at ih
            simp only [List.head?_cons, if_true] at ih
            simp only [List.length_cons]
            omega
          | cons c cs =>
            rw [List.filter_cons_of_pos (by simp)] at ih
            simp only [List.length_cons] at ih ⊢
            split at ih <;> omega
  have := key l
  unfold maximalRuns
  split at this <;> omega

theorem getElem?_of_wordAt (l : Words) (j : Nat) (hl : j < l.length) :
    l[j]? = some (wordAt l j) := by
  unfold wordAt
  rw [List.getD_eq_getElem?_getD, List.getElem?_eq_getElem hl]
  rfl

theorem tokensOf_append_newline (line : String) : tokensOf (line ++ "\n") = tokensOf line := by
  unfold tokensOf
  have : (line ++ "\n").toList = line.toList ++ ['\n'] := by simp
  rw [this]
  rcases cString_append line.toList '\n' (by decide) with e | ⟨e1, e2⟩
  · rw [e]
  · rw [e1, e2, maximalRuns_append_sep isDelim _ '\n' (by decide)]

theorem tokensOf_length_le (line : String) : 2 * (tokensOf line).length ≤ line.length + 1 := by
  rw [tokensOf_length]
  have h1 := maximalRuns_length isDelim (cString line.toList)
  have h2 := cString_length_le line.toList
  have h3 : line.length = line.toList.length := rfl
  omega

/-- The index at which the copying loop of `readLineOfWords` stops. -/
theorem readLoop_index (junk : Nat → String) (line : String) :
    (readLoop (MAX_NUM_WORDS + 1) 0 (strtok line.toList) (freshWords junk)).1
      = min (tokensOf line).length MAX_NUM_WORDS := by
  obtain ⟨h1, _, _⟩ := readLoop_spec (MAX_NUM_WORDS + 1) 0 line.toList (freshWords junk)
    (by omega) (Nat.zero_le _) (freshWords_length junk)
  rw [h1, Nat.zero_add, tokensOf_length]

/-! ## Where the segmenter stops -/

theorem loop_stops (fuel i : Nat) (s : Sh) (hf : s.words.length - (s.curIndex + i) < fuel) :
    ∀ n, i ≤ n → (∀ j, i ≤ j → j < n → wordAt s.words (s.curIndex + j) ≠ none) →
      wordAt s.words (s.curIndex + n) = none →
      (processCommandLoop fuel i s).1 = -1 ∨
      ∃ L : Nat, (processCommandLoop fuel i s).1 = (L : Int) ∧ i ≤ L ∧ L ≤ n ∧
        StopsAt s n (processCommandLoop fuel i s) L := by
  refine loop_rec (fun i s r => ∀ n, i ≤ n →
      (∀ j, i ≤ j → j < n → wordAt s.words (s.curIndex + j) ≠ none) →
      wordAt s.words (s.curIndex + n) = none →
      r.1 = -1 ∨ ∃ L : Nat, r.1 = (L : Int) ∧ i ≤ L ∧ L ≤ n ∧ StopsAt s n r L)
    ?_ ?_ ?_ ?_ ?_ ?_ ?_ fuel i s hf
  · intro i s h n hin hnn hn
    have : i = n := by
      by_contra hne
      exact hnn i (le_refl _) (by omega) h
    subst this
    exact Or.inr ⟨i, rfl, le_refl _, le_refl _, Or.inl ⟨rfl, h⟩⟩
  · intro i s w s1 _ _ _ n _ _ _; exact Or.inl rfl
  · intro i s w r hw hv ih n hin hnn hn
    have hlt : i < n := by
      rcases Nat.eq_or_lt_of_le hin with e | e
      · subst e; rw [hw] at hn; cases hn
      · exact e
    rcases ih n hlt (fun j h1 h2 => hnn j (by omega) h2) hn with h | ⟨L, h1, h2, h3, h4⟩
    · exact Or.inl h
    · exact Or.inr ⟨L, h1, by omega, h3, h4⟩
  · intro i s name r hw hi hfd hnm hv ho ih n hin hnn hn
    have hlt : i < n := by
      rcases Nat.eq_or_lt_of_le hin with e | e
      · subst e; rw [hw] at hn; cases hn
      · exact e
    have hlt1 : i + 1 < n := by
      rcases Nat.eq_or_lt_of_le (Nat.succ_le_of_lt hlt) with e | e
      · rw [← e, hnm] at hn; cases hn
      · exact e
    have hc : (s.afterIn i name).curIndex = s.curIndex := rfl
    rcases ih n hlt1
      (fun j h1 h2 => by rw [hc, wordAt_afterIn, if_neg (by omega)]; exact hnn j (by omega) h2)
      (by rw [hc, wordAt_afterIn, if_neg (by omega)]; exact hn) with h | ⟨L, h1, h2, h3, h4⟩
    · exact Or.inl h
    · refine Or.inr ⟨L, h1, by omega, h3, ?_⟩
      unfold StopsAt at h4 ⊢
      rw [hc] at h4
      rw [wordAt_afterIn, if_neg (by omega), wordAt_afterIn, if_neg (by omega)] at h4
      exact h4
  · intro i s name r hw hi hfd hnm hv ho ih n hin hnn hn
    have hlt : i < n := by
      rcases Nat.eq_or_lt_of_le hin with e | e
      · subst e; rw [hw] at hn; cases hn
      · exact e
    have hlt1 : i + 1 < n := by
      rcases Nat.eq_or_lt_of_le (Nat.succ_le_of_lt hlt) with e | e
      · rw [← e, hnm] at hn; cases hn
      · exact e
    have hc : (s.afterOut i name).curIndex = s.curIndex := rfl
    rcases ih n hlt1
      (fun j h1 h2 => by rw [hc, wordAt_afterOut, if_neg (by omega)]; exact hnn j (by omega) h2)
      (by rw [hc, wordAt_afterOut, if_neg (by omega)]; exact hn) with h | ⟨L, h1, h2, h3, h4⟩
    · exact Or.inl h
    · refine Or.inr ⟨L, h1, by omega, h3, ?_⟩
      unfold StopsAt at h4 ⊢
      rw [hc] at h4
      rw [wordAt_afterOut, if_neg (by omega), wordAt_afterOut, if_neg (by omega)] at h4
      exact h4
  · intro i s name hw hi _ hnm hv n hin hnn hn
    have hlt : i < n := by
      rcases Nat.eq_or_lt_of_le hin with e | e
      · subst e; rw [hw] at hn; cases hn
      · exact e
    have hlt1 : i + 1 < n := by
      rcases Nat.eq_or_lt_of_le (Nat.succ_le_of_lt hlt) with e | e
      · rw [← e, hnm] at hn; cases hn
      · exact e
    refine Or.inr ⟨i + 1, rfl, by omega, by omega, Or.inr (Or.inr ⟨by omega, hlt1, ?_, name, hnm, ?_, hv⟩)⟩
    · simpa using hw
    · show wordAt (s.afterPipe i).words _ = _
      rw [wordAt_afterPipe, if_neg (by omega)]; exact hnm
  · intro i s hw hi hnx n hin hnn hn
    have hlt : i < n := by
      rcases Nat.eq_or_lt_of_le hin with e | e
      · subst e; rw [hw] at hn; cases hn
      · exact e
    have : i + 1 = n := by
      by_contra hne
      exact hnn (i + 1) (by omega) (by omega) hnx
    refine Or.inr ⟨i, rfl, le_refl _, by omega, Or.inr (Or.inl ⟨this, hw, ?_⟩)⟩
    show wordAt (s.afterAmp i).words _ = _
    rw [wordAt_afterAmp, if_pos rfl]


theorem firstNull_init (os : World) (ts : List String) :
    FirstNull ts.length (initSh os (lineWords ts)) := by
  refine ⟨Nat.zero_le _, ?_, ?_⟩
  · show wordAt (lineWords ts) ts.length = none
    rw [wordAt_lineWords, List.getElem?_eq_none (le_refl _)]
  · intro j _ hj
    show wordAt (lineWords ts) j ≠ none
    rw [wordAt_lineWords, List.getElem?_eq_getElem hj]
    simp

/-- One accepted pass of the inner loop moves `curIndex` forward, at most to
the first `NULL` of the array. -/
theorem firstNull_step (m : Nat) (s : Sh) (w : String) (h : FirstNull m s)
    (hw : wordAt s.words s.curIndex = some w) (hr : (processCommand s).1 ≠ -1) :
    s.curIndex < s.afterCommand.curIndex ∧ s.afterCommand.curIndex ≤ m ∧
    ∃ m', m' ≤ m ∧ FirstNull m' s.afterCommand := by
  obtain ⟨hcm, hm, hnn⟩ := h
  have hlt : s.curIndex < m := by
    rcases Nat.eq_or_lt_of_le hcm with e | e
    · rw [← e, hw] at hm; cases hm
    · exact e
  obtain ⟨L', hL', hpos, hc, _, hrest, _⟩ := afterCommand_progress s w hw hr
  have hwords : s.afterCommand.words = (processCommand s).2.words := by
    simp [Sh.afterCommand]
  rcases loop_stops (s.words.length + 1) 0 s (by omega) (m - s.curIndex) (Nat.zero_le _)
    (fun j _ hj => hnn _ (by omega) (by omega))
    (by
      have : s.curIndex + (m - s.curIndex) = m := by omega
      rw [this]; exact hm) with h | ⟨L, hL, _, hLn, hstop⟩
  · exact absurd h hr
  · have hLL : L = L' := by
      have h1 : (processCommand s).1 = (L : Int) := hL
      rw [hL'] at h1
      exact (Int.ofNat_inj.1 h1).symm
    subst hLL
    refine ⟨by omega, by omega, ?_⟩
    rcases hstop with ⟨_, h2⟩ | ⟨_, _, h2⟩ | ⟨_, hLlt, _, w2, h3, h4, _⟩
    · exact ⟨s.curIndex + L, by omega, by omega, by rw [hwords]; exact h2,
        fun j h1 h2 => by omega⟩
    · exact ⟨s.curIndex + L, by omega, by omega, by rw [hwords]; exact h2,
        fun j h1 h2 => by omega⟩
    · refine ⟨m, le_refl _, by omega, ?_, ?_⟩
      · rw [hrest m (by omega)]; exact hm
      · intro j h1 h2
        rw [hc] at h1
        rcases Nat.eq_or_lt_of_le h1 with e | e
        · rw [← e, hwords]
          have h4 : wordAt (processCommand s).2.words (s.curIndex + L) = some w2 := h4
          rw [h4]; simp
        · rw [hrest j e]; exact hnn j (by omega) h2

theorem lineTrace_stop (fuel : Nat) (s : Sh) (h : wordAt s.words s.curIndex = none) :
    lineTrace fuel s = [s] := by
  cases fuel with
  | zero => rfl
  | succ f => simp [lineTrace, h]

theorem lineTrace_fail (fuel : Nat) (s : Sh) (w : String)
    (h : wordAt s.words s.curIndex = some w) (hr : (processCommand s).1 = -1) :
    lineTrace (fuel + 1) s = [s] := by
  simp [lineTrace, h, hr]

theorem lineTrace_step (fuel : Nat) (s : Sh) (w : String)
    (h : wordAt s.words s.curIndex = some w) (hr : (processCommand s).1 ≠ -1) :
    lineTrace (fuel + 1) s = s :: lineTrace fuel s.afterCommand := by
  simp [lineTrace, h, hr, Sh.afterCommand, Sh.afterParse]

theorem lineTrace_head (fuel : Nat) (s : Sh) : (lineTrace fuel s).head? = some s := by
  cases fuel with
  | zero => rfl
  | succ f =>
    cases hw : wordAt s.words s.curIndex with
    | none => rw [lineTrace_stop _ s hw]; rfl
    | some w =>
      by_cases hr : (processCommand s).1 = -1
      · rw [lineTrace_fail f s w hw hr]; rfl
      · rw [lineTrace_step f s w hw hr]; rfl

/-- Along the states at line 38, `curIndex` strictly increases and stays at or
below the first `NULL`, and there are at most as many passes as words. -/
theorem lineTrace_increasing (fuel : Nat) : ∀ (s : Sh) (m : Nat), FirstNull m s →
    List.Chain' (fun a b : Sh => a.curIndex < b.curIndex) (lineTrace fuel s) ∧
    (∀ b ∈ lineTrace fuel s, b.curIndex ≤ m) ∧
    ((lineTrace fuel s).filter (fun b => (wordAt b.words b.curIndex).isSome)).length
      ≤ m - s.curIndex := by
  have hone : ∀ (s : Sh) (m : Nat), FirstNull m s →
      ([s].filter (fun b => (wordAt b.words b.curIndex).isSome)).length ≤ m - s.curIndex := by
    intro s m h
    cases hw : wordAt s.words s.curIndex with
    | none => simp [hw]
    | some w =>
      have hlt : s.curIndex < m := by
        rcases Nat.eq_or_lt_of_le h.1 with e | e
        · have := h.2.1; rw [← e, hw] at this; cases this
        · exact e
      simp [hw]; omega
  induction fuel with
  | zero =>
    intro s m h
    exact ⟨by simp [lineTrace], by simpa [lineTrace] using h.1, hone s m h⟩
  | succ fuel ih =>
    intro s m h
    cases hw : wordAt s.words s.curIndex with
    | none =>
      rw [lineTrace_stop _ s hw]
      exact ⟨by simp, by simpa using h.1, hone s m h⟩
    | some w =>
      by_cases hr : (processCommand s).1 = -1
      · rw [lineTrace_fail fuel s w hw hr]
        exact ⟨by simp, by simpa using h.1, hone s m h⟩
      · rw [lineTrace_step fuel s w hw hr]
        obtain ⟨h1, h2, m', hm', h3⟩ := firstNull_step m s w h hw hr
        obtain ⟨i1, i2, i3⟩ := ih s.afterCommand m' h3
        refine ⟨?_, ?_, ?_⟩
        · rw [List.chain'_cons']
          refine ⟨fun y hy => ?_, i1⟩
          rw [lineTrace_head] at hy
          cases hy
          exact h1
        · intro b hb
          rcases List.mem_cons.1 hb with e | e
          · rw [e]; exact h.1
          · exact le_trans (i2 b e) hm'
        · rw [List.filter_cons_of_pos (by simp [hw]), List.length_cons]
          have := h3.1
          omega

theorem lineTrace_bound (fuel1 : Nat) : ∀ (s : Sh) (m : Nat), FirstNull m s →
    m - s.curIndex ≤ fuel1 →
    ∀ fuel2, m - s.curIndex ≤ fuel2 → lineTrace fuel2 s = lineTrace fuel1 s := by
  induction fuel1 with
  | zero =>
    intro s m h hf fuel2 _
    have hcur : s.curIndex = m := by have := h.1; omega
    have hnull : wordAt s.words s.curIndex = none := by rw [hcur]; exact h.2.1
    rw [lineTrace_stop fuel2 s hnull, lineTrace_stop 0 s hnull]
  | succ fuel1 ih =>
    intro s m h hf fuel2 hf2
    cases hw : wordAt s.words s.curIndex with
    | none => rw [lineTrace_stop fuel2 s hw, lineTrace_stop _ s hw]
    | some w =>
      have hlt : s.curIndex < m := by
        rcases Nat.eq_or_lt_of_le h.1 with e | e
        · have := h.2.1; rw [← e, hw] at this; cases this
        · exact e
      obtain ⟨f2, rfl⟩ : ∃ f, fuel2 = f + 1 := ⟨fuel2 - 1, by omega⟩
      by_cases hr : (processCommand s).1 = -1
      · rw [lineTrace_fail fuel1 s w hw hr, lineTrace_fail f2 s w hw hr]
      · rw [lineTrace_step fuel1 s w hw hr, lineTrace_step f2 s w hw hr]
        obtain ⟨h1, h2, m', hm', h3⟩ := firstNull_step m s w h hw hr
        rw [ih s.afterCommand m' h3 (by omega) f2 (by omega)]

/-- As many passes as there are words before the first `NULL` are enough for
the inner loop to end. -/
theorem lineLoop_bound (fuel1 : Nat) : ∀ (s : Sh) (m : Nat), FirstNull m s →
    m - s.curIndex ≤ fuel1 →
    (∀ fuel2, m - s.curIndex ≤ fuel2 → lineLoop fuel2 s = lineLoop fuel1 s) ∧
    (wordAt (lineLoop fuel1 s).words (lineLoop fuel1 s).curIndex = none ∨
      (lineLoop fuel1 s).commandLength = some (-1)) := by
  induction fuel1 with
  | zero =>
    intro s m h hf
    have hcur : s.curIndex = m := by have := h.1; omega
    have hnull : wordAt s.words s.curIndex = none := by rw [hcur]; exact h.2.1
    exact ⟨fun fuel2 _ => by rw [lineLoop_of_null fuel2 s hnull, lineLoop_of_null 0 s hnull],
      Or.inl (by rw [lineLoop_of_null 0 s hnull]; exact hnull)⟩
  | succ fuel1 ih =>
    intro s m h hf
    cases hw : wordAt s.words s.curIndex with
    | none =>
      exact ⟨fun fuel2 _ => by rw [lineLoop_of_null fuel2 s hw, lineLoop_of_null _ s hw],
        Or.inl (by rw [lineLoop_of_null _ s hw]; exact hw)⟩
    | some w =>
      have hlt : s.curIndex < m := by
        rcases Nat.eq_or_lt_of_le h.1 with e | e
        · have := h.2.1; rw [← e, hw] at this; cases this
        · exact e
      by_cases hr : (processCommand s).1 = -1
      · rw [lineLoop_fail fuel1 s w hw hr]
        refine ⟨fun fuel2 hf2 => ?_, Or.inr (by simp [hr])⟩
        obtain ⟨f2, rfl⟩ : ∃ f, fuel2 = f + 1 := ⟨fuel2 - 1, by omega⟩
        exact lineLoop_fail f2 s w hw hr
      · rw [lineLoop_step fuel1 s w hw hr]
        obtain ⟨h1, h2, m', hm', h3⟩ := firstNull_step m s w h hw hr
        obtain ⟨i1, i2⟩ := ih s.afterCommand m' h3 (by omega)
        refine ⟨fun fuel2 hf2 => ?_, i2⟩
        obtain ⟨f2, rfl⟩ : ∃ f, fuel2 = f + 1 := ⟨fuel2 - 1, by omega⟩
        rw [lineLoop_step f2 s w hw hr]
        exact i1 f2 (by omega)

/-! ## Pipes held by the parent -/

theorem opened_obj_cases (w : World) (path : String) (flags mode : Nat) (fd : Int) (o : Obj)
    (h : (w.opened path flags mode).fdt.obj fd = some o) :
    o = .file path flags mode ∨ w.fdt.obj fd = some o := by
  simp only [World.opened, obj_put] at h
  by_cases e : fd = (w.fdt.free : Int)
  · rw [if_pos e] at h
    exact Or.inl (Option.some.inj h).symm
  · rw [if_neg e] at h
    exact Or.inr h

theorem pipe_obj_cases (w : World) (fd : Int) (o : Obj) (h : w.pipe.2.fdt.obj fd = some o) :
    fd = w.pipe.1.1 ∨ fd = w.pipe.1.2 ∨ w.fdt.obj fd = some o := by
  simp only [World.pipe, obj_put] at h ⊢
  by_cases e2 : fd = ((w.fdt.put w.fdt.free (some (.pipeRead w.npipes))).free : Int)
  · exact Or.inr (Or.inl e2)
  · rw [if_neg e2] at h
    by_cases e1 : fd = (w.fdt.free : Int)
    · exact Or.inl e1
    · rw [if_neg e1] at h
      exact Or.inr (Or.inr h)

theorem pipesWithin_opened (w : World) (path : String) (flags mode : Nat) (t : FdTable)
    (l : List Int) (h : PipesWithin (w.opened path flags mode).fdt t l) :
    PipesWithin w.fdt t l := by
  intro fd o ho hp
  rcases h fd o ho hp with h1 | h1
  · exact Or.inl h1
  · rcases opened_obj_cases w path flags mode fd o h1 with e | e
    · subst e; cases hp
    · exact Or.inr e


theorem loop_pipeStep (fuel i : Nat) (s : Sh) (hf : s.words.length - (s.curIndex + i) < fuel) :
    PipeStep i s (processCommandLoop fuel i s) := by
  refine loop_rec PipeStep ?_ ?_ ?_ ?_ ?_ ?_ ?_ fuel i s hf
  · intro i s h
    refine ⟨fun fd o ho => ho, [], by simp, rfl, Or.inr ⟨i, rfl, le_refl _, Or.inr ?_⟩⟩
    exact ⟨fun hc => by omega, h, rfl, rfl, rfl, fun fd o ho _ => Or.inr ho⟩
  · intro i s w s1 _ _ hfr
    obtain ⟨_, _, _, _, _, _, _, h8, _, h10, evs, h11, _⟩ := hfr
    exact ⟨fun fd o ho => by rw [h8]; exact ho, evs, h11, h10, Or.inl rfl⟩
  · intro i s w r hw hv ih
    obtain ⟨h1, evs, h2, h3, h4⟩ := ih
    refine ⟨h1, evs, h2, h3, ?_⟩
    rcases h4 with h4 | ⟨L, hL, hiL, h5⟩
    · exact Or.inl h4
    · refine Or.inr ⟨L, hL, by omega, ?_⟩
      rcases h5 with h5 | ⟨h6, h7⟩
      · exact Or.inl h5
      · refine Or.inr ⟨fun _ => ?_, h7⟩
        rcases Nat.eq_or_lt_of_le hiL with e | e
        · have : L - 1 = i := by omega
          rw [this, hw]
          intro hc
          exact (valid_not_operator w hv).2.2.1 (Option.some.inj hc)
        · exact h6 e
  · intro i s name r hw hi hfd hnm hv ho ih
    obtain ⟨h1, evs, h2, h3, h4⟩ := ih
    have hc : (s.afterIn i name).curIndex = s.curIndex := rfl
    have hnp : (s.afterIn i name).os.npipes = s.os.npipes := rfl
    have hpost : (s.afterIn i name).postpipe = s.postpipe := rfl
    have hfdt : (s.afterIn i name).os.fdt = (s.os.opened name O_RDONLY 420).fdt := rfl
    have hlog : (s.afterIn i name).os.log
        = s.os.log ++ [.sysopen name O_RDONLY 420 s.os.fdt.free] := rfl
    rw [hc, hnp, hpost, hfdt] at h4
    refine ⟨fun fd o ho => h1 fd o (by rw [hfdt]; exact opened_obj_mono _ _ _ _ fd o ho),
      .sysopen name O_RDONLY 420 s.os.fdt.free :: evs, by rw [h2, hlog]; simp, h3, ?_⟩
    rcases h4 with h4 | ⟨L, hL, hiL, h5⟩
    · exact Or.inl h4
    · refine Or.inr ⟨L, hL, by omega, ?_⟩
      rcases h5 with ⟨a1, a2, a3, a4, a5, a6, a7, a8, a9, a10, a11, a12⟩ | ⟨b1, b2, b3, b4, b5, b6⟩
      · left
        refine ⟨a1, ?_, ?_, a4, a5, opened_obj_none _ _ _ _ _ a6, opened_obj_none _ _ _ _ _ a7,
          a8, a9, a10, by simpa [pipesOf] using a11, pipesWithin_opened _ _ _ _ _ _ a12⟩
        · rw [wordAt_afterIn, if_neg (by omega)] at a2; exact a2
        · intro p hp
          rw [a3 p hp, wordAt_afterIn, if_neg (by omega)]
      · right
        refine ⟨fun _ => ?_, b2, b3, b4, by simpa [pipesOf] using b5,
          pipesWithin_opened _ _ _ _ _ _ b6⟩
        rcases Nat.eq_or_lt_of_le hiL with e | e
        · have : L - 1 = i + 1 := by omega
          rw [this, hnm]
          intro hc2
          exact (valid_not_operator name hv).2.2.1 (Option.some.inj hc2)
        · have := b1 e
          rw [wordAt_afterIn, if_neg (by omega)] at this
          exact this
  · intro i s name r hw hi hfd hnm hv ho ih
    obtain ⟨h1, evs, h2, h3, h4⟩ := ih
    have hc : (s.afterOut i name).curIndex = s.curIndex := rfl
    have hnp : (s.afterOut i name).os.npipes = s.os.npipes := rfl
    have hpost : (s.afterOut i name).postpipe = s.postpipe := rfl
    have hfdt : (s.afterOut i name).os.fdt
        = (s.os.opened name (O_WRONLY ||| O_CREAT) 420).fdt := rfl
    have hlog : (s.afterOut i name).os.log
        = s.os.log ++ [.sysopen name (O_WRONLY ||| O_CREAT) 420 s.os.fdt.free] := rfl
    rw [hc, hnp, hpost, hfdt] at h4
    refine ⟨fun fd o ho => h1 fd o (by rw [hfdt]; exact opened_obj_mono _ _ _ _ fd o ho),
      .sysopen name (O_WRONLY ||| O_CREAT) 420 s.os.fdt.free :: evs,
      by rw [h2, hlog]; simp, h3, ?_⟩
    rcases h4 with h4 | ⟨L, hL, hiL, h5⟩
    · exact Or.inl h4
    · refine Or.inr ⟨L, hL, by omega, ?_⟩
      rcases h5 with ⟨a1, a2, a3, a4, a5, a6, a7, a8, a9, a10, a11, a12⟩ | ⟨b1, b2, b3, b4, b5, b6⟩
      · left
        refine ⟨a1, ?_, ?_, a4, a5, opened_obj_none _ _ _ _ _ a6, opened_obj_none _ _ _ _ _ a7,
          a8, a9, a10, by simpa [pipesOf] using a11, pipesWithin_opened _ _ _ _ _ _ a12⟩
        · rw [wordAt_afterOut, if_neg (by omega)] at a2; exact a2
        · intro p hp
          rw [a3 p hp, wordAt_afterOut, if_neg (by omega)]
      · right
        refine ⟨fun _ => ?_, b2, b3, b4, by simpa [pipesOf] using b5,
          pipesWithin_opened _ _ _ _ _ _ b6⟩
        rcases Nat.eq_or_lt_of_le hiL with e | e
        · have : L - 1 = i + 1 := by omega
          rw [this, hnm]
          intro hc2
          exact (valid_not_operator name hv).2.2.1 (Option.some.inj hc2)
        · have := b1 e
          rw [wordAt_afterOut, if_neg (by omega)] at this
          exact this
  · intro i s name hw hi _ hnm hv
    have hfdt : (s.afterPipe i).os.fdt = s.os.pipe.2.fdt := rfl
    have hpp : (s.afterPipe i).postpipe = s.os.pipe.1 := rfl
    refine ⟨fun fd o ho => by rw [hfdt]; exact pipe_obj_mono _ fd o ho,
      [.pipe s.os.pipe.1.1 s.os.pipe.1.2], ?_, rfl, Or.inr ⟨i + 1, rfl, by omega, Or.inl ?_⟩⟩
    · show s.os.pipe.2.log = _
      exact pipe_log s.os
    · refine ⟨by omega, by simpa using hw, ?_, ?_, ?_, (pipe_fresh s.os).1, (pipe_fresh s.os).2,
        ?_, ?_, rfl, rfl, ?_⟩
      · intro p hp
        show wordAt (s.afterPipe i).words p = _
        rw [wordAt_afterPipe, if_neg (by omega)]
      · show (0 : Int) ≤ s.os.pipe.1.1
        simp [World.pipe]
      · show (0 : Int) ≤ s.os.pipe.1.2
        simp [World.pipe]
      · show s.os.pipe.2.fdt.obj s.os.pipe.1.1 = _
        exact pipe_obj_read s.os
      · show s.os.pipe.2.fdt.obj s.os.pipe.1.2 = _
        exact pipe_obj_write s.os
      · intro fd o ho _
        rw [hfdt] at ho
        rcases pipe_obj_cases s.os fd o ho with e | e | e
        · exact Or.inl (by rw [hpp, e]; simp)
        · exact Or.inl (by rw [hpp, e]; simp)
        · exact Or.inr e
  · intro i s hw hi hnx
    refine ⟨fun fd o ho => ho, [], by simp [Sh.afterAmp, Sh.setNull], rfl,
      Or.inr ⟨i, rfl, le_refl _, Or.inr ?_⟩⟩
    refine ⟨fun hc => by omega, ?_, rfl, rfl, rfl, fun fd o ho _ => Or.inr ho⟩
    show wordAt (s.afterAmp i).words _ = _
    rw [wordAt_afterAmp, if_pos rfl]


theorem forkAndContinue_unpiped (s : Sh) (n : Int) (h : s.postpipe.1 < 0) :
    (forkAndContinue s n).redirInpFD = -1 ∧
    (forkAndContinue s n).redirOutFD = -1 ∧
    (forkAndContinue s n).prepipe = s.prepipe ∧
    (forkAndContinue s n).postpipe = s.postpipe := by
  have h' : ¬ s.postpipe.1 ≥ 0 := by omega
  simp [forkAndContinue_eq, h']

theorem lineInv_init (os : World) (ts : List String) :
    LineInv ts os.fdt (initSh os (lineWords ts)) ∧ LineAux ts (initSh os (lineWords ts)) := by
  refine ⟨⟨rfl, rfl, ?_, ?_, ?_⟩, Or.inr ⟨fun j _ => wordAt_lineWords ts j, fun _ => ?_⟩⟩
  · simp [initSh]
  · intro h; simp [initSh] at h
  · intro _; exact ⟨rfl, fun fd o ho _ => Or.inr ho⟩
  · simp [initSh]

/-- One accepted pass of the inner loop keeps the invariant of line 38. -/
theorem lineInv_step (ts : List String) (t0 : FdTable) (s : Sh) (w : String)
    (hI : LineInv ts t0 s) (hA : LineAux ts s)
    (hw : wordAt s.words s.curIndex = some w) (hr : (processCommand s).1 ≠ -1) :
    LineInv ts t0 s.afterCommand ∧ LineAux ts s.afterCommand ∧ PassPipes s s.afterCommand := by
  obtain ⟨I1, I2, I3, I4, I5⟩ := hI
  obtain ⟨htail, hpre⟩ : (∀ j, s.curIndex ≤ j → wordAt s.words j = ts[j]?) ∧
      (s.redirInpFD < 0 → s.prepipe.1 < 0) := by
    rcases hA with h | h
    · rw [hw] at h; cases h
    · exact h
  have hstep : PipeStep 0 s (processCommand s) := loop_pipeStep (s.words.length + 1) 0 s (by omega)
  obtain ⟨hmono, evs, hlog, _, hcases⟩ := hstep
  obtain ⟨L', hL', hpos, hcur, _, _, _⟩ := afterCommand_progress s w hw hr
  have hprepipe : s.afterParse.prepipe = s.prepipe := (processCommand_frame s).2.2.1
  have hobj : ∀ x, s.afterCommand.os.fdt.obj x =
      if s.prepipe.1 ≥ 0 ∧ (x = s.prepipe.1 ∨ x = s.prepipe.2) then none
      else (processCommand s).2.os.fdt.obj x := by
    intro x
    have := forkAndContinue_obj s.afterParse (processCommand s).1 x
    rw [hprepipe] at this
    exact this
  have hnp : s.afterCommand.os.npipes = (processCommand s).2.os.npipes :=
    forkAndContinue_npipes s.afterParse (processCommand s).1
  have hpipes : pipesOf (callsSince s.os.log s.afterCommand.os.log) = pipesOf evs := by
    have h1 : s.afterCommand.os.log = (processCommand s).2.os.log ++
        (.fork (childImage s.afterParse s.afterParse.os.nextPid) :: parentCloses s.afterParse) :=
      forkAndContinue_log s.afterParse (processCommand s).1
    rw [h1, hlog, List.append_assoc, callsSince_append, pipesOf_append, pipesOf_cons_fork,
      pipesOf_parentCloses, List.append_nil]
  have hwords : s.afterCommand.words = (processCommand s).2.words := by simp [Sh.afterCommand]
  -- the descriptors the parent closes were open when the pass started
  have hopen : s.prepipe.1 ≥ 0 →
      s.os.fdt.obj s.prepipe.1 ≠ none ∧ s.os.fdt.obj s.prepipe.2 ≠ none := by
    intro hp
    have hc : 0 ≤ s.redirInpFD := by
      by_contra hn
      have := hpre (by omega)
      omega
    obtain ⟨_, _, h3, h4, _⟩ := I4 hc
    exact ⟨by rw [h3]; simp, by rw [h4]; simp⟩
  have hnotclosed : ∀ x : Int, s.os.fdt.obj x = none →
      ¬ (s.prepipe.1 ≥ 0 ∧ (x = s.prepipe.1 ∨ x = s.prepipe.2)) := by
    intro x hx hc
    obtain ⟨o1, o2⟩ := hopen hc.1
    rcases hc.2 with e | e
    · rw [e] at hx; exact o1 hx
    · rw [e] at hx; exact o2 hx
  -- an end of a pipe that survives the pass was open in `t0`, unless it is in `l`
  have hwithin : ∀ l : List Int, PipesWithin s.os.fdt (processCommand s).2.os.fdt l →
      PipesWithin t0 s.afterCommand.os.fdt l := by
    intro l hl fd o ho hp
    rw [hobj fd] at ho
    by_cases hc : s.prepipe.1 ≥ 0 ∧ (fd = s.prepipe.1 ∨ fd = s.prepipe.2)
    · rw [if_pos hc] at ho; cases ho
    · rw [if_neg hc] at ho
      rcases hl fd o ho hp with h | h
      · exact Or.inl h
      · right
        by_cases hcar : 0 ≤ s.redirInpFD
        · obtain ⟨e1, _, _, _, h5⟩ := I4 hcar
          rcases h5 fd o h hp with h6 | h6
          · exfalso
            apply hc
            refine ⟨by omega, ?_⟩
            simpa using h6
          · exact h6
        · rcases (I5 (by omega)).2 fd o h hp with h6 | h6
          · simp at h6
          · exact h6
  rcases hcases with h | ⟨L, hL, _, hLcase⟩
  · exact absurd h hr
  have hLL : L = L' := by
    have h1 : (processCommand s).1 = (L : Int) := hL
    rw [hL'] at h1
    exact (Int.ofNat_inj.1 h1).symm
  subst hLL
  have hidx : s.afterCommand.curIndex - 1 = s.curIndex + (L - 1) := by rw [hcur]; omega
  rcases hLcase with ⟨a1, a2, a3, a4, a5, a6, a7, a8, a9, a10, a11, a12⟩ | ⟨b1, b2, b3, b4, b5, b6⟩
  · have hpp : s.afterParse.postpipe.1 ≥ 0 := a4
    obtain ⟨q1, q2, q3, q4⟩ := forkAndContinue_piped s.afterParse (processCommand s).1 hpp
    have q1 : s.afterCommand.redirInpFD = (processCommand s).2.postpipe.1 := q1
    have q2 : s.afterCommand.redirOutFD = -1 := q2
    have q3 : s.afterCommand.prepipe = (processCommand s).2.postpipe := q3
    have q4 : s.afterCommand.postpipe = (-1, -1) := q4
    refine ⟨⟨q4, q2, ?_, ?_, ?_⟩, Or.inr ⟨?_, ?_⟩, ⟨?_, ?_⟩⟩
    · constructor
      · intro _
        refine ⟨by rw [hcur]; omega, ?_⟩
        rw [hidx, ← htail _ (by omega)]
        exact a2
      · intro _
        rw [q1]; exact a4
    · intro _
      refine ⟨by rw [q1, q3], by rw [hnp]; omega, ?_, ?_, ?_⟩
      · rw [hobj, if_neg (by rw [q3]; exact hnotclosed _ a6), hnp, q3, a8, a10]
        simp
      · rw [hobj, if_neg (by rw [q3]; exact hnotclosed _ a7), hnp, q3, a9, a10]
        simp
      · rw [q3]
        exact hwithin _ a12
    · intro h
      rw [q1] at h
      omega
    · intro j hj
      rw [hwords, a3 j (by omega), htail j (by omega)]
    · intro h
      rw [q1] at h
      omega
    · intro _
      exact ⟨by rw [hpipes, a11, q3], by rw [hnp]; exact a10⟩
    · intro h
      rw [q1] at h
      omega
  · have hpp : s.afterParse.postpipe.1 < 0 := by
      show (processCommand s).2.postpipe.1 < 0
      rw [b3, I1]; decide
    obtain ⟨q1, q2, q3, q4⟩ := forkAndContinue_unpiped s.afterParse (processCommand s).1 hpp
    have q1 : s.afterCommand.redirInpFD = -1 := q1
    have q2 : s.afterCommand.redirOutFD = -1 := q2
    have q4 : s.afterCommand.postpipe = (processCommand s).2.postpipe := q4
    refine ⟨⟨by rw [q4, b3, I1], q2, ?_, ?_, ?_⟩, Or.inl ?_, ⟨?_, ?_⟩⟩
    · constructor
      · intro h; rw [q1] at h; omega
      · rintro ⟨_, h⟩
        exfalso
        rw [hidx, ← htail _ (by omega)] at h
        exact b1 hpos h
    · intro h; rw [q1] at h; omega
    · intro _
      exact ⟨q1, hwithin _ b6⟩
    · rw [hwords, hcur]; exact b2
    · intro h; rw [q1] at h; omega
    · intro _
      exact ⟨by rw [hpipes, b5], by rw [hnp]; exact b4⟩


/-- Every state at line 38 meets the invariant, and every pass creates the
pipe it hands on and no other. -/
theorem lineTrace_inv (ts : List String) (t0 : FdTable) (fuel : Nat) :
    ∀ s, LineInv ts t0 s → LineAux ts s →
      (∀ b ∈ lineTrace fuel s, LineInv ts t0 b) ∧
      (∀ k a b, (lineTrace fuel s)[k]? = some a → (lineTrace fuel s)[k + 1]? = some b →
        PassPipes a b) := by
  induction fuel with
  | zero =>
    intro s hI _
    exact ⟨fun b hb => by simp [lineTrace] at hb; rw [hb]; exact hI,
      fun k a b _ hb => by simp [lineTrace] at hb⟩
  | succ fuel ih =>
    intro s hI hA
    cases hw : wordAt s.words s.curIndex with
    | none =>
      rw [lineTrace_stop _ s hw]
      exact ⟨fun b hb => by simp at hb; rw [hb]; exact hI, fun k a b _ hb => by simp at hb⟩
    | some w =>
      by_cases hr : (processCommand s).1 = -1
      · rw [lineTrace_fail fuel s w hw hr]
        exact ⟨fun b hb => by simp at hb; rw [hb]; exact hI, fun k a b _ hb => by simp at hb⟩
      · rw [lineTrace_step fuel s w hw hr]
        obtain ⟨h1, h2, h3⟩ := lineInv_step ts t0 s w hI hA hw hr
        obtain ⟨i1, i2⟩ := ih s.afterCommand h1 h2
        refine ⟨fun b hb => ?_, fun k a b ha hb => ?_⟩
        · rcases List.mem_cons.1 hb with e | e
          · rw [e]; exact hI
          · exact i1 b e
        · cases k with
          | zero =>
            simp only [List.getElem?_cons_zero, Option.some.injEq] at ha
            rw [List.getElem?_cons_succ] at hb
            have hh := lineTrace_head fuel s.afterCommand
            rw [List.head?_eq_getElem?] at hh
            rw [hh] at hb
            cases hb
            rw [← ha]
            exact h3
          | succ k =>
            rw [List.getElem?_cons_succ] at ha hb
            exact i2 k a b ha hb

/-! ## The wait of a foreground line -/

/-- A foreground line ends with one `waitpid` on the variable `pid`, which
holds the pid of the last fork of the line, or nothing when the line forked
no process. -/
theorem runLine_waits (os : World) (ts : List String) (h : (runLine os ts).shellWait ≠ 0) :
    waits (callsSince os.log (runLine os ts).os.log)
      = [((forks (callsSince os.log (runLine os ts).os.log)).getLast?).map Child.pid] := by
  obtain ⟨evs, h1, h2, h3, _⟩ := lineLoop_forks ((lineWords ts).length + 1)
    (initSh os (lineWords ts)) (by simp [initSh])
  rw [runLine_shellWait] at h
  have hlog : (runLine os ts).os.log
      = os.log ++ (evs ++ [.waitpid (lineLoop ((lineWords ts).length + 1)
          (initSh os (lineWords ts))).pid]) := by
    rw [runLine_log, if_pos h, h1]
    simp [initSh]
  rw [hlog, callsSince_append, waits_append, forks_append, h2, h3]
  cases hl : (forks evs).getLast? <;> simp [waits, forks, initSh, hl]

/-! ## Passes and segments -/

theorem count_take_succ (ts : List String) (a : String) (q : Nat) :
    (ts.take (q + 1)).count a = (ts.take q).count a + (if ts[q]? = some a then 1 else 0) := by
  induction ts generalizing q with
  | nil => simp
  | cons t rest ih =>
    cases q with
    | zero =>
      by_cases h : t = a
      · subst h; simp
      · have : ¬ a = t := fun e => h e.symm
        simp [h, List.count_cons, this]
    | succ q =>
      rw [List.take_succ_cons, List.take_succ_cons, List.count_cons, List.count_cons, ih q]
      simp only [List.getElem?_cons_succ]
      omega

theorem count_take_range (ts : List String) (a : String) (c d : Nat) (hcd : c ≤ d)
    (h : ∀ p, c ≤ p → p < d → ts[p]? ≠ some a) :
    (ts.take d).count a = (ts.take c).count a := by
  induction d with
  | zero =>
    have : c = 0 := by omega
    rw [this]
  | succ d ih =>
    rcases Nat.eq_or_lt_of_le hcd with e | e
    · rw [e]
    · rw [count_take_succ, if_neg (h d (by omega) (by omega)), Nat.add_zero]
      exact ih (by omega) (fun p h1 h2 => h p h1 (by omega))

theorem loop_segEnd (fuel i : Nat) (s : Sh) (hf : s.words.length - (s.curIndex + i) < fuel) :
    SegEnd i s (processCommandLoop fuel i s) := by
  refine loop_rec SegEnd ?_ ?_ ?_ ?_ ?_ ?_ ?_ fuel i s hf
  · intro i s h
    exact Or.inr ⟨i, rfl, le_refl _, fun p h1 h2 => by omega,
      Or.inr ⟨fun hc => by omega, h, Or.inl h⟩⟩
  · intro i s w s1 _ _ _
    exact Or.inl rfl
  · intro i s w r hw hv ih
    have hnb : wordAt s.words (s.curIndex + i) ≠ some "|" := by
      rw [hw]; intro hc
      exact (valid_not_operator w hv).2.2.1 (Option.some.inj hc)
    rcases ih with h | ⟨L, hL, hiL, h1, h2⟩
    · exact Or.inl h
    · refine Or.inr ⟨L, hL, by omega, ?_, ?_⟩
      · intro p hp1 hp2
        rcases Nat.eq_or_lt_of_le hp1 with e | e
        · rw [← e]; exact hnb
        · exact h1 p e hp2
      · rcases h2 with h2 | ⟨h3, h4⟩
        · exact Or.inl h2
        · refine Or.inr ⟨fun _ => ?_, h4⟩
          rcases Nat.eq_or_lt_of_le hiL with e | e
          · have : L - 1 = i := by omega
            rw [this]; exact hnb
          · exact h3 e
  · intro i s name r hw hi hfd hnm hv ho ih
    have hc : (s.afterIn i name).curIndex = s.curIndex := rfl
    have hnb : wordAt s.words (s.curIndex + i) ≠ some "|" := by
      rw [hw]; intro hc; exact absurd (Option.some.inj hc) (by decide)
    have hnb1 : wordAt s.words (s.curIndex + (i + 1)) ≠ some "|" := by
      rw [hnm]; intro hc
      exact (valid_not_operator name hv).2.2.1 (Option.some.inj hc)
    rcases ih with h | ⟨L, hL, hiL, h1, h2⟩
    · exact Or.inl h
    · rw [hc] at h1 h2
      refine Or.inr ⟨L, hL, by omega, ?_, ?_⟩
      · intro p hp1 hp2
        rcases Nat.eq_or_lt_of_le hp1 with e | e
        · rw [← e]; exact hnb
        · rcases Nat.eq_or_lt_of_le (Nat.succ_le_of_lt e) with e2 | e2
          · rw [← e2]; exact hnb1
          · have := h1 p e2 hp2
            rw [wordAt_afterIn, if_neg (by omega)] at this
            exact this
      · rcases h2 with ⟨a1, a2, ⟨w2, a3⟩, a4⟩ | ⟨b1, b2, b3⟩
        · left
          refine ⟨a1, ?_, ⟨w2, ?_⟩, fun p hp => ?_⟩
          · rw [wordAt_afterIn, if_neg (by omega)] at a2; exact a2
          · rw [wordAt_afterIn, if_neg (by omega)] at a3; exact a3
          · rw [a4 p hp, wordAt_afterIn, if_neg (by omega)]
        · right
          refine ⟨fun _ => ?_, b2, ?_⟩
          · rcases Nat.eq_or_lt_of_le hiL with e | e
            · have : L - 1 = i + 1 := by omega
              rw [this]; exact hnb1
            · have := b1 e
              rw [wordAt_afterIn, if_neg (by omega)] at this
              exact this
          · rw [wordAt_afterIn, if_neg (by omega), wordAt_afterIn, if_neg (by omega)] at b3
            exact b3
  · intro i s name r hw hi hfd hnm hv ho ih
    have hc : (s.afterOut i name).curIndex = s.curIndex := rfl
    have hnb : wordAt s.words (s.curIndex + i) ≠ some "|" := by
      rw [hw]; intro hc; exact absurd (Option.some.inj hc) (by decide)
    have hnb1 : wordAt s.words (s.curIndex + (i + 1)) ≠ some "|" := by
      rw [hnm]; intro hc
      exact (valid_not_operator name hv).2.2.1 (Option.some.inj hc)
    rcases ih with h | ⟨L, hL, hiL, h1, h2⟩
    · exact Or.inl h
    · rw [hc] at h1 h2
      refine Or.inr ⟨L, hL, by omega, ?_, ?_⟩
      · intro p hp1 hp2
        rcases Nat.eq_or_lt_of_le hp1 with e | e
        · rw [← e]; exact hnb
        · rcases Nat.eq_or_lt_of_le (Nat.succ_le_of_lt e) with e2 | e2
          · rw [← e2]; exact hnb1
          · have := h1 p e2 hp2
            rw [wordAt_afterOut, if_neg (by omega)] at this
            exact this
      · rcases h2 with ⟨a1, a2, ⟨w2, a3⟩, a4⟩ | ⟨b1, b2, b3⟩
        · left
          refine ⟨a1, ?_, ⟨w2, ?_⟩, fun p hp => ?_⟩
          · rw [wordAt_afterOut, if_neg (by omega)] at a2; exact a2
          · rw [wordAt_afterOut, if_neg (by omega)] at a3; exact a3
          · rw [a4 p hp, wordAt_afterOut, if_neg (by omega)]
        · right
          refine ⟨fun _ => ?_, b2, ?_⟩
          · rcases Nat.eq_or_lt_of_le hiL with e | e
            · have : L - 1 = i + 1 := by omega
              rw [this]; exact hnb1
            · have := b1 e
              rw [wordAt_afterOut, if_neg (by omega)] at this
              exact this
          · rw [wordAt_afterOut, if_neg (by omega), wordAt_afterOut, if_neg (by omega)] at b3
            exact b3
  · intro i s name hw hi _ hnm hv
    refine Or.inr ⟨i + 1, rfl, by omega, fun p h1 h2 => by omega, Or.inl ⟨by omega, ?_, ⟨name, hnm⟩, ?_⟩⟩
    · simpa using hw
    · intro p hp
      show wordAt (s.afterPipe i).words p = _
      rw [wordAt_afterPipe, if_neg (by omega)]
  · intro i s hw hi hnx
    refine Or.inr ⟨i, rfl, le_refl _, fun p h1 h2 => by omega, Or.inr ⟨fun hc => by omega, ?_, Or.inr ⟨hw, hnx⟩⟩⟩
    show wordAt (s.afterAmp i).words _ = _
    rw [wordAt_afterAmp, if_pos rfl]

/-- A rejected run of the segmenter loop leaves the array untouched from the
first `|` on. -/
theorem loop_untouched (fuel i : Nat) (s : Sh) (hf : s.words.length - (s.curIndex + i) < fuel) :
    (processCommandLoop fuel i s).1 = -1 →
    ∀ q, i ≤ q → wordAt s.words (s.curIndex + q) = some "|" →
      ∀ p, s.curIndex + q ≤ p →
        wordAt (processCommandLoop fuel i s).2.words p = wordAt s.words p := by
  refine loop_rec (fun i s r => r.1 = -1 →
    ∀ q, i ≤ q → wordAt s.words (s.curIndex + q) = some "|" →
      ∀ p, s.curIndex + q ≤ p → wordAt r.2.words p = wordAt s.words p)
    ?_ ?_ ?_ ?_ ?_ ?_ ?_ fuel i s hf
  · intro i s _ _ q _ _ p _; rfl
  · intro i s w s1 _ _ hfr _ q _ _ p _
    rw [hfr.1]
  · intro i s w r hw hv ih hr q hq hbar p hp
    have : i ≠ q := by
      rintro rfl
      rw [hw] at hbar
      exact (valid_not_operator w hv).2.2.1 (Option.some.inj hbar)
    exact ih hr q (by omega) hbar p hp
  · intro i s name r hw hi hfd hnm hv ho ih hr q hq hbar p hp
    have h1 : i ≠ q := by
      rintro rfl
      rw [hw] at hbar; exact absurd (Option.some.inj hbar) (by decide)
    have h2 : i + 1 ≠ q := by
      rintro rfl
      rw [hnm] at hbar
      exact (valid_not_operator name hv).2.2.1 (Option.some.inj hbar)
    have hc : (s.afterIn i name).curIndex = s.curIndex := rfl
    rw [ih hr q (by omega) (by rw [hc, wordAt_afterIn, if_neg (by omega)]; exact hbar) p
      (by rw [hc]; exact hp), wordAt_afterIn, if_neg (by omega)]
  · intro i s name r hw hi hfd hnm hv ho ih hr q hq hbar p hp
    have h1 : i ≠ q := by
      rintro rfl
      rw [hw] at hbar; exact absurd (Option.some.inj hbar) (by decide)
    have h2 : i + 1 ≠ q := by
      rintro rfl
      rw [hnm] at hbar
      exact (valid_not_operator name hv).2.2.1 (Option.some.inj hbar)
    have hc : (s.afterOut i name).curIndex = s.curIndex := rfl
    rw [ih hr q (by omega) (by rw [hc, wordAt_afterOut, if_neg (by omega)]; exact hbar) p
      (by rw [hc]; exact hp), wordAt_afterOut, if_neg (by omega)]
  · intro i s name _ _ _ _ _ hr
    exfalso
    have : (((i + 1 : Nat) : Int)) = -1 := hr
    omega
  · intro i s _ _ _ hr
    exfalso
    have : ((i : Nat) : Int) = -1 := hr
    omega


theorem argvAt_tail (ts : List String) (w : Words) (n : Nat) :
    ∀ c, ts.length - c ≤ n → (∀ p, c ≤ p → wordAt w p = ts[p]?) → argvAt w c = ts.drop c := by
  induction n with
  | zero =>
    intro c hc h
    rw [argvAt_step, h c (le_refl _), List.getElem?_eq_none (by omega),
      List.drop_eq_nil_of_le (by omega)]
  | succ n ih =>
    intro c hc h
    rw [argvAt_step, h c (le_refl _)]
    by_cases hlt : c < ts.length
    · rw [List.getElem?_eq_getElem hlt]
      simp only []
      rw [ih (c + 1) (by omega) (fun p hp => h p (by omega)), List.drop_eq_getElem_cons hlt]
    · rw [List.getElem?_eq_none (by omega), List.drop_eq_nil_of_le (by omega)]

/-- The image of the child forked after an accepted call on a segment that
starts at `curIndex`. -/
theorem pass_image (ts : List String) (s : Sh) (pid : Int)
    (htail : ∀ p, s.curIndex ≤ p → wordAt s.words p = ts[p]?)
    (hacc : (processCommand s).1 ≠ -1) :
    (childImage s.afterParse pid).file = ts[s.curIndex]? ∧
    (childImage s.afterParse pid).argv
      = (ts.drop s.curIndex).takeWhile (fun t => !isOperator t) := by
  obtain ⟨k, _, h2, h3, h4, h5⟩ := loop_first_operator (s.words.length + 1) 0 s (by omega) hacc
  have h3 : wordAt (processCommand s).2.words (s.curIndex + k) = none := h3
  have h5 : ∀ p, p < s.curIndex + k → wordAt (processCommand s).2.words p = wordAt s.words p := h5
  have hc : (processCommand s).2.curIndex = s.curIndex := (processCommand_frame s).1
  constructor
  · show wordAt (processCommand s).2.words (processCommand s).2.curIndex = _
    rw [hc]
    rcases Nat.eq_zero_or_pos k with hk | hk
    · subst hk
      rw [Nat.add_zero] at h3 h4
      rcases h4 with h4 | ⟨op, h4, hop⟩
      · rw [h3, ← htail _ (le_refl _), h4]
      · exfalso
        have hv : isValidWord op = 0 := by
          rcases isValidWord_cases op with h | h
          · exact h
          · rw [valid_isOperator op h] at hop; cases hop
        rw [processCommand_of_first_invalid s op h4 hv] at hacc
        exact hacc rfl
    · rw [h5 _ (by omega), htail _ (le_refl _)]
  · have key : argvAt (processCommand s).2.words s.curIndex
        = (argvAt s.words s.curIndex).takeWhile (fun t => !isOperator t) := by
      refine argvAt_takeWhile k s.curIndex _ _ ?_ h3 h4
      intro j hj
      obtain ⟨w, hw, hv⟩ := h2 j (by omega) hj
      exact ⟨w, hw, valid_isOperator w hv, by rw [← hw]; exact h5 _ (by omega)⟩
    show argvAt (processCommand s).2.words (processCommand s).2.curIndex = _
    rw [hc, key, argvAt_tail ts s.words ts.length s.curIndex (by omega) htail]

theorem commands_length (ts : List String) (h : ts ≠ []) :
    (commands ts).length = ts.count "|" + 1 := by
  unfold commands
  rw [if_neg h, segments_length]

theorem atSegment_lt (os : World) (ts : List String) (j : Nat) (s : Sh)
    (h : AtSegment os ts j s) : j < (commands ts).length := by
  obtain ⟨hlt, _, ⟨hcount, _⟩, _⟩ := h
  have hne : ts ≠ [] := by
    rintro rfl
    simp at hlt
  rw [commands_length ts hne, ← hcount]
  have := List.Sublist.count_le (List.take_sublist s.curIndex ts) "|"
  omega

theorem atSegment_init (os : World) (ts : List String) (h : ts ≠ []) :
    AtSegment os ts 0 (initSh os (lineWords ts)) := by
  refine ⟨?_, fun p _ => wordAt_lineWords ts p, ⟨by simp [initSh], Or.inl rfl⟩,
    [], by simp [initSh], rfl, fun i c hc => by simp [forks] at hc⟩
  show 0 < ts.length
  exact List.length_pos.2 h


/-- An accepted pass on segment `j` forks the command of that segment and
leaves `main` at the start of segment `j + 1`, or at the end of the line when
segment `j` is the last. -/
theorem atSegment_pass (os : World) (ts : List String) (j : Nat) (s : Sh)
    (h : AtSegment os ts j s) (hr : (processCommand s).1 ≠ -1) :
    s.curIndex < s.afterCommand.curIndex ∧
    (∃ evs, s.afterCommand.os.log = os.log ++ evs ∧ (forks evs).length = j + 1 ∧
      ForksInOrder ts evs) ∧
    (AtSegment os ts (j + 1) s.afterCommand ∨
      (wordAt s.afterCommand.words s.afterCommand.curIndex = none ∧
        j + 1 = (commands ts).length)) := by
  have hjlt := atSegment_lt os ts j s h
  obtain ⟨hlt, htail, ⟨hcount, hstart⟩, evs0, hlog0, hlen0, hord0⟩ := h
  have hne : ts ≠ [] := by
    rintro rfl
    simp at hlt
  have hw : wordAt s.words s.curIndex = some ts[s.curIndex] := by
    rw [htail _ (le_refl _), List.getElem?_eq_getElem hlt]
  obtain ⟨L', hL', hpos, hcur, _, _, _⟩ := afterCommand_progress s _ hw hr
  have hwords : s.afterCommand.words = (processCommand s).2.words := by simp [Sh.afterCommand]
  obtain ⟨himg1, himg2⟩ := pass_image ts s s.afterParse.os.nextPid htail hr
  obtain ⟨evsP, hlogP, hforksP, _⟩ := loop_log (s.words.length + 1) 0 s (by omega)
  have hlogP : (processCommand s).2.os.log = s.os.log ++ evsP := hlogP
  have hlog : s.afterCommand.os.log = os.log ++ (evs0 ++ (evsP ++
      (.fork (childImage s.afterParse s.afterParse.os.nextPid) :: parentCloses s.afterParse))) := by
    have h1 : s.afterCommand.os.log = (processCommand s).2.os.log ++
        (.fork (childImage s.afterParse s.afterParse.os.nextPid) :: parentCloses s.afterParse) :=
      forkAndContinue_log s.afterParse (processCommand s).1
    rw [h1, hlogP, hlog0]
    simp
  have hforks : forks (evs0 ++ (evsP ++
      (.fork (childImage s.afterParse s.afterParse.os.nextPid) :: parentCloses s.afterParse)))
      = forks evs0 ++ [childImage s.afterParse s.afterParse.os.nextPid] := by
    rw [forks_append, forks_append, hforksP, forks_cons_fork, forks_parentCloses]
    rfl
  have hevs : ∃ evs, s.afterCommand.os.log = os.log ++ evs ∧ (forks evs).length = j + 1 ∧
      ForksInOrder ts evs := by
    refine ⟨_, hlog, by rw [hforks]; simp [hlen0], ?_⟩
    intro i c hc
    rw [hforks] at hc
    by_cases hi : i < (forks evs0).length
    · rw [List.getElem?_append_left hi] at hc
      exact hord0 i c hc
    · rw [List.getElem?_append_right (by omega)] at hc
      have hi0 : i - (forks evs0).length = 0 := by
        by_contra hne0
        rw [List.getElem?_eq_none (by simp; omega)] at hc
        cases hc
      rw [hi0] at hc
      simp only [List.getElem?_cons_zero, Option.some.injEq] at hc
      have hij : i = j := by omega
      subst hij
      exact ⟨s.curIndex, ⟨hcount, hstart⟩, by rw [← hc]; exact himg1, by rw [← hc]; exact himg2⟩
  refine ⟨by omega, hevs, ?_⟩
  have hseg : SegEnd 0 s (processCommand s) := loop_segEnd (s.words.length + 1) 0 s (by omega)
  rcases hseg with hseg | ⟨L, hL, _, hnobar, hcase⟩
  · exact absurd hseg hr
  have hLL : L = L' := by
    have h1 : (processCommand s).1 = (L : Int) := hL
    rw [hL'] at h1
    exact (Int.ofNat_inj.1 h1).symm
  subst hLL
  have hnobar' : ∀ p, s.curIndex ≤ p → p < s.curIndex + (L - 1) → ts[p]? ≠ some "|" := by
    intro p h1 h2
    have := hnobar (p - s.curIndex) (Nat.zero_le _) (by omega)
    rw [show s.curIndex + (p - s.curIndex) = p by omega, htail p h1] at this
    exact this
  rcases hcase with ⟨_, a2, ⟨w2, a3⟩, a4⟩ | ⟨b1, b2, b3⟩
  · left
    rw [htail _ (by omega)] at a2 a3
    refine ⟨?_, ?_, ⟨?_, Or.inr ?_⟩, hevs⟩
    · rw [hcur]
      by_contra hc
      rw [List.getElem?_eq_none (by omega)] at a3
      cases a3
    · intro p hp
      rw [hcur] at hp
      rw [hwords, a4 p hp, htail p (by omega)]
    · rw [hcur]
      have e : s.curIndex + L = s.curIndex + (L - 1) + 1 := by omega
      rw [e, count_take_succ, if_pos a2,
        count_take_range ts "|" s.curIndex (s.curIndex + (L - 1)) (by omega) hnobar', hcount]
    · rw [hcur]
      have e : s.curIndex + L - 1 = s.curIndex + (L - 1) := by omega
      rw [e]; exact a2
  · right
    refine ⟨by rw [hwords, hcur]; exact b2, ?_⟩
    rw [commands_length ts hne]
    have hb1 : ts[s.curIndex + (L - 1)]? ≠ some "|" := by
      rw [← htail _ (by omega)]; exact b1 hpos
    have hall : ∀ p, s.curIndex ≤ p → p < ts.length → ts[p]? ≠ some "|" := by
      intro p h1 h2
      rcases Nat.lt_or_ge p (s.curIndex + (L - 1)) with h3 | h3
      · exact hnobar' p h1 h3
      · rcases Nat.eq_or_lt_of_le h3 with e | e
        · rw [← e]; exact hb1
        · rw [htail _ (by omega), htail _ (by omega)] at b3
          rcases b3 with b3 | ⟨b3, b4⟩
          · exfalso
            have : ts.length ≤ s.curIndex + L := by
              by_contra hc
              rw [List.getElem?_eq_getElem (by omega)] at b3
              cases b3
            omega
          · have hn : ts.length ≤ s.curIndex + (L + 1) := by
              by_contra hc
              rw [List.getElem?_eq_getElem (by omega)] at b4
              cases b4
            have hp : p = s.curIndex + L := by omega
            rw [hp, b3]
            intro hc
            exact absurd (Option.some.inj hc) (by decide)
    have := count_take_range ts "|" s.curIndex ts.length (by omega) hall
    rw [List.take_length, hcount] at this
    omega

/-- A rejected pass on segment `j` forks nothing and leaves the later segments
in the array as they were. -/
theorem atSegment_fail (os : World) (ts : List String) (j : Nat) (s : Sh)
    (h : AtSegment os ts j s) (hr : (processCommand s).1 = -1) :
    (∃ evs, s.afterParse.os.log = os.log ++ evs ∧ (forks evs).length = j ∧
      ForksInOrder ts evs) ∧
    ∀ q, s.curIndex ≤ q → ts[q]? = some "|" → ∀ p, q < p → wordAt s.afterParse.words p = ts[p]? := by
  obtain ⟨hlt, htail, _, evs0, hlog0, hlen0, hord0⟩ := h
  obtain ⟨evsP, hlogP, hforksP, _⟩ := loop_log (s.words.length + 1) 0 s (by omega)
  have hlogP : (processCommand s).2.os.log = s.os.log ++ evsP := hlogP
  constructor
  · refine ⟨evs0 ++ evsP, ?_, ?_, ?_⟩
    · show (processCommand s).2.os.log = _
      rw [hlogP, hlog0, List.append_assoc]
    · rw [forks_append, hforksP, List.append_nil, hlen0]
    · intro i c hc
      rw [forks_append, hforksP, List.append_nil] at hc
      exact hord0 i c hc
  · intro q hq hbar p hp
    have key : wordAt (processCommand s).2.words p = wordAt s.words p :=
      loop_untouched (s.words.length + 1) 0 s (by omega) hr (q - s.curIndex) (Nat.zero_le _)
        (by rw [show s.curIndex + (q - s.curIndex) = q by omega, htail q hq]; exact hbar) p
        (by omega)
    show wordAt (processCommand s).2.words p = _
    rw [key, htail p (by omega)]


/-- The passes of the inner loop from a state at the start of segment `j`: pass
`i` is made on segment `j + i`; the forks are in the order of the segments; a
rejected pass is the last; and a line without a rejected pass forks once per
segment. -/
theorem trace_segments (os : World) (ts : List String) (fuel : Nat) :
    ∀ (s : Sh) (j : Nat), AtSegment os ts j s → ts.length - s.curIndex ≤ fuel →
      (∀ i b, (lineTrace fuel s)[i]? = some b → (wordAt b.words b.curIndex).isSome →
        AtSegment os ts (j + i) b) ∧
      ∃ evs, (lineLoop fuel s).os.log = os.log ++ evs ∧ ForksInOrder ts evs ∧
        (forks evs).length ≤ (commands ts).length ∧
        (∀ i b, (lineTrace fuel s)[i]? = some b → (wordAt b.words b.curIndex).isSome →
          (processCommand b).1 = -1 →
          (forks evs).length = j + i ∧ (lineTrace fuel s).length = i + 1 ∧
          ∀ q, b.curIndex ≤ q → ts[q]? = some "|" → ∀ p, q < p →
            wordAt (lineLoop fuel s).words p = ts[p]?) ∧
        ((∀ b ∈ lineTrace fuel s, (wordAt b.words b.curIndex).isSome →
            (processCommand b).1 ≠ -1) →
          (forks evs).length = (commands ts).length) := by
  induction fuel with
  | zero =>
    intro s j h hf
    have := h.1
    omega
  | succ f ih =>
    intro s j h hf
    have hjlt := atSegment_lt os ts j s h
    have hlt : s.curIndex < ts.length := h.1
    have hw : wordAt s.words s.curIndex = some ts[s.curIndex] := by
      rw [h.2.1 _ (le_refl _), List.getElem?_eq_getElem hlt]
    by_cases hr : (processCommand s).1 = -1
    · rw [lineTrace_fail f s _ hw hr, lineLoop_fail f s _ hw hr]
      obtain ⟨⟨evs, e1, e2, e3⟩, hunt⟩ := atSegment_fail os ts j s h hr
      have hone : ∀ i b, [s][i]? = some b → i = 0 ∧ b = s := by
        intro i b hb
        cases i with
        | zero => simp at hb; exact ⟨rfl, hb.symm⟩
        | succ i => simp at hb
      refine ⟨fun i b hb _ => ?_, evs, e1, e3, by omega, fun i b hb _ _ => ?_, fun hall => ?_⟩
      · obtain ⟨rfl, rfl⟩ := hone i b hb
        exact h
      · obtain ⟨rfl, rfl⟩ := hone i b hb
        exact ⟨by omega, rfl, hunt⟩
      · exact absurd hr (hall s (by simp) (by rw [hw]; rfl))
    · rw [lineTrace_step f s _ hw hr, lineLoop_step f s _ hw hr]
      obtain ⟨hprog, ⟨evs1, f1, f2, f3⟩, hnext⟩ := atSegment_pass os ts j s h hr
      rcases hnext with hA | ⟨hnull, hlast⟩
      · obtain ⟨i1, evs, g1, g2, g3, g4, g5⟩ := ih s.afterCommand (j + 1) hA (by omega)
        refine ⟨fun i b hb hsome => ?_, evs, g1, g2, g3, fun i b hb hsome hfail => ?_,
          fun hall => ?_⟩
        · cases i with
          | zero =>
            simp only [List.getElem?_cons_zero, Option.some.injEq] at hb
            rw [← hb]; exact h
          | succ i =>
            rw [List.getElem?_cons_succ] at hb
            have := i1 i b hb hsome
            rw [show j + 1 + i = j + (i + 1) by omega] at this
            exact this
        · cases i with
          | zero =>
            simp only [List.getElem?_cons_zero, Option.some.injEq] at hb
            rw [← hb] at hfail
            exact absurd hfail hr
          | succ i =>
            rw [List.getElem?_cons_succ] at hb
            obtain ⟨k1, k2, k3⟩ := g4 i b hb hsome hfail
            exact ⟨by omega, by rw [List.length_cons, k2], k3⟩
        · exact g5 (fun b hb => hall b (List.mem_cons_of_mem _ hb))
      · rw [lineTrace_stop f _ hnull, lineLoop_of_null f _ hnull]
        have htwo : ∀ i b, [s, s.afterCommand][i]? = some b →
            (wordAt b.words b.curIndex).isSome → i = 0 ∧ b = s := by
          intro i b hb hsome
          cases i with
          | zero => simp at hb; exact ⟨rfl, hb.symm⟩
          | succ i =>
            cases i with
            | zero =>
              simp at hb
              rw [← hb, hnull] at hsome
              cases hsome
            | succ i => simp at hb
        refine ⟨fun i b hb hsome => ?_, evs1, f1, f3, by omega, fun i b hb hsome hfail => ?_,
          fun _ => by omega⟩
        · obtain ⟨rfl, rfl⟩ := htwo i b hb hsome
          exact h
        · obtain ⟨rfl, rfl⟩ := htwo i b hb hsome
          exact absurd hfail hr

theorem runLine_words (os : World) (ts : List String) :
    (runLine os ts).words
      = (lineLoop ((lineWords ts).length + 1) (initSh os (lineWords ts))).words := by
  unfold runLine runWords
  simp only []
  split <;> rfl

theorem forksInOrder_congr (ts : List String) (evs evs' : List Event)
    (h : forks evs' = forks evs) (ho : ForksInOrder ts evs) : ForksInOrder ts evs' := by
  intro i c hc
  rw [h] at hc
  exact ho i c hc


/-- The forks of a line are those of its inner loop, run with one pass per
token. -/
theorem runLine_forks (os : World) (ts : List String) (evs : List Event)
    (h : (lineLoop ts.length (initSh os (lineWords ts))).os.log = os.log ++ evs) :
    forks (callsSince os.log (runLine os ts).os.log) = forks evs ∧
    (runLine os ts).words = (lineLoop ts.length (initSh os (lineWords ts))).words := by
  have hb := (lineLoop_bound ts.length (initSh os (lineWords ts)) ts.length
    (firstNull_init os ts) (by simp [initSh])).1 ((lineWords ts).length + 1)
    (by simp [initSh, lineWords_length]; omega)
  constructor
  · rw [runLine_log, hb, h, List.append_assoc, callsSince_append, forks_append]
    split <;> simp [forks]
  · rw [runLine_words, hb]

/-! ## Arrays that agree up to the sentinel -/

/-- An error return of the body of the segmenter loop does not depend on the
array. -/
theorem body_err_words (i : Nat) (w : String) (nxt : Option String) (s t : Sh) (ws : Words)
    (h : processCommandBody i w nxt s = .ret (-1) t) :
    processCommandBody i w nxt { s with words := ws } = .ret (-1) { t with words := ws } := by
  unfold processCommandBody at h ⊢
  simp only [] at h ⊢
  split_ifs at h ⊢ <;> simp_all [Sh.print, Sh.setNull]
  all_goals first
    | (subst h; simp)
    | (exfalso; have := h.1; omega)

theorem sameUpTo_cur (m : Nat) (s1 s2 : Sh) (h : SameUpTo m s1 s2) :
    s2.curIndex = s1.curIndex ∧ s2.redirInpFD = s1.redirInpFD ∧ s2.redirOutFD = s1.redirOutFD ∧
    s2.os = s1.os ∧ s2.shellWait = s1.shellWait ∧ s2.pid = s1.pid := by
  obtain ⟨h1, _, _⟩ := h
  rw [h1]
  exact ⟨rfl, rfl, rfl, rfl, rfl, rfl⟩

/-- A word read below the common `NULL` is the same in both arrays, and so is
the slot behind it. -/
theorem sameUpTo_word (m : Nat) (s1 s2 : Sh) (h : SameUpTo m s1 s2) (p : Nat) (w : String)
    (hp : p ≤ m) (hw : wordAt s1.words p = some w) :
    wordAt s2.words p = some w ∧ p + 1 ≤ m ∧ wordAt s2.words (p + 1) = wordAt s1.words (p + 1) := by
  have hne : p ≠ m := by
    intro e
    rw [e, h.2.2] at hw
    cases hw
  have hlt : p + 1 ≤ m := by omega
  exact ⟨by rw [h.2.1 p hp]; exact hw, hlt, h.2.1 _ hlt⟩

/-- Writing `NULL` into the same slot of both arrays. -/
theorem sameUpTo_set (m : Nat) (s1 s2 t1 t2 : Sh) (j : Nat) (h : SameUpTo m s1 s2)
    (ht1 : t1.words = s1.words.set j none) (ht2 : t2.words = s2.words.set j none)
    (ht : t2 = { t1 with words := t2.words }) : SameUpTo m t1 t2 := by
  refine ⟨ht, ?_, ?_⟩
  · intro p hp
    rw [ht1, ht2, wordAt_set, wordAt_set, h.2.1 p hp]
  · rw [ht1, wordAt_set]
    split
    · rfl
    · exact h.2.2

/-- The segmenter loop does the same on two arrays that agree up to a common
`NULL`, and it does not pass that `NULL`. -/
theorem loop_sameUpTo (m : Nat) (fuel1 i : Nat) (s1 : Sh)
    (hf : s1.words.length - (s1.curIndex + i) < fuel1) :
    ∀ (fuel2 : Nat) (s2 : Sh), SameUpTo m s1 s2 → s1.curIndex + i ≤ m →
      s2.words.length - (s2.curIndex + i) < fuel2 →
      (processCommandLoop fuel2 i s2).1 = (processCommandLoop fuel1 i s1).1 ∧
      SameUpTo m (processCommandLoop fuel1 i s1).2 (processCommandLoop fuel2 i s2).2 ∧
      ((processCommandLoop fuel1 i s1).1 = -1 ∨
        ∃ L : Nat, (processCommandLoop fuel1 i s1).1 = (L : Int) ∧ s1.curIndex + L ≤ m) := by
  refine loop_rec (fun i s1 r1 => ∀ (fuel2 : Nat) (s2 : Sh), SameUpTo m s1 s2 →
      s1.curIndex + i ≤ m → s2.words.length - (s2.curIndex + i) < fuel2 →
      (processCommandLoop fuel2 i s2).1 = r1.1 ∧
      SameUpTo m r1.2 (processCommandLoop fuel2 i s2).2 ∧
      (r1.1 = -1 ∨ ∃ L : Nat, r1.1 = (L : Int) ∧ s1.curIndex + L ≤ m))
    ?_ ?_ ?_ ?_ ?_ ?_ ?_ fuel1 i s1 hf
  · intro i s1 hw fuel2 s2 hs hle hf2
    obtain ⟨f2, rfl⟩ : ∃ f, fuel2 = f + 1 := ⟨fuel2 - 1, by omega⟩
    have hc := (sameUpTo_cur m s1 s2 hs).1
    have hw2 : wordAt s2.words (s2.curIndex + i) = none := by
      rw [hc, hs.2.1 _ hle]; exact hw
    rw [loop_null f2 i s2 hw2]
    exact ⟨rfl, hs, Or.inr ⟨i, rfl, hle⟩⟩
  · intro i s1 w t1 hw hb hfr fuel2 s2 hs hle hf2
    obtain ⟨f2, rfl⟩ : ∃ f, fuel2 = f + 1 := ⟨fuel2 - 1, by omega⟩
    have hc := (sameUpTo_cur m s1 s2 hs).1
    obtain ⟨hw2, hle2, hn2⟩ := sameUpTo_word m s1 s2 hs _ w hle hw
    rw [← hc] at hw2
    have hb2 : processCommandBody i w (wordAt s2.words (s2.curIndex + (i + 1))) s2
        = .ret (-1) { t1 with words := s2.words } := by
      rw [hc, ← Nat.add_assoc, hn2, Nat.add_assoc]
      have := body_err_words i w _ s1 t1 s2.words hb
      rw [← hs.1] at this
      exact this
    rw [loop_ret f2 i s2 _ w _ hw2 hb2]
    refine ⟨rfl, ⟨rfl, fun p hp => ?_, ?_⟩, Or.inl rfl⟩
    · show wordAt s2.words p = wordAt t1.words p
      rw [hfr.1]; exact hs.2.1 p hp
    · rw [hfr.1]; exact hs.2.2
  · intro i s1 w r1 hw hv ih fuel2 s2 hs hle hf2
    obtain ⟨f2, rfl⟩ : ∃ f, fuel2 = f + 1 := ⟨fuel2 - 1, by omega⟩
    have hc := (sameUpTo_cur m s1 s2 hs).1
    obtain ⟨hw2, hle2, _⟩ := sameUpTo_word m s1 s2 hs _ w hle hw
    rw [← hc] at hw2
    rw [loop_next f2 i (i + 1) s2 s2 w hw2 (body_word i w _ s2 hv)]
    have hlen := lt_length_of_wordAt _ _ _ hw2
    exact ih f2 s2 hs (by omega) (by omega)
  · intro i s1 name r1 hw hi hfd hn hv ho ih fuel2 s2 hs hle hf2
    obtain ⟨f2, rfl⟩ : ∃ f, fuel2 = f + 1 := ⟨fuel2 - 1, by omega⟩
    obtain ⟨hc, hfi, _, hos, _, _⟩ := sameUpTo_cur m s1 s2 hs
    obtain ⟨hw2, hle2, hn2⟩ := sameUpTo_word m s1 s2 hs _ "<" hle hw
    obtain ⟨_, hle3, _⟩ := sameUpTo_word m s1 s2 hs _ name (by omega) hn
    rw [← hc] at hw2
    have hb := body_in_ok i name s2 hi (by rw [hfi]; exact hfd) hv (by rw [hos]; exact ho)
    have hn2' : wordAt s2.words (s2.curIndex + (i + 1)) = some name := by
      rw [hc, ← Nat.add_assoc, hn2, Nat.add_assoc]; exact hn
    rw [← hn2'] at hb
    rw [loop_next f2 i _ s2 _ "<" hw2 hb]
    have hlen := lt_length_of_wordAt _ _ _ hw2
    have hs' : SameUpTo m (s1.afterIn i name) (s2.afterIn i name) := by
      refine sameUpTo_set m s1 s2 _ _ (s1.curIndex + i) hs rfl ?_ ?_
      · simp [Sh.afterIn, Sh.setNull, hc]
      · obtain ⟨W, hW⟩ : ∃ W, s2 = { s1 with words := W } := ⟨_, hs.1⟩
        subst hW
        simp [Sh.afterIn, Sh.setNull]
    have hcur : (s1.afterIn i name).curIndex = s1.curIndex := rfl
    exact ih f2 (s2.afterIn i name) hs' (by rw [hcur]; omega) (by simp [Sh.afterIn]; omega)
  · intro i s1 name r1 hw hi hfd hn hv ho ih fuel2 s2 hs hle hf2
    obtain ⟨f2, rfl⟩ : ∃ f, fuel2 = f + 1 := ⟨fuel2 - 1, by omega⟩
    obtain ⟨hc, _, hfo, hos, _, _⟩ := sameUpTo_cur m s1 s2 hs
    obtain ⟨hw2, hle2, hn2⟩ := sameUpTo_word m s1 s2 hs _ ">" hle hw
    obtain ⟨_, hle3, _⟩ := sameUpTo_word m s1 s2 hs _ name (by omega) hn
    rw [← hc] at hw2
    have hb := body_out_ok i name s2 hi (by rw [hfo]; exact hfd) hv (by rw [hos]; exact ho)
    have hn2' : wordAt s2.words (s2.curIndex + (i + 1)) = some name := by
      rw [hc, ← Nat.add_assoc, hn2, Nat.add_assoc]; exact hn
    rw [← hn2'] at hb
    rw [loop_next f2 i _ s2 _ ">" hw2 hb]
    have hlen := lt_length_of_wordAt _ _ _ hw2
    have hs' : SameUpTo m (s1.afterOut i name) (s2.afterOut i name) := by
      refine sameUpTo_set m s1 s2 _ _ (s1.curIndex + i) hs rfl ?_ ?_
      · simp [Sh.afterOut, Sh.setNull, hc]
      · obtain ⟨W, hW⟩ : ∃ W, s2 = { s1 with words := W } := ⟨_, hs.1⟩
        subst hW
        simp [Sh.afterOut, Sh.setNull]
    have hcur : (s1.afterOut i name).curIndex = s1.curIndex := rfl
    exact ih f2 (s2.afterOut i name) hs' (by rw [hcur]; omega) (by simp [Sh.afterOut]; omega)
  · intro i s1 name hw hi hfd hn hv fuel2 s2 hs hle hf2
    obtain ⟨f2, rfl⟩ : ∃ f, fuel2 = f + 1 := ⟨fuel2 - 1, by omega⟩
    obtain ⟨hc, _, hfo, hos, _, _⟩ := sameUpTo_cur m s1 s2 hs
    obtain ⟨hw2, hle2, hn2⟩ := sameUpTo_word m s1 s2 hs _ "|" hle hw
    rw [← hc] at hw2
    have hb := body_pipe_ok i name s2 hi (by rw [hfo]; exact hfd) hv
    have hn2' : wordAt s2.words (s2.curIndex + (i + 1)) = some name := by
      rw [hc, ← Nat.add_assoc, hn2, Nat.add_assoc]; exact hn
    rw [← hn2'] at hb
    rw [loop_ret f2 i s2 _ "|" _ hw2 hb]
    have hs' : SameUpTo m (s1.afterPipe i) (s2.afterPipe i) := by
      refine sameUpTo_set m s1 s2 _ _ (s1.curIndex + i) hs rfl ?_ ?_
      · simp [Sh.afterPipe, Sh.setNull, hc]
      · obtain ⟨W, hW⟩ : ∃ W, s2 = { s1 with words := W } := ⟨_, hs.1⟩
        subst hW
        simp [Sh.afterPipe, Sh.setNull]
    exact ⟨rfl, hs', Or.inr ⟨i + 1, rfl, by omega⟩⟩
  · intro i s1 hw hi hn fuel2 s2 hs hle hf2
    obtain ⟨f2, rfl⟩ : ∃ f, fuel2 = f + 1 := ⟨fuel2 - 1, by omega⟩
    obtain ⟨hc, _, _, _, _, _⟩ := sameUpTo_cur m s1 s2 hs
    obtain ⟨hw2, hle2, hn2⟩ := sameUpTo_word m s1 s2 hs _ "&" hle hw
    rw [← hc] at hw2
    have hb := body_amp_ok i s2 hi
    have hn2' : wordAt s2.words (s2.curIndex + (i + 1)) = none := by
      rw [hc, ← Nat.add_assoc, hn2, Nat.add_assoc]; exact hn
    rw [← hn2'] at hb
    rw [loop_ret f2 i s2 _ "&" _ hw2 hb]
    have hs' : SameUpTo m (s1.afterAmp i) (s2.afterAmp i) := by
      refine sameUpTo_set m s1 s2 _ _ (s1.curIndex + i) hs rfl ?_ ?_
      · simp [Sh.afterAmp, Sh.setNull, hc]
      · obtain ⟨W, hW⟩ : ∃ W, s2 = { s1 with words := W } := ⟨_, hs.1⟩
        subst hW
        simp [Sh.afterAmp, Sh.setNull]
    exact ⟨rfl, hs', Or.inr ⟨i, rfl, hle⟩⟩

theorem fuel_after_pass (n c L f : Nat) (h1 : n - c < f + 1) (h2 : c < n) (h3 : 0 < L) :
    n - (c + L) < f := by
  omega

theorem sameUpTo_afterParse (m : Nat) (s1 s2 : Sh) (h : SameUpTo m s1 s2) (hle : s1.curIndex ≤ m) :
    (processCommand s2).1 = (processCommand s1).1 ∧ SameUpTo m s1.afterParse s2.afterParse ∧
    ((processCommand s1).1 = -1 ∨
      ∃ L : Nat, (processCommand s1).1 = (L : Int) ∧ s1.curIndex + L ≤ m) := by
  obtain ⟨h1, h2, h3⟩ := loop_sameUpTo m (s1.words.length + 1) 0 s1 (by omega)
    (s2.words.length + 1) s2 h (by simpa using hle) (by omega)
  have e1 : (processCommand s2).1 = (processCommand s1).1 := h1
  have e2 : SameUpTo m (processCommand s1).2 (processCommand s2).2 := h2
  refine ⟨e1, ?_, h3⟩
  obtain ⟨a, b, c⟩ := e2
  refine ⟨?_, b, c⟩
  unfold Sh.afterParse
  rw [e1]
  conv_lhs => rw [a]

/-- One accepted pass of the inner loop of `main` does the same on two arrays
that agree up to a common `NULL`. -/
theorem sameUpTo_afterCommand (m : Nat) (s1 s2 : Sh) (h : SameUpTo m s1 s2)
    (hle : s1.curIndex ≤ m) (hr : (processCommand s1).1 ≠ -1) :
    SameUpTo m s1.afterCommand s2.afterCommand ∧ s1.afterCommand.curIndex ≤ m := by
  obtain ⟨e1, hp, h3⟩ := sameUpTo_afterParse m s1 s2 h hle
  obtain ⟨L, hL, hLm⟩ : ∃ L : Nat, (processCommand s1).1 = (L : Int) ∧ s1.curIndex + L ≤ m := by
    rcases h3 with h3 | h3
    · exact absurd h3 hr
    · exact h3
  have hcur : s1.afterParse.curIndex = s1.curIndex := by
    simp [Sh.afterParse, (processCommand_frame s1).1]
  have hfile : wordAt s2.afterParse.words s1.afterParse.curIndex
      = wordAt s1.afterParse.words s1.afterParse.curIndex := hp.2.1 _ (by rw [hcur]; exact hle)
  have hargv : argvAt s2.afterParse.words s1.afterParse.curIndex
      = argvAt s1.afterParse.words s1.afterParse.curIndex := by
    symm
    refine argvAt_congr (m - s1.afterParse.curIndex) _ _ _ (fun j hj => ?_) ?_
    · exact (hp.2.1 _ (by rw [hcur] at hj ⊢; omega)).symm
    · rw [show s1.afterParse.curIndex + (m - s1.afterParse.curIndex) = m by rw [hcur]; omega]
      exact hp.2.2
  have hfk := fork_congr s1.afterParse s2.afterParse.words s1.afterParse.shellWait
    (processCommand s1).1 hfile hargv
  have hs2 : s2.afterParse
      = { s1.afterParse with words := s2.afterParse.words, shellWait := s1.afterParse.shellWait } := by
    conv_lhs => rw [hp.1]
  have hac2 : s2.afterCommand
      = { s1.afterCommand with words := s2.afterParse.words, shellWait := s1.afterParse.shellWait } := by
    unfold Sh.afterCommand
    rw [e1]
    conv_lhs => rw [hs2]
    exact hfk
  have hw1 : s1.afterCommand.words = s1.afterParse.words := by
    simp [Sh.afterCommand, forkAndContinue_words]
  have hsw : s1.afterCommand.shellWait = s1.afterParse.shellWait := by
    simp [Sh.afterCommand, forkAndContinue_shellWait]
  refine ⟨⟨?_, ?_, ?_⟩, ?_⟩
  · rw [hac2, ← hsw]
  · intro p hp'
    rw [hac2, hw1]
    exact hp.2.1 p hp'
  · rw [hw1]; exact hp.2.2
  · have : s1.afterCommand.curIndex = s1.curIndex + L := by
      simp [Sh.afterCommand, forkAndContinue_curIndex, hL, hcur]
      exact (processCommand_frame s1).1
    omega

/-- The inner loop of `main` does the same on two arrays that agree up to a
common `NULL`. -/
theorem lineLoop_sameUpTo (m : Nat) (fuel1 : Nat) : ∀ (s1 : Sh) (fuel2 : Nat) (s2 : Sh),
    s1.words.length - s1.curIndex < fuel1 → s2.words.length - s2.curIndex < fuel2 →
    SameUpTo m s1 s2 → s1.curIndex ≤ m →
    SameUpTo m (lineLoop fuel1 s1) (lineLoop fuel2 s2) := by
  induction fuel1 with
  | zero => intro s1 fuel2 s2 h; omega
  | succ f1 ih =>
    intro s1 fuel2 s2 hf1 hf2 hs hle
    obtain ⟨f2, rfl⟩ : ∃ f, fuel2 = f + 1 := ⟨fuel2 - 1, by omega⟩
    have hc := (sameUpTo_cur m s1 s2 hs).1
    cases hw : wordAt s1.words s1.curIndex with
    | none =>
      have hw2 : wordAt s2.words s2.curIndex = none := by rw [hc, hs.2.1 _ hle]; exact hw
      rw [lineLoop_of_null _ s1 hw, lineLoop_of_null _ s2 hw2]
      exact hs
    | some w =>
      have hw2 : wordAt s2.words s2.curIndex = some w := by rw [hc, hs.2.1 _ hle]; exact hw
      obtain ⟨e1, hp, _⟩ := sameUpTo_afterParse m s1 s2 hs hle
      by_cases hr : (processCommand s1).1 = -1
      · rw [lineLoop_fail f1 s1 w hw hr, lineLoop_fail f2 s2 w hw2 (by rw [e1]; exact hr)]
        exact hp
      · rw [lineLoop_step f1 s1 w hw hr, lineLoop_step f2 s2 w hw2 (by rw [e1]; exact hr)]
        obtain ⟨hs', hle'⟩ := sameUpTo_afterCommand m s1 s2 hs hle hr
        obtain ⟨L1, _, hL1, hc1, hl1, _, _⟩ := afterCommand_progress s1 w hw hr
        obtain ⟨L2, _, hL2, hc2, hl2, _, _⟩ := afterCommand_progress s2 w hw2 (by rw [e1]; exact hr)
        have hlen1 := lt_length_of_wordAt _ _ _ hw
        have hlen2 := lt_length_of_wordAt _ _ _ hw2
        exact ih _ f2 _ (by rw [hc1, hl1]; exact fuel_after_pass _ _ _ _ hf1 hlen1 hL1)
          (by rw [hc2, hl2]; exact fuel_after_pass _ _ _ _ hf2 hlen2 hL2) hs' hle'

/-- One pass of the outer loop of `main` does the same on two arrays that agree
up to a common `NULL`: the two runs differ in the array only. -/
theorem runWords_sameUpTo (os : World) (w1 w2 : Words) (m : Nat)
    (h : ∀ p, p ≤ m → wordAt w2 p = wordAt w1 p) (hm : wordAt w1 m = none) :
    runWords os w2 = { runWords os w1 with words := (runWords os w2).words } := by
  have hs : SameUpTo m (initSh os w1) (initSh os w2) := ⟨rfl, h, hm⟩
  have hl := lineLoop_sameUpTo m (w1.length + 1) (initSh os w1) (w2.length + 1) (initSh os w2)
    (by simp [initSh]) (by simp [initSh]) hs (Nat.zero_le _)
  obtain ⟨a, _, _⟩ := hl
  unfold runWords
  simp only []
  generalize lineLoop (w1.length + 1) (initSh os w1) = A at a ⊢
  generalize lineLoop (w2.length + 1) (initSh os w2) = B at a ⊢
  rw [a]
  by_cases hsw : A.shellWait = 0 <;> simp [hsw]

/-- The run of `main` on an array that starts with the tokens `ts` and a
`NULL` is the run on `lineWords ts`: the slots behind the `NULL` are not
read. -/
theorem runWords_of_take (os : World) (ws : Words) (ts : List String)
    (h : ws.take (ts.length + 1) = lineWords ts) :
    runWords os ws = { runLine os ts with words := (runWords os ws).words } := by
  refine runWords_sameUpTo os (lineWords ts) ws ts.length (fun p hp => ?_) ?_
  · rw [← h]
    unfold wordAt
    rw [List.getD_eq_getElem?_getD, List.getD_eq_getElem?_getD,
      List.getElem?_take_of_lt (by omega)]
  · rw [wordAt_lineWords, List.getElem?_eq_none (le_refl _)]

/-! ## A line within the limits of the tokenizer -/

/-- Which copies of the loop stay inside their slots: those of the tokens the
loop still stores. -/
theorem copiesFit_spec (fuel : Nat) :
    ∀ (i : Nat) (text : List Char), MAX_NUM_WORDS - i < fuel →
      (copiesFit fuel i (strtok text) = true ↔
        ∀ t ∈ (maximalRuns isDelim (cString text)).take (MAX_NUM_WORDS - i),
          strcpyFits t = true) := by
  induction fuel with
  | zero => intro i text hf; omega
  | succ fuel ih =>
    intro i text hf
    cases hs : strtok text with
    | none =>
      rw [strtok_none text hs]
      simp [copiesFit]
    | some w =>
      obtain ⟨tok, rest⟩ := w
      rw [strtok_some text tok rest hs]
      by_cases hi : i < MAX_NUM_WORDS
      · have hk : MAX_NUM_WORDS - i = (MAX_NUM_WORDS - (i + 1)) + 1 := by omega
        rw [hk, List.take_succ_cons]
        simp only [copiesFit, if_pos hi, Bool.and_eq_true, List.mem_cons, forall_eq_or_imp]
        rw [ih (i + 1) rest (by omega)]
      · have hk : MAX_NUM_WORDS - i = 0 := by omega
        rw [hk]
        simp [copiesFit, hi]

/-- Tokens shorter than `MAX_WORD_LENGTH` bytes are copied inside their
slots. -/
theorem copiesFit_of_short (line : String)
    (hb : ∀ t ∈ tokensOf line, t.utf8ByteSize < MAX_WORD_LENGTH) :
    copiesFit (MAX_NUM_WORDS + 1) 0 (strtok line.toList) = true := by
  rw [copiesFit_spec (MAX_NUM_WORDS + 1) 0 line.toList (by omega)]
  intro t ht
  have hm : String.mk t ∈ tokensOf line :=
    List.mem_map.2 ⟨t, List.mem_of_mem_take ht, rfl⟩
  have := hb _ hm
  unfold strcpyFits
  simp only [decide_eq_true_eq]
  omega

/-- A line with fewer than `MAX_NUM_WORDS` tokens: the array returned starts
with the tokens followed by `NULL`. -/
theorem readLineOfWords_take (junk : Nat → String) (line : String)
    (h : (tokensOf line).length < MAX_NUM_WORDS) :
    ∃ ws, readLineOfWords junk (some line) = (some ws, []) ∧
      ws.take ((tokensOf line).length + 1) = lineWords (tokensOf line) := by
  obtain ⟨ws, h1, h2, h3⟩ := readLineOfWords_short junk line h
  refine ⟨ws, h1, ?_⟩
  apply List.ext_getElem?
  intro j
  by_cases hj : j < (tokensOf line).length + 1
  · rw [List.getElem?_take_of_lt hj, getElem?_of_wordAt ws j (by rw [h2]; omega),
      getElem?_of_wordAt (lineWords (tokensOf line)) j (by rw [lineWords_length]; exact hj),
      wordAt_lineWords, h3 j]
    by_cases hlt : j < (tokensOf line).length
    · rw [if_pos hlt]
    · rw [if_neg hlt, if_pos (by omega), List.getElem?_eq_none (by omega)]
  · rw [List.getElem?_eq_none (by rw [List.length_take]; omega),
      List.getElem?_eq_none (by rw [lineWords_length]; omega)]

/-- A line of fewer than `MAX_NUM_WORDS` tokens, each shorter than
`MAX_WORD_LENGTH` bytes, is handed over to `main` intact. -/
theorem handsOver_of_limits (ts : List String) (hn : ts.length < MAX_NUM_WORDS)
    (hb : ∀ t ∈ ts, t.utf8ByteSize < MAX_WORD_LENGTH) (junk : Nat → String) (line : String)
    (ht : tokensOf line = ts) : HandsOver ts junk line := by
  subst ht
  obtain ⟨ws, h1, h2⟩ := readLineOfWords_take junk line hn
  exact ⟨copiesFit_of_short line hb, ws, h1, h2, fun os => runWords_of_take os ws _ h2⟩

/-- No token is empty, and no token holds a space, a newline or a NUL. -/
theorem tokensOf_mem (line : String) (t : String) (ht : t ∈ tokensOf line) :
    t ≠ "" ∧ ' ' ∉ t.toList ∧ '\n' ∉ t.toList ∧ Char.ofNat 0 ∉ t.toList := by
  unfold tokensOf at ht
  obtain ⟨r, hr, rfl⟩ := List.mem_map.1 ht
  obtain ⟨h1, h2⟩ := maximalRuns_mem isDelim _ r hr
  refine ⟨?_, ?_, ?_, ?_⟩
  · intro e
    apply h1
    have := congrArg String.toList e
    simpa using this
  · intro hc
    have := h2 ' ' hc
    revert this; decide
  · intro hc
    have := h2 '\n' hc
    revert this; decide
  · intro hc
    have hc' : Char.ofNat 0 ∈ r := hc
    have hf : Char.ofNat 0 ∈ (maximalRuns isDelim (cString line.toList)).flatten :=
      List.mem_flatten.2 ⟨r, hr, hc'⟩
    rw [maximalRuns_flatten] at hf
    exact cString_no_nul _ _ (List.mem_filter.1 hf).1 rfl

/-! ## Runs of the orchestrator on a line -/

/-- A non-empty line of valid words: one fork with the line as argv, then the
wait for that child. -/
theorem runLine_plain (os : World) (ts : List String) (hne : ts ≠ [])
    (hv : ∀ t ∈ ts, isValidWord t = 1) :
    (runLine os ts).os.log = os.log ++
      [.fork { pid := os.nextPid, file := ts.head?, argv := ts, fdt := os.fdt },
        .waitpid (some (os.nextPid : Int))] ∧
    forks (callsSince os.log (runLine os ts).os.log)
      = [{ pid := os.nextPid, file := ts.head?, argv := ts, fdt := os.fdt }] ∧
    (runLine os ts).commandLength = some (ts.length : Int) := by
  obtain ⟨t, rest, rfl⟩ : ∃ t rest, ts = t :: rest := by
    cases ts with
    | nil => exact absurd rfl hne
    | cons t rest => exact ⟨t, rest, rfl⟩
  have hpc := processCommand_plain os (t :: rest) hv
  have hw0 : wordAt (initSh os (lineWords (t :: rest))).words
      (initSh os (lineWords (t :: rest))).curIndex = some t := rfl
  have hstep := lineLoop_step ((lineWords (t :: rest)).length) (initSh os (lineWords (t :: rest))) t
    hw0 (by rw [hpc]; simp; omega)
  have hac : (initSh os (lineWords (t :: rest))).afterCommand =
      { initSh os (lineWords (t :: rest)) with
        pid := some (os.nextPid : Int)
        commandLength := some ((t :: rest).length : Int)
        curIndex := (t :: rest).length
        os := { os with
          nextPid := os.nextPid + 1
          log := os.log ++ [Event.fork (Child.mk os.nextPid (some t) (t :: rest) os.fdt)] } } := by
    unfold Sh.afterCommand Sh.afterParse
    rw [hpc]
    simp [forkAndContinue_eq, initSh, childImage, argvAt_lineWords, wordAt_lineWords]
  have hstop : lineLoop ((lineWords (t :: rest)).length) (initSh os (lineWords (t :: rest))).afterCommand
      = (initSh os (lineWords (t :: rest))).afterCommand := by
    rw [lineWords_length]
    apply lineLoop_stop
    rw [hac]
    simp [initSh, wordAt_lineWords]
  have hrun : runLine os (t :: rest) =
      { (initSh os (lineWords (t :: rest))).afterCommand with
        os := (initSh os (lineWords (t :: rest))).afterCommand.os.emit
          (.waitpid (initSh os (lineWords (t :: rest))).afterCommand.pid) } := by
    unfold runLine runWords
    simp only []
    rw [hstep, hstop, hac]
    simp [initSh]
  rw [hrun, hac]
  simp [World.emit, initSh, forks, callsSince]

/-- The children of a line that is accepted in full, in a shell whose
descriptors 0 and 1 are open: one per command, wired through one pipe per
`|`. -/
theorem runLine_wired (os : World) (ts : List String) (h0 : os.fdt.obj 0 ≠ none)
    (h1 : os.fdt.obj 1 ≠ none) (hne : ts ≠ [])
    (hacc : (runLine os ts).commandLength ≠ some (-1)) :
    (segments ts).length = ts.count "|" + 1 ∧
    (forks (callsSince os.log (runLine os ts).os.log)).length = (segments ts).length ∧
    (pipesOf (callsSince os.log (runLine os ts).os.log)).length + 1 = (segments ts).length ∧
    ∀ k c, (forks (callsSince os.log (runLine os ts).os.log))[k]? = some c →
      c.stdin = stdinSpec (os.fdt.obj 0) os.npipes (segments ts) k ∧
      c.stdout = stdoutSpec (os.fdt.obj 1) os.npipes (segments ts) k ∧
      (k + 1 < (segments ts).length → c.stdout = some (.pipeWrite (os.npipes + k))) ∧
      (0 < k → c.stdin = some (.pipeRead (os.npipes + (k - 1)))) := by
  rw [runLine_commandLength] at hacc
  obtain ⟨evs, e1, e2, e3, e4⟩ :=
    (lineLoop_wired (os.fdt.obj 0) (os.fdt.obj 1) ((lineWords ts).length + 1)
      (initSh os (lineWords ts)) (by simp [initSh])).2 ts (os.fdt.obj 0)
      (fun j => by simpa [initSh] using wordAt_lineWords ts j) hne
      (boundary_init os ts h0 h1) hacc
  have hforks : forks (callsSince os.log (runLine os ts).os.log) = forks evs := by
    rw [runLine_log, e1]
    show forks (callsSince os.log (os.log ++ evs ++ _)) = _
    rw [List.append_assoc, callsSince_append, forks_append]
    split <;> simp [forks]
  have hpipes : pipesOf (callsSince os.log (runLine os ts).os.log) = pipesOf evs := by
    rw [runLine_log, e1]
    show pipesOf (callsSince os.log (os.log ++ evs ++ _)) = _
    rw [List.append_assoc, callsSince_append, pipesOf_append]
    split <;> simp [pipesOf]
  rw [hforks, hpipes]
  refine ⟨segments_length ts, e2, e3, ?_⟩
  intro k c hk
  obtain ⟨a, b, c', d, _⟩ := e4 k c hk
  refine ⟨a, b, c', fun h => ?_⟩
  rw [d h]
  show some (Obj.pipeRead (os.npipes + k - 1)) = _
  congr 2
  omega

/-- An accepted line that ends in `&` against the same line without the `&`:
the same forks, no wait against one wait on the last child. -/
theorem runLine_background (os : World) (ts : List String)
    (hacc : (runLine os (ts ++ ["&"])).commandLength ≠ some (-1)) :
    (runLine os (ts ++ ["&"])).shellWait = 0 ∧
    waits (callsSince os.log (runLine os (ts ++ ["&"])).os.log) = [] ∧
    (runLine os ts).shellWait ≠ 0 ∧
    forks (callsSince os.log (runLine os ts).os.log)
      = forks (callsSince os.log (runLine os (ts ++ ["&"])).os.log) ∧
    ∃ c, (forks (callsSince os.log (runLine os ts).os.log)).getLast? = some c ∧
      waits (callsSince os.log (runLine os ts).os.log) = [some c.pid] := by
  rw [runLine_commandLength] at hacc
  have hsim := lineLoop_shadow ts.length ((lineWords (ts ++ ["&"])).length + 1)
    (initSh os (lineWords (ts ++ ["&"]))) ((lineWords ts).length + 1) (initSh os (lineWords ts))
    (by simp [initSh]) (by simp [initSh]) (shadow_init os ts) (Nat.zero_le _) hacc
  obtain ⟨he1, he2, _, _⟩ := hsim
  obtain ⟨evs, h1, h2, h3, h4⟩ := lineLoop_forks ((lineWords (ts ++ ["&"])).length + 1)
    (initSh os (lineWords (ts ++ ["&"]))) (by simp [initSh])
  have hne : forks evs ≠ [] := by
    refine h4 ?_ hacc
    show wordAt (lineWords (ts ++ ["&"])) 0 ≠ none
    rw [wordAt_lineWords, List.getElem?_eq_getElem (by simp)]
    simp
  have hlog1 : (runLine os (ts ++ ["&"])).os.log = os.log ++ evs := by
    rw [runLine_log, he1, h1]
    simp [initSh]
  have hw2 : (lineLoop ((lineWords ts).length + 1) (initSh os (lineWords ts))).shellWait = 1 := by
    rw [he2]; rfl
  have hos2 : (lineLoop ((lineWords ts).length + 1) (initSh os (lineWords ts))).os
      = (lineLoop ((lineWords (ts ++ ["&"])).length + 1)
          (initSh os (lineWords (ts ++ ["&"])))).os := by
    rw [he2]
  have hpid2 : (lineLoop ((lineWords ts).length + 1) (initSh os (lineWords ts))).pid
      = (lineLoop ((lineWords (ts ++ ["&"])).length + 1)
          (initSh os (lineWords (ts ++ ["&"])))).pid := by
    rw [he2]
  have hlog2 : (runLine os ts).os.log
      = os.log ++ (evs ++ [.waitpid (lineLoop ((lineWords (ts ++ ["&"])).length + 1)
          (initSh os (lineWords (ts ++ ["&"])))).pid]) := by
    rw [runLine_log, hw2, hos2, hpid2, h1]
    simp [initSh]
  obtain ⟨c, hc⟩ : ∃ c, (forks evs).getLast? = some c := by
    cases hl : (forks evs).getLast? with
    | none => exact absurd (by simpa using hl) hne
    | some c => exact ⟨c, rfl⟩
  rw [hc] at h3
  refine ⟨?_, ?_, ?_, ?_, c, ?_, ?_⟩
  · rw [runLine_shellWait]; exact he1
  · rw [hlog1]; simp [callsSince, h2]
  · rw [runLine_shellWait, hw2]; decide
  · rw [hlog1, hlog2]
    simp [callsSince, forks_append, forks]
  · rw [hlog2]
    simp [callsSince, forks_append, forks, hc]
  · rw [hlog2, h3]
    simp [callsSince, waits_append, waits, h2]

/-- Pass `k` of the inner loop is made on segment `k` of the line, each accepted
pass forks the command of its segment, and the first rejected pass ends the
line. -/
theorem runLine_segments (os : World) (ts : List String) :
    (∀ (k : Nat) (b : Sh), (lineTrace ts.length (initSh os (lineWords ts)))[k]? = some b →
      (wordAt b.words b.curIndex).isSome →
      k < (commands ts).length ∧ StartsSegment ts k b.curIndex ∧
      (∀ p, b.curIndex ≤ p → wordAt b.words p = ts[p]?) ∧
      (forks (callsSince os.log b.os.log)).length = k) ∧
    (∀ (i : Nat) (c : Child), (forks (callsSince os.log (runLine os ts).os.log))[i]? = some c →
      ∃ q, StartsSegment ts i q ∧ c.file = ts[q]? ∧
        c.argv = (ts.drop q).takeWhile (fun t => !isOperator t)) ∧
    (∀ (k : Nat) (b : Sh), (lineTrace ts.length (initSh os (lineWords ts)))[k]? = some b →
      (wordAt b.words b.curIndex).isSome → (processCommand b).1 = -1 →
      (forks (callsSince os.log (runLine os ts).os.log)).length = k ∧
      (lineTrace ts.length (initSh os (lineWords ts))).length = k + 1 ∧
      ∀ q, b.curIndex ≤ q → ts[q]? = some "|" → ∀ p, q < p →
        wordAt (runLine os ts).words p = ts[p]?) ∧
    ((∀ b ∈ lineTrace ts.length (initSh os (lineWords ts)),
        (wordAt b.words b.curIndex).isSome → (processCommand b).1 ≠ -1) →
      (forks (callsSince os.log (runLine os ts).os.log)).length = (commands ts).length) := by
  by_cases hne : ts = []
  · subst hne
    have hT : lineTrace ([] : List String).length (initSh os (lineWords [])) =
        [initSh os (lineWords [])] := rfl
    have hnull : wordAt (initSh os (lineWords [])).words (initSh os (lineWords [])).curIndex
        = none := rfl
    have hnone : ∀ (k : Nat) (b : Sh), [initSh os (lineWords [])][k]? = some b →
        ¬ (wordAt b.words b.curIndex).isSome := by
      intro k b hb
      cases k with
      | zero =>
        simp only [List.getElem?_cons_zero, Option.some.injEq] at hb
        rw [← hb, hnull]; simp
      | succ k => simp at hb
    obtain ⟨hf, _⟩ := runLine_forks os [] [] (by simp [lineLoop, initSh])
    rw [hT]
    refine ⟨fun k b hb hs => absurd hs (hnone k b hb), fun i c hc => ?_,
      fun k b hb hs => absurd hs (hnone k b hb), fun _ => ?_⟩
    · rw [hf] at hc; simp [forks] at hc
    · rw [hf]; rfl
  · obtain ⟨h1, evs, h2, h3, _, h5, h6⟩ := trace_segments os ts ts.length
      (initSh os (lineWords ts)) 0 (atSegment_init os ts hne) (by simp [initSh])
    obtain ⟨hf, hw⟩ := runLine_forks os ts evs h2
    refine ⟨fun k b hb hs => ?_, fun i c hc => ?_, fun k b hb hs hfail => ?_, fun hall => ?_⟩
    · have hA := h1 k b hb hs
      rw [Nat.zero_add] at hA
      have hlt := atSegment_lt os ts k b hA
      obtain ⟨_, a2, a3, evs0, a4, a5, _⟩ := hA
      exact ⟨hlt, a3, a2, by rw [a4, callsSince_append, a5]⟩
    · rw [hf] at hc
      exact h3 i c hc
    · obtain ⟨k1, k2, k3⟩ := h5 k b hb hs hfail
      rw [hf, hw]
      exact ⟨by omega, k2, k3⟩
    · rw [hf]
      exact h6 hall

/-! # The claims -/

/-! ## C1. Word validator -/

/-- C1: `isValidWord` returns 1 exactly when every character of the token is an
ASCII letter, an ASCII digit, `-`, `_`, `.` or `/`, and 0 otherwise; the four
operator tokens are invalid and the empty string is valid. -/
theorem isValidWord_contract (w : String) :
    (isValidWord w = 1 ↔ ∀ c ∈ w.toList, SpecChar c) ∧
    (isValidWord w = 0 ↔ ¬ ∀ c ∈ w.toList, SpecChar c) ∧
    isValidWord "<" = 0 ∧ isValidWord ">" = 0 ∧ isValidWord "|" = 0 ∧
    isValidWord "&" = 0 ∧ isValidWord "" = 1 := by
  have h1 : isValidWord w = 1 ↔ ∀ c ∈ w.toList, SpecChar c := by
    unfold isValidWord
    rw [isValidWordLoop_one]
    constructor
    · intro h c hc; exact (validChar_iff c).1 (h c hc)
    · intro h c hc; exact (validChar_iff c).2 (h c hc)
  refine ⟨h1, ?_, isValidWord_lt, isValidWord_gt, isValidWord_bar, isValidWord_amp, by decide⟩
  rw [← h1]
  rcases isValidWord_cases w with h | h <;> simp [h]

/-! ## C2. Lines without operators -/

/-- C2, as amended: a non-empty line of fewer than 51 tokens, each shorter than
100 bytes and all of them valid words (so none is an operator), is handed over
to `main` intact; the orchestrator forks exactly once, the argv handed to
`execvp` is the token sequence verbatim, the child keeps the descriptors of
the shell, and the shell waits for it: these two calls are all the line adds
to the log. -/
theorem plain_line_one_command (os : World) (ts : List String)
    (hn : ts.length < MAX_NUM_WORDS) (hb : ∀ t ∈ ts, t.utf8ByteSize < MAX_WORD_LENGTH)
    (hne : ts ≠ []) (hv : ∀ t ∈ ts, isValidWord t = 1) :
    (∀ junk line, tokensOf line = ts → HandsOver ts junk line) ∧
    (runLine os ts).os.log = os.log ++
      [.fork { pid := os.nextPid, file := ts.head?, argv := ts, fdt := os.fdt },
        .waitpid (some (os.nextPid : Int))] ∧
    forks (callsSince os.log (runLine os ts).os.log)
      = [{ pid := os.nextPid, file := ts.head?, argv := ts, fdt := os.fdt }] ∧
    (runLine os ts).commandLength = some (ts.length : Int) :=
  ⟨handsOver_of_limits ts hn hb, runLine_plain os ts hne hv⟩

/-- C2, as amended, on the line `ls -l`. -/
theorem plain_line_one_command_witness :
    HandsOver ["ls", "-l"] (fun _ => "") "ls -l\n" ∧
    (forks (callsSince World.fresh.log (runLine World.fresh ["ls", "-l"]).os.log)).map Child.argv
      = [["ls", "-l"]] := by
  obtain ⟨h0, _, h, _⟩ := plain_line_one_command World.fresh ["ls", "-l"]
    (by decide) (by decide) (by decide) (by decide)
  exact ⟨h0 _ _ (by decide), by simpa using congrArg (List.map Child.argv) h⟩

/-- C2 as stated fails: the line `ls *.c` contains none of the four operators,
yet the orchestrator rejects it and forks no process. -/
theorem plain_line_rejected :
    (∀ t ∈ ["ls", "*.c"], t ∉ ["<", ">", "|", "&"]) ∧
    forks (runLine World.fresh ["ls", "*.c"]).os.log = [] ∧
    (runLine World.fresh ["ls", "*.c"]).commandLength = some (-1) ∧
    printed (runLine World.fresh ["ls", "*.c"]).os.log
      = ["ERROR: *.c contains invalid characters\n"] := by
  decide

/-! ## C3. The argv of a command -/

/-- C3, as amended: for every segment that `processCommand` accepts, the argv
passed to `execvp` for that command (the `NULL`-terminated run starting at
`words[curIndex]`) is the run of tokens from the start of the segment up to,
and not including, its first operator token; words that follow a redirect are
not part of it. -/
theorem argv_stops_at_first_operator (s : Sh) (pid : Int)
    (hacc : (processCommand s).1 ≠ -1) :
    argvAt (processCommand s).2.words s.curIndex
      = (argvAt s.words s.curIndex).takeWhile (fun t => !isOperator t) ∧
    (childImage s.afterParse pid).argv
      = (argvAt s.words s.curIndex).takeWhile (fun t => !isOperator t) := by
  have key : argvAt (processCommand s).2.words s.curIndex
      = (argvAt s.words s.curIndex).takeWhile (fun t => !isOperator t) := by
    obtain ⟨k, _, h2, h3, h4, h5⟩ :=
      loop_first_operator (s.words.length + 1) 0 s (by omega) hacc
    refine argvAt_takeWhile k s.curIndex _ _ ?_ h3 h4
    intro j hj
    obtain ⟨w, hw, hv⟩ := h2 j (by omega) hj
    exact ⟨w, hw, valid_isOperator w hv, by rw [← hw]; exact h5 _ (by omega)⟩
  refine ⟨key, ?_⟩
  have hc : (processCommand s).2.curIndex = s.curIndex := (processCommand_frame s).1
  simp only [childImage, afterParse_words, afterParse_curIndex, hc]
  exact key

theorem argv_stops_at_first_operator_witness :
    argvAt (processCommand (initSh (World.withFiles ["in.txt"])
        (lineWords ["cat", "-n", "<", "in.txt"]))).2.words 0 = ["cat", "-n"] := by
  have h := (argv_stops_at_first_operator
    (initSh (World.withFiles ["in.txt"]) (lineWords ["cat", "-n", "<", "in.txt"]))
    0 (by decide)).1
  exact h.trans (by decide)

/-- C3 as stated fails: the segment `cat < in.txt -n` is accepted, and the argv
of the forked command is `[cat]`, not `[cat, -n]`. -/
theorem argv_drops_words_after_redirect :
    (processCommand (initSh (World.withFiles ["in.txt"])
        (lineWords ["cat", "<", "in.txt", "-n"]))).1 = 4 ∧
    (forks (runLine (World.withFiles ["in.txt"])
        ["cat", "<", "in.txt", "-n"]).os.log).map Child.argv = [["cat"]] ∧
    strippedArgv ["cat", "<", "in.txt", "-n"] = ["cat", "-n"] ∧
    (forks (runLine (World.withFiles ["in.txt"])
        ["cat", "<", "in.txt", "-n"]).os.log).map Child.argv
      ≠ [strippedArgv ["cat", "<", "in.txt", "-n"]] := by
  decide

/-! ## C4. Flags of the redirect files -/

/-- C4, as amended: an accepted `<` redirect opens its file with `O_RDONLY`, an
accepted `>` redirect opens its file with `O_WRONLY|O_CREAT` (without
`O_TRUNC`), both with mode 0644, and the slot of the command is bound to the
descriptor that `open` returned, which refers to that file. -/
theorem redirect_opens (i : Nat) (nxt : Option String) (s : Sh) (hi : 0 < i) :
    ((fileRedirect s.redirInpFD "<" O_RDONLY nxt s.os).1 ≠ -1 →
      ∃ name, nxt = some name ∧
        (s.os.sysopen name O_RDONLY 0o644).1 ≠ -1 ∧
        processCommandBody i "<" nxt s = .next (i + 1 + 1)
          ({ s with
            redirInpFD := (s.os.sysopen name O_RDONLY 0o644).1
            os := (s.os.sysopen name O_RDONLY 0o644).2 }.setNull i) ∧
        (s.os.sysopen name O_RDONLY 0o644).2.log
          = s.os.log ++ [.sysopen name O_RDONLY 0o644 (s.os.sysopen name O_RDONLY 0o644).1] ∧
        (s.os.sysopen name O_RDONLY 0o644).2.fdt.obj (s.os.sysopen name O_RDONLY 0o644).1
          = some (.file name O_RDONLY 0o644)) ∧
    ((fileRedirect s.redirOutFD ">" (O_WRONLY ||| O_CREAT) nxt s.os).1 ≠ -1 →
      ∃ name, nxt = some name ∧
        (s.os.sysopen name (O_WRONLY ||| O_CREAT) 0o644).1 ≠ -1 ∧
        processCommandBody i ">" nxt s = .next (i + 1 + 1)
          ({ s with
            redirOutFD := (s.os.sysopen name (O_WRONLY ||| O_CREAT) 0o644).1
            os := (s.os.sysopen name (O_WRONLY ||| O_CREAT) 0o644).2 }.setNull i) ∧
        (s.os.sysopen name (O_WRONLY ||| O_CREAT) 0o644).2.log
          = s.os.log ++ [.sysopen name (O_WRONLY ||| O_CREAT) 0o644
              (s.os.sysopen name (O_WRONLY ||| O_CREAT) 0o644).1] ∧
        (s.os.sysopen name (O_WRONLY ||| O_CREAT) 0o644).2.fdt.obj
            (s.os.sysopen name (O_WRONLY ||| O_CREAT) 0o644).1
          = some (.file name (O_WRONLY ||| O_CREAT) 0o644)) := by
  constructor
  · intro h
    obtain ⟨hFD, name, hn, hv, ho⟩ := fileRedirect_ne _ _ _ _ _ h
    subst hn
    refine ⟨name, rfl, ?_⟩
    rw [body_in i _ s hi, if_neg h, fileRedirect_ok _ _ _ _ _ hFD hv ho,
      sysopen_of_openable _ _ _ _ ho]
    refine ⟨by simp, rfl, rfl, ?_⟩
    simp [World.opened, obj_put]
  · intro h
    obtain ⟨hFD, name, hn, hv, ho⟩ := fileRedirect_ne _ _ _ _ _ h
    subst hn
    refine ⟨name, rfl, ?_⟩
    rw [body_out i _ s hi, if_neg h, fileRedirect_ok _ _ _ _ _ hFD hv ho,
      sysopen_of_openable _ _ _ _ ho]
    refine ⟨by simp, rfl, rfl, ?_⟩
    simp [World.opened, obj_put]

theorem redirect_opens_witness :
    (0 : Nat) < 1 ∧
    processCommandBody 1 ">" (some "out.txt") (initSh World.fresh (lineWords ["ls", ">", "out.txt"]))
      = .next 3 ({ initSh World.fresh (lineWords ["ls", ">", "out.txt"]) with
          redirOutFD := 3
          os := (World.fresh.sysopen "out.txt" (O_WRONLY ||| O_CREAT) 0o644).2 }.setNull 1) := by
  refine ⟨by decide, ?_⟩
  obtain ⟨name, hn, _, hb, _, _⟩ :=
    (redirect_opens 1 (some "out.txt") (initSh World.fresh (lineWords ["ls", ">", "out.txt"]))
      (by decide)).2 (by decide)
  cases hn
  exact hb

/-- C4 as stated fails: the accepted redirect of `ls > out.txt` opens `out.txt`
with the flags `O_WRONLY|O_CREAT`, in which `O_TRUNC` is not set, and not with
`O_WRONLY|O_CREAT|O_TRUNC`. -/
theorem redirect_out_without_trunc :
    (processCommand (initSh World.fresh (lineWords ["ls", ">", "out.txt"]))).1 = 3 ∧
    (processCommand (initSh World.fresh (lineWords ["ls", ">", "out.txt"]))).2.os.log
      = [.sysopen "out.txt" (O_WRONLY ||| O_CREAT) 0o644 3] ∧
    (O_WRONLY ||| O_CREAT) &&& O_TRUNC = 0 ∧
    Event.sysopen "out.txt" (O_WRONLY ||| O_CREAT ||| O_TRUNC) 0o644 3 ∉
      (processCommand (initSh World.fresh (lineWords ["ls", ">", "out.txt"]))).2.os.log := by
  decide

/-! ## C5. Wiring of the children of a pipeline -/

/-- C5, as amended: for every line of fewer than 51 tokens, each shorter than 100
bytes, that is accepted in full, with `n` commands joined by `n-1` tokens `|`,
run by a shell whose descriptors 0 and 1 are open: the line is handed over to
`main` intact; `n` children are forked and `n-1` pipes are created; the
standard input of a child is its `<` file if it has one, else the read end of
the pipe the previous command created, else the shell's own standard input;
its standard output is its `>` file if it has one, else the write end of the
pipe it created, else the shell's own standard output; and for `k+1 < n` the
standard output of child `k` is the write end of pipe `k` and the standard
input of child `k+1` its read end. -/
theorem pipeline_wiring (os : World) (ts : List String)
    (hn : ts.length < MAX_NUM_WORDS) (hb : ∀ t ∈ ts, t.utf8ByteSize < MAX_WORD_LENGTH)
    (h0 : os.fdt.obj 0 ≠ none) (h1 : os.fdt.obj 1 ≠ none) (hne : ts ≠ [])
    (hacc : (runLine os ts).commandLength ≠ some (-1)) :
    (∀ junk line, tokensOf line = ts → HandsOver ts junk line) ∧
    (segments ts).length = ts.count "|" + 1 ∧
    (forks (callsSince os.log (runLine os ts).os.log)).length = (segments ts).length ∧
    (pipesOf (callsSince os.log (runLine os ts).os.log)).length + 1 = (segments ts).length ∧
    ∀ k c, (forks (callsSince os.log (runLine os ts).os.log))[k]? = some c →
      c.stdin = stdinSpec (os.fdt.obj 0) os.npipes (segments ts) k ∧
      c.stdout = stdoutSpec (os.fdt.obj 1) os.npipes (segments ts) k ∧
      (k + 1 < (segments ts).length → c.stdout = some (.pipeWrite (os.npipes + k))) ∧
      (0 < k → c.stdin = some (.pipeRead (os.npipes + (k - 1)))) :=
  ⟨handsOver_of_limits ts hn hb, runLine_wired os ts h0 h1 hne hacc⟩

/-- C5, as amended, on the line `ls | wc > out.txt`: `wc` reads from the pipe
and writes to `out.txt`. -/
theorem pipeline_wiring_witness :
    ∃ c, (forks (callsSince World.fresh.log
        (runLine World.fresh ["ls", "|", "wc", ">", "out.txt"]).os.log))[1]? = some c ∧
      c.argv = ["wc"] ∧ c.stdin = some (.pipeRead 0) ∧
      c.stdout = some (.file "out.txt" (O_WRONLY ||| O_CREAT) 0o644) := by
  obtain ⟨_, _, _, _, h⟩ := pipeline_wiring World.fresh ["ls", "|", "wc", ">", "out.txt"]
    (by decide) (by decide) (by decide) (by decide) (by decide) (by decide)
  have hlen : 1 < (forks (callsSince World.fresh.log
      (runLine World.fresh ["ls", "|", "wc", ">", "out.txt"]).os.log)).length := by decide
  obtain ⟨c, hc⟩ : ∃ c, (forks (callsSince World.fresh.log
      (runLine World.fresh ["ls", "|", "wc", ">", "out.txt"]).os.log))[1]? = some c :=
    ⟨_, List.getElem?_eq_getElem hlen⟩
  obtain ⟨a, b, _, _⟩ := h 1 c hc
  refine ⟨c, hc, ?_, ?_, ?_⟩
  · have hc' := hc
    have hd : (forks (callsSince World.fresh.log
        (runLine World.fresh ["ls", "|", "wc", ">", "out.txt"]).os.log))[1]?.map Child.argv
          = some ["wc"] := by decide
    rw [hc'] at hd
    simpa using hd
  · rw [a]; decide
  · rw [b]; decide

/-- C5 as stated fails in a shell whose descriptor 1 is closed: on the line
`ls | wc`, which is accepted in full, the pipe gets the descriptors 1 and 3;
the child for `ls` binds the write end to descriptor 1 (line 55) and then
closes `postpipe[0]`, which is descriptor 1 (line 60), so its standard output
is closed and not the write end of the pipe, and the child for `wc` inherits
the read end of the pipe at descriptor 1.  In a shell whose descriptor 0 is
closed, the file of `ls > out.txt` is opened at descriptor 0, and the child,
which has no `<` file and no pipe before it, has that file as its standard
input where the shell has none. -/
theorem closed_descriptor_breaks_wiring :
    (runLine World.withoutStdout ["ls", "|", "wc"]).commandLength = some 1 ∧
    pipesOf (runLine World.withoutStdout ["ls", "|", "wc"]).os.log = [(1, 3)] ∧
    (forks (runLine World.withoutStdout ["ls", "|", "wc"]).os.log).map Child.stdout
      = [none, some (.pipeRead 0)] ∧
    (List.range 2).map (stdoutSpec (World.withoutStdout.fdt.obj 1) 0 (segments ["ls", "|", "wc"]))
      = [some (.pipeWrite 0), none] ∧
    (runLine World.withoutStdin ["ls", ">", "out.txt"]).commandLength = some 3 ∧
    (forks (runLine World.withoutStdin ["ls", ">", "out.txt"]).os.log).map Child.stdin
      = [some (.file "out.txt" (O_WRONLY ||| O_CREAT) 0o644)] ∧
    World.withoutStdin.fdt.obj 0 = none ∧
    stdinSpec (World.withoutStdin.fdt.obj 0) 0 (segments ["ls", ">", "out.txt"]) 0 = none := by
  decide

/-! ## C6. The `|` branch -/

/-- C6: at a `|` token at index `i` of a segment (past the first token, which
line 134 rejects) `processCommand` returns -1 when an output sink is already
bound or the next token is missing or not a valid word; otherwise it creates
one pipe, sets the output sink to the write end of that pipe and returns
`i+1`.  Consequently no accepted command has both opened a file for output and
created a pipe to the next command. -/
theorem processCommand_pipe (fuel i : Nat) (s s0 : Sh) (hi : 0 < i)
    (hbar : wordAt s.words (s.curIndex + i) = some "|") :
    ((0 ≤ s.redirOutFD ∨ wordAt s.words (s.curIndex + (i + 1)) = none ∨
        (∃ n, wordAt s.words (s.curIndex + (i + 1)) = some n ∧ isValidWord n = 0)) →
      (processCommandLoop (fuel + 1) i s).1 = -1 ∧
      pipesOf (processCommandLoop (fuel + 1) i s).2.os.log = pipesOf s.os.log ∧
      (processCommandLoop (fuel + 1) i s).2.os.fdt = s.os.fdt) ∧
    (¬ (0 ≤ s.redirOutFD ∨ wordAt s.words (s.curIndex + (i + 1)) = none ∨
        (∃ n, wordAt s.words (s.curIndex + (i + 1)) = some n ∧ isValidWord n = 0)) →
      processCommandLoop (fuel + 1) i s = (((i + 1 : Nat) : Int), s.afterPipe i) ∧
      pipesOf (s.afterPipe i).os.log = pipesOf s.os.log ++ [s.os.pipe.1] ∧
      (s.afterPipe i).postpipe = s.os.pipe.1 ∧
      (s.afterPipe i).redirOutFD = s.os.pipe.1.2 ∧
      (s.afterPipe i).os.fdt.obj s.os.pipe.1.2 = some (.pipeWrite s.os.npipes) ∧
      (s.afterPipe i).os.fdt.obj s.os.pipe.1.1 = some (.pipeRead s.os.npipes)) ∧
    ((processCommand s0).1 ≠ -1 →
      ¬ (outputOpens ((processCommand s0).2.os.log.drop s0.os.log.length) ≠ [] ∧
        pipesOf ((processCommand s0).2.os.log.drop s0.os.log.length) ≠ [])) := by
  refine ⟨?_, ?_, ?_⟩
  · intro h
    have hb := body_pipe i (wordAt s.words (s.curIndex + (i + 1))) s hi
    by_cases hout : s.redirOutFD ≥ 0
    · rw [if_pos hout] at hb
      rw [loop_ret fuel i s _ _ _ hbar hb]
      simp [World.emit, pipesOf_append, pipesOf]
    · rw [if_neg hout] at hb
      have hn : wordAt s.words (s.curIndex + (i + 1)) = none ∨
          (wordAt s.words (s.curIndex + (i + 1))).map isValidWord = some 0 := by
        rcases h with h | h | ⟨n, h1, h2⟩
        · exact absurd h hout
        · exact Or.inl h
        · right; rw [h1]; simp [h2]
      rw [if_pos hn] at hb
      rw [loop_ret fuel i s _ _ _ hbar hb]
      simp [World.emit, pipesOf_append, pipesOf]
  · intro h
    have hb := body_pipe i (wordAt s.words (s.curIndex + (i + 1))) s hi
    have hout : ¬ s.redirOutFD ≥ 0 := fun h0 => h (Or.inl h0)
    have hn : ¬ (wordAt s.words (s.curIndex + (i + 1)) = none ∨
        (wordAt s.words (s.curIndex + (i + 1))).map isValidWord = some 0) := by
      intro hc
      rcases hc with hc | hc
      · exact h (Or.inr (Or.inl hc))
      · cases hnx : wordAt s.words (s.curIndex + (i + 1)) with
        | none => exact h (Or.inr (Or.inl hnx))
        | some n =>
          rw [hnx] at hc
          exact h (Or.inr (Or.inr ⟨n, hnx, by simpa using hc⟩))
    rw [if_neg hout, if_neg hn] at hb
    rw [loop_ret fuel i s _ _ _ hbar hb]
    refine ⟨rfl, ?_, rfl, rfl, ?_, ?_⟩
    · simp [Sh.afterPipe, pipe_log, pipesOf_append, pipesOf]
    · simpa [Sh.afterPipe] using pipe_obj_write s.os
    · simpa [Sh.afterPipe] using pipe_obj_read s.os
  · intro h
    obtain ⟨evs, h1, _, h3⟩ :=
      loop_no_redirect_and_pipe (s0.words.length + 1) 0 s0 (by omega) h
    have : (processCommand s0).2.os.log = s0.os.log ++ evs := h1
    rw [this, List.drop_left]
    rintro ⟨ha, hb⟩
    rcases h3 with h3 | h3
    · exact ha h3
    · exact hb h3

theorem processCommand_pipe_witness :
    processCommandLoop 3 1 (initSh World.fresh (lineWords ["ls", "|", "wc"]))
      = (2, (initSh World.fresh (lineWords ["ls", "|", "wc"])).afterPipe 1) ∧
    ((initSh World.fresh (lineWords ["ls", "|", "wc"])).afterPipe 1).redirOutFD = 4 ∧
    ¬ (outputOpens ((processCommand (initSh World.fresh (lineWords ["ls", "|", "wc"]))).2.os.log.drop
          (initSh World.fresh (lineWords ["ls", "|", "wc"])).os.log.length) ≠ [] ∧
        pipesOf ((processCommand (initSh World.fresh (lineWords ["ls", "|", "wc"]))).2.os.log.drop
          (initSh World.fresh (lineWords ["ls", "|", "wc"])).os.log.length) ≠ []) :=
  ⟨((processCommand_pipe 2 1 (initSh World.fresh (lineWords ["ls", "|", "wc"]))
      (initSh World.fresh (lineWords ["ls", "|", "wc"]))
      (by decide) (by decide)).2.1 (by decide)).1, by decide,
    (processCommand_pipe 2 1 (initSh World.fresh (lineWords ["ls", "|", "wc"]))
      (initSh World.fresh (lineWords ["ls", "|", "wc"]))
      (by decide) (by decide)).2.2 (by decide)⟩

/-! ## C7. The `&` branch and the wait flag -/

/-- C8, as amended: for every line of fewer than 51 tokens, each shorter than 100
bytes, whose final token is `&` and on which every call of `processCommand`
succeeds: the line, and the line without its final `&`, are handed over to
`main` intact; `main` does not wait on any process (`shellWait` is 0 at line
106); and for the otherwise-identical line with the trailing `&` removed,
`main` forks the same children and waits once, on the last process it
forked. -/
theorem background_line_does_not_wait (os : World) (ts : List String)
    (hn : (ts ++ ["&"]).length < MAX_NUM_WORDS)
    (hb : ∀ t ∈ ts ++ ["&"], t.utf8ByteSize < MAX_WORD_LENGTH)
    (hacc : (runLine os (ts ++ ["&"])).commandLength ≠ some (-1)) :
    (∀ junk line, tokensOf line = ts ++ ["&"] → HandsOver (ts ++ ["&"]) junk line) ∧
    (∀ junk line, tokensOf line = ts → HandsOver ts junk line) ∧
    (runLine os (ts ++ ["&"])).shellWait = 0 ∧
    waits (callsSince os.log (runLine os (ts ++ ["&"])).os.log) = [] ∧
    (runLine os ts).shellWait ≠ 0 ∧
    forks (callsSince os.log (runLine os ts).os.log)
      = forks (callsSince os.log (runLine os (ts ++ ["&"])).os.log) ∧
    ∃ c, (forks (callsSince os.log (runLine os ts).os.log)).getLast? = some c ∧
      waits (callsSince os.log (runLine os ts).os.log) = [some c.pid] :=
  ⟨handsOver_of_limits (ts ++ ["&"]) hn hb,
    handsOver_of_limits ts (by rw [List.length_append] at hn; omega)
      (fun t ht => hb t (List.mem_append_left _ ht)),
    runLine_background os ts hacc⟩

/-- C8, as amended, on the lines `ls | wc &` and `ls | wc`. -/
theorem background_line_does_not_wait_witness :
    (runLine World.fresh ["ls", "|", "wc", "&"]).shellWait = 0 ∧
    waits (callsSince World.fresh.log (runLine World.fresh ["ls", "|", "wc"]).os.log)
      = [some 101] := by
  obtain ⟨_, _, h1, _, _, _, c, hc, hw⟩ :=
    background_line_does_not_wait World.fresh ["ls", "|", "wc"] (by decide) (by decide)
      (by decide)
  refine ⟨h1, ?_⟩
  rw [hw]
  have : (forks (callsSince World.fresh.log (runLine World.fresh ["ls", "|", "wc"]).os.log)).getLast?
      = some (childImage
          ((initSh World.fresh (lineWords ["ls", "|", "wc"])).afterCommand.afterParse) 101) := by
    decide
  rw [this] at hc
  cases hc
  rfl

/-- C8 as stated fails: the line `ls | wc *.c &` ends in `&`, yet its second
segment is rejected, the wait flag stays 1 and `main` waits on the process it
forked for `ls`. -/
theorem rejected_background_line_waits :
    ["ls", "|", "wc", "*.c", "&"].getLast? = some "&" ∧
    (runLine World.fresh ["ls", "|", "wc", "*.c", "&"]).shellWait = 1 ∧
    (forks (runLine World.fresh ["ls", "|", "wc", "*.c", "&"]).os.log).map Child.pid = [100] ∧
    waits (runLine World.fresh ["ls", "|", "wc", "*.c", "&"]).os.log = [some 100] := by
  decide

/-! ## C9. A redirect operator that ends the line -/

/-- C10: when the first token of the sequence handed to `processCommand` is not
a valid word, in particular when it is one of the four operators, the function
returns -1 after printing "command cannot begin with an operator" and nothing
else happens: no file is opened, no pipe is created, the wait flag and every
token keep their value. -/
theorem processCommand_rejects_leading_operator (s : Sh) (w : String)
    (hfirst : wordAt s.words s.curIndex = some w)
    (hw : isValidWord w = 0 ∨ w ∈ ["<", ">", "|", "&"]) :
    processCommand s = (-1, s.print "ERROR: command cannot begin with an operator\n") ∧
    (processCommand s).2.os.log
      = s.os.log ++ [.print "ERROR: command cannot begin with an operator\n"] ∧
    (processCommand s).2.os.fdt = s.os.fdt ∧
    (processCommand s).2.os.files = s.os.files ∧
    (processCommand s).2.os.npipes = s.os.npipes ∧
    (processCommand s).2.postpipe = s.postpipe ∧
    (processCommand s).2.redirInpFD = s.redirInpFD ∧
    (processCommand s).2.redirOutFD = s.redirOutFD ∧
    (processCommand s).2.shellWait = s.shellWait ∧
    (processCommand s).2.words = s.words := by
  have hv : isValidWord w = 0 := by
    rcases hw with h | h
    · exact h
    · simp only [List.mem_cons, List.mem_singleton, List.not_mem_nil, or_false] at h
      rcases h with rfl | rfl | rfl | rfl <;> decide
  have h : processCommand s
      = (-1, s.print "ERROR: command cannot begin with an operator\n") := by
    unfold processCommand
    exact loop_ret _ 0 s _ w _ (by simpa using hfirst) (body_first_invalid w _ s hv)
  rw [h]
  exact ⟨rfl, rfl, rfl, rfl, rfl, rfl, rfl, rfl, rfl, rfl⟩

theorem processCommand_rejects_leading_operator_witness :
    wordAt (initSh World.fresh (lineWords ["|", "ls"])).words 0 = some "|" ∧
    processCommand (initSh World.fresh (lineWords ["|", "ls"]))
      = (-1, (initSh World.fresh (lineWords ["|", "ls"])).print
          "ERROR: command cannot begin with an operator\n") :=
  ⟨by decide,
    (processCommand_rejects_leading_operator (initSh World.fresh (lineWords ["|", "ls"])) "|"
      (by decide) (by decide)).1⟩

/-! ## C11. A slot that is already bound -/

/-- C12 fails on the code: after the line `sort < in.txt > out.txt` the calls
of `main` are two `open`, one `fork` and one `waitpid`, with no `close`; the
descriptors 3 and 4 obtained from `open` are still open in the parent, whose
table is no longer the one before the line, and the child forked for the next
line `ls` inherits both.  On the rejected line `ls | wc *.c` the two ends of
the pipe stay open in the parent as well. -/
theorem redirect_descriptors_stay_open :
    (runLine (World.withFiles ["in.txt"]) ["sort", "<", "in.txt", ">", "out.txt"]).os.log
      = [.sysopen "in.txt" O_RDONLY 0o644 3, .sysopen "out.txt" (O_WRONLY ||| O_CREAT) 0o644 4,
         .fork ⟨100, some "sort", ["sort"],
            [some (.file "in.txt" O_RDONLY 0o644),
             some (.file "out.txt" (O_WRONLY ||| O_CREAT) 0o644), some (.std 2),
             some (.file "in.txt" O_RDONLY 0o644),
             some (.file "out.txt" (O_WRONLY ||| O_CREAT) 0o644)]⟩,
         .waitpid (some 100)] ∧
    (World.withFiles ["in.txt"]).fdt = [some (.std 0), some (.std 1), some (.std 2)] ∧
    (runLine (World.withFiles ["in.txt"]) ["sort", "<", "in.txt", ">", "out.txt"]).os.fdt
      = [some (.std 0), some (.std 1), some (.std 2), some (.file "in.txt" O_RDONLY 0o644),
         some (.file "out.txt" (O_WRONLY ||| O_CREAT) 0o644)] ∧
    (forks (callsSince
        (runLine (World.withFiles ["in.txt"]) ["sort", "<", "in.txt", ">", "out.txt"]).os.log
        (runLine (runLine (World.withFiles ["in.txt"])
          ["sort", "<", "in.txt", ">", "out.txt"]).os ["ls"]).os.log)).map Child.fdt
      = [[some (.std 0), some (.std 1), some (.std 2), some (.file "in.txt" O_RDONLY 0o644),
          some (.file "out.txt" (O_WRONLY ||| O_CREAT) 0o644)]] ∧
    (runLine World.fresh ["ls", "|", "wc", "*.c"]).os.fdt
      = [some (.std 0), some (.std 1), some (.std 2), some (.pipeRead 0), some (.pipeWrite 0)] := by
  refine ⟨by decide, by decide, by decide, by decide, by decide⟩

/-! ## C13. The tokens of a line -/

/-- C13, as amended: for every line with fewer than 51 tokens, each shorter
than 100 bytes, where the tokens of a line are the maximal runs of characters
other than space and newline of the line up to its first NUL: every `strcpy`
of `readLineOfWords` stays inside its slot, nothing is printed, and the array
returned holds the tokens in order, followed by `NULL`; no token is empty, no
token contains a space, a newline or a NUL, and the tokens laid end to end are
the line up to its first NUL without its spaces and newlines. -/
theorem readLineOfWords_tokens (junk : Nat → String) (line : String)
    (h : (tokensOf line).length < MAX_NUM_WORDS)
    (hb : ∀ t ∈ tokensOf line, t.utf8ByteSize < MAX_WORD_LENGTH) :
    tokensOf line = (maximalRuns isDelim (cString line.toList)).map String.mk ∧
    copiesFit (MAX_NUM_WORDS + 1) 0 (strtok line.toList) = true ∧
    (∃ ws, readLineOfWords junk (some line) = (some ws, []) ∧
      ws.take ((tokensOf line).length + 1) = lineWords (tokensOf line)) ∧
    (∀ t ∈ tokensOf line,
      t ≠ "" ∧ ' ' ∉ t.toList ∧ '\n' ∉ t.toList ∧ Char.ofNat 0 ∉ t.toList) ∧
    ((tokensOf line).map String.toList).flatten
      = (cString line.toList).filter (fun c => !isDelim c) := by
  refine ⟨rfl, copiesFit_of_short line hb, readLineOfWords_take junk line h,
    tokensOf_mem line, ?_⟩
  unfold tokensOf
  rw [List.map_map]
  have : (String.toList ∘ String.mk) = (id : List Char → List Char) := by
    funext l; rfl
  rw [this, List.map_id, maximalRuns_flatten]

/-- C13, as amended, on the line ` ls  -l | wc`: four tokens, then `NULL`. -/
theorem readLineOfWords_tokens_witness :
    (tokensOf " ls  -l | wc\n").length < MAX_NUM_WORDS ∧
    (∀ t ∈ tokensOf " ls  -l | wc\n", t.utf8ByteSize < MAX_WORD_LENGTH) ∧
    ∃ ws, readLineOfWords (fun _ => "") (some " ls  -l | wc\n") = (some ws, []) ∧
      ws.take 5 = lineWords ["ls", "-l", "|", "wc"] := by
  have ht : tokensOf " ls  -l | wc\n" = ["ls", "-l", "|", "wc"] := by decide
  obtain ⟨_, _, ⟨ws, h1, h2⟩, _⟩ :=
    readLineOfWords_tokens (fun _ => "") " ls  -l | wc\n" (by decide) (by decide)
  rw [ht] at h2
  exact ⟨by decide, by decide, ws, h1, h2⟩

/-- C13 as stated fails: on the line `ls<TAB>-l` the array returned holds the
single token `ls<TAB>-l`, which contains a tab, while the maximal runs of
non-whitespace characters of the line are `ls` and `-l`.  A NUL ends the line
for `strtok`: of `a<NUL>b c` only the token `a` is returned.  A token of 100
bytes is copied past the end of its slot. -/
theorem tab_does_not_separate_tokens :
    (tokensOf "ls\t-l\n").length < MAX_NUM_WORDS ∧
    (readLineOfWords (fun _ => "") (some "ls\t-l\n")).1.map (fun ws => ws.take 2)
      = some [some "ls\t-l", none] ∧
    '\t' ∈ "ls\t-l".toList ∧ isWhitespace '\t' = true ∧
    (maximalRuns isWhitespace "ls\t-l\n".toList).map String.mk = ["ls", "-l"] ∧
    (readLineOfWords (fun _ => "")
        (some (String.mk ['a', Char.ofNat 0, 'b', ' ', 'c', '\n']))).1.map (fun ws => ws.take 2)
      = some [some "a", none] ∧
    (maximalRuns isWhitespace ['a', Char.ofNat 0, 'b', ' ', 'c', '\n']).map String.mk
      = [String.mk ['a', Char.ofNat 0, 'b'], "c"] ∧
    (tokensOf (String.mk (List.replicate 100 'a'))).length = 1 ∧
    copiesFit (MAX_NUM_WORDS + 1) 0 (strtok (List.replicate 100 'a')) = false := by
  decide

/-! ## C14. The limit on the number of tokens -/

set_option maxRecDepth 100000 in
/-- C14 fails on the code at a line of exactly 51 words: all 51 are stored,
none is left over, and yet the warning is printed and the array returned has
no `NULL` in it.  In general the warning is printed, and the sentinel left out,
exactly when the line has 51 tokens or more; the array then holds the first
51. -/
theorem warning_at_exactly_51_words :
    tokensOf (String.intercalate " " (List.replicate 51 "a") ++ "\n") = List.replicate 51 "a" ∧
    readLineOfWords (fun _ => "") (some (String.intercalate " " (List.replicate 51 "a") ++ "\n"))
      = (some (List.replicate 51 (some "a")),
          ["WARNING: line contains more than 51 words!\n"]) ∧
    (∀ (junk : Nat → String) (line : String), MAX_NUM_WORDS ≤ (tokensOf line).length →
      readLineOfWords junk (some line)
        = (some (((tokensOf line).take MAX_NUM_WORDS).map some),
            ["WARNING: line contains more than 51 words!\n"])) ∧
    (∀ (junk : Nat → String) (line : String), (tokensOf line).length < MAX_NUM_WORDS →
      ∃ ws, readLineOfWords junk (some line) = (some ws, []) ∧
        wordAt ws (tokensOf line).length = none) := by
  refine ⟨by decide, by decide, readLineOfWords_full, ?_⟩
  intro junk line h
  obtain ⟨ws, h1, _, h3⟩ := readLineOfWords_short junk line h
  exact ⟨ws, h1, by rw [h3, if_neg (by omega), if_pos rfl]⟩

/-! ## C15. Lines of at most 100 characters -/

/-- C15: a line of at most 100 characters, with or without a newline behind
it, splits on spaces and newlines into at most 50 tokens; the copying loop of
`readLineOfWords` stops with the index at that number, below
`MAX_NUM_WORDS = 51`; no warning is printed, and `NULL` is written at that
index, inside the array of 51 slots. -/
theorem short_line_keeps_sentinel (junk : Nat → String) (line : String)
    (h : line.length ≤ 100) :
    ∀ input, input = line ∨ input = line ++ "\n" →
      (tokensOf input).length ≤ 50 ∧
      (readLoop (MAX_NUM_WORDS + 1) 0 (strtok input.toList) (freshWords junk)).1
        = (tokensOf input).length ∧
      ∃ ws, readLineOfWords junk (some input) = (some ws, []) ∧ ws.length = MAX_NUM_WORDS ∧
        (tokensOf input).length < ws.length ∧ wordAt ws (tokensOf input).length = none := by
  intro input hin
  have hn : (tokensOf input).length ≤ 50 := by
    have := tokensOf_length_le line
    rcases hin with rfl | rfl
    · omega
    · rw [tokensOf_append_newline]; omega
  have hlt : (tokensOf input).length < MAX_NUM_WORDS := by
    unfold MAX_NUM_WORDS; omega
  refine ⟨hn, ?_, ?_⟩
  · rw [readLoop_index]
    exact Nat.min_eq_left (Nat.le_of_lt hlt)
  · obtain ⟨ws, h1, h2, h3⟩ := readLineOfWords_short junk input hlt
    exact ⟨ws, h1, h2, by rw [h2]; exact hlt, by rw [h3, if_neg (by omega), if_pos rfl]⟩

/-- C15 on the line `ls -l | wc` followed by a newline: `NULL` is written at
index 4. -/
theorem short_line_keeps_sentinel_witness :
    "ls -l | wc".length ≤ 100 ∧
    (tokensOf "ls -l | wc\n").length ≤ 50 ∧
    ∃ ws, readLineOfWords (fun _ => "") (some "ls -l | wc\n") = (some ws, []) ∧
      ws.length = MAX_NUM_WORDS ∧ wordAt ws 4 = none := by
  obtain ⟨h1, _, ws, h2, h3, _, h4⟩ :=
    short_line_keeps_sentinel (fun _ => "") "ls -l | wc" (by decide) "ls -l | wc\n"
      (Or.inr (by decide))
  have ht : (tokensOf "ls -l | wc\n").length = 4 := by decide
  rw [ht] at h4
  exact ⟨by decide, h1, ws, h2, h3, h4⟩

/-! ## C16. Progress of the segmenter and of the inner loop -/

/-- C16: when the array holds `n ≥ 1` words before its first `NULL` and
`processCommand` succeeds, the index `r` it returns satisfies `1 ≤ r ≤ n`, and
after the call `words[r]` is `NULL` (at the end of the line, or over a final
`&`) or a valid word that follows a `|`.  Hence, for a line of `n` tokens, the
values of `curIndex` at line 38 strictly increase and never pass the sentinel
at index `n`, there are at most `n` passes, and `n` passes are enough for the
inner loop to end. -/
theorem processCommand_advances :
    (∀ (s : Sh) (n : Nat), 1 ≤ n →
      (∀ j, j < n → wordAt s.words (s.curIndex + j) ≠ none) →
      wordAt s.words (s.curIndex + n) = none → (processCommand s).1 ≠ -1 →
      ∃ r : Nat, (processCommand s).1 = (r : Int) ∧ 1 ≤ r ∧ r ≤ n ∧
        ((wordAt (processCommand s).2.words (s.curIndex + r) = none ∧
            (r = n ∨ (r + 1 = n ∧ wordAt s.words (s.curIndex + r) = some "&"))) ∨
          (∃ w, wordAt (processCommand s).2.words (s.curIndex + r) = some w ∧
            isValidWord w = 1 ∧ wordAt s.words (s.curIndex + r) = some w ∧
            wordAt s.words (s.curIndex + (r - 1)) = some "|" ∧ r < n))) ∧
    (∀ (os : World) (ts : List String),
      List.Chain' (fun a b : Sh => a.curIndex < b.curIndex)
        (lineTrace ts.length (initSh os (lineWords ts))) ∧
      (∀ b ∈ lineTrace ts.length (initSh os (lineWords ts)), b.curIndex ≤ ts.length) ∧
      ((lineTrace ts.length (initSh os (lineWords ts))).filter
        (fun b => (wordAt b.words b.curIndex).isSome)).length ≤ ts.length ∧
      (∀ fuel, ts.length ≤ fuel →
        lineLoop fuel (initSh os (lineWords ts)) = lineLoop ts.length (initSh os (lineWords ts)) ∧
        lineTrace fuel (initSh os (lineWords ts))
          = lineTrace ts.length (initSh os (lineWords ts))) ∧
      (wordAt (lineLoop ts.length (initSh os (lineWords ts))).words
          (lineLoop ts.length (initSh os (lineWords ts))).curIndex = none ∨
        (lineLoop ts.length (initSh os (lineWords ts))).commandLength = some (-1))) := by
  constructor
  · intro s n hn hnn hnull hr
    obtain ⟨_, _, _, _, _, _, _, h8⟩ := processCommand_frame s
    rcases loop_stops (s.words.length + 1) 0 s (by omega) n (Nat.zero_le _)
      (fun j _ hj => hnn j hj) hnull with h | ⟨L, hL, _, hLn, hstop⟩
    · exact absurd h hr
    · have hL : (processCommand s).1 = (L : Int) := hL
      have hpos : 0 < L := by
        rcases h8 with h8 | ⟨L', hL', _, _, _, hc⟩
        · exact absurd h8 hr
        · have := hc (hnn 0 hn) rfl
          rw [hL] at hL'
          have : L = L' := Int.ofNat_inj.1 hL'
          omega
      refine ⟨L, hL, hpos, hLn, ?_⟩
      rcases hstop with ⟨h1, h2⟩ | ⟨h1, h2, h3⟩ | ⟨_, h1, h2, w, h3, h4, h5⟩
      · exact Or.inl ⟨h2, Or.inl h1⟩
      · exact Or.inl ⟨h3, Or.inr ⟨h1, h2⟩⟩
      · exact Or.inr ⟨w, h4, h5, h3, h2, h1⟩
  · intro os ts
    have h0 := firstNull_init os ts
    obtain ⟨h1, h2, h3⟩ := lineTrace_increasing ts.length _ _ h0
    obtain ⟨h4, h5⟩ := lineLoop_bound ts.length _ _ h0 (by simp [initSh])
    refine ⟨h1, h2, by simpa [initSh] using h3, fun fuel hf => ⟨?_, ?_⟩, h5⟩
    · exact h4 fuel (by simpa [initSh] using hf)
    · exact lineTrace_bound ts.length _ _ h0 (by simp [initSh]) fuel (by simpa [initSh] using hf)

/-- C16 on the line `ls -l | wc`: the first call returns 3, and `curIndex` is 0,
3 and 4 at line 38. -/
theorem processCommand_advances_witness :
    (processCommand (initSh World.fresh (lineWords ["ls", "-l", "|", "wc"]))).1 = 3 ∧
    (lineTrace 4 (initSh World.fresh (lineWords ["ls", "-l", "|", "wc"]))).map Sh.curIndex
      = [0, 3, 4] ∧
    ∃ r : Nat, (processCommand (initSh World.fresh (lineWords ["ls", "-l", "|", "wc"]))).1
        = (r : Int) ∧ 1 ≤ r ∧ r ≤ 4 := by
  obtain ⟨r, h1, h2, h3, _⟩ := processCommand_advances.1
    (initSh World.fresh (lineWords ["ls", "-l", "|", "wc"])) 4 (by decide) (by decide) (by decide)
    (by decide)
  exact ⟨by decide, by decide, r, h1, h2, h3⟩

/-! ## C17. The invariant of the inner loop -/

/-- C17: at every state `b` of the inner loop of `main` at line 38, for the line
with tokens `ts` and whatever the bound on the number of passes: `postpipe = (-1,-1)` and `redirOutFD = -1`; `redirInpFD ≥ 0`
exactly when the command just forked ended with `|` (the token before
`curIndex` is `|`); in that case `redirInpFD = prepipe[0]`, the descriptors
`prepipe[0]` and `prepipe[1]` are the read and the write end of the newest
pipe, created in the pass that led to `b`, and no other end of a pipe is open
in the parent that was not already open when the line started; otherwise
`redirInpFD = -1` and no end of a pipe is open that was not open when the line
started. -/
theorem line_boundary_invariant (os : World) (ts : List String) (fuel : Nat) :
    (∀ b ∈ lineTrace fuel (initSh os (lineWords ts)),
      b.postpipe = (-1, -1) ∧ b.redirOutFD = -1 ∧
      (0 ≤ b.redirInpFD ↔ (0 < b.curIndex ∧ ts[b.curIndex - 1]? = some "|")) ∧
      (0 ≤ b.redirInpFD →
        b.redirInpFD = b.prepipe.1 ∧ 0 < b.os.npipes ∧
        b.os.fdt.obj b.prepipe.1 = some (.pipeRead (b.os.npipes - 1)) ∧
        b.os.fdt.obj b.prepipe.2 = some (.pipeWrite (b.os.npipes - 1)) ∧
        PipesWithin os.fdt b.os.fdt [b.prepipe.1, b.prepipe.2]) ∧
      (b.redirInpFD < 0 → b.redirInpFD = -1 ∧ PipesWithin os.fdt b.os.fdt [])) ∧
    (∀ k a b, (lineTrace fuel (initSh os (lineWords ts)))[k]? = some a →
      (lineTrace fuel (initSh os (lineWords ts)))[k + 1]? = some b →
      (0 ≤ b.redirInpFD →
        pipesOf (callsSince a.os.log b.os.log) = [b.prepipe] ∧
        b.os.npipes = a.os.npipes + 1) ∧
      (b.redirInpFD < 0 →
        pipesOf (callsSince a.os.log b.os.log) = [] ∧ b.os.npipes = a.os.npipes)) := by
  obtain ⟨hI, hA⟩ := lineInv_init os ts
  exact lineTrace_inv ts os.fdt fuel _ hI hA

/-- C17 on the line `ls | wc`: the three states at line 38. -/
theorem line_boundary_invariant_witness :
    (lineTrace 3 (initSh World.fresh (lineWords ["ls", "|", "wc"]))).map
        (fun b => (b.curIndex, b.redirInpFD, b.prepipe, b.postpipe, b.redirOutFD))
      = [(0, -1, (-1, -1), (-1, -1), -1), (2, 3, (3, 4), (-1, -1), -1),
         (3, -1, (3, 4), (-1, -1), -1)] ∧
    ∀ b ∈ lineTrace 3 (initSh World.fresh (lineWords ["ls", "|", "wc"])),
      b.postpipe = (-1, -1) ∧ b.redirOutFD = -1 ∧
      (0 ≤ b.redirInpFD → b.redirInpFD = b.prepipe.1) :=
  ⟨by decide, fun b hb =>
    ⟨((line_boundary_invariant World.fresh ["ls", "|", "wc"] 3).1 b hb).1,
     ((line_boundary_invariant World.fresh ["ls", "|", "wc"] 3).1 b hb).2.1,
     fun h => (((line_boundary_invariant World.fresh ["ls", "|", "wc"] 3).1 b hb).2.2.2.1 h).1⟩⟩

/-! ## C18. The wait of a foreground line -/

/-- C18 fails on the code where the line forks no process: on the empty line
and on the line `| ls`, which is rejected in its first segment, `main` still
calls `waitpid`, on the variable `pid` that no `fork` has set.  In general a
foreground line ends with exactly one `waitpid` on `pid`: the pid of the last
process forked for the line when there is one, an unset variable otherwise. -/
theorem foreground_wait_without_fork :
    (runLine World.fresh []).os.log = [.waitpid none] ∧
    (runLine World.fresh ["|", "ls"]).os.log
      = [.print "ERROR: command cannot begin with an operator\n", .waitpid none] ∧
    (∀ (os : World) (ts : List String), (runLine os ts).shellWait ≠ 0 →
      waits (callsSince os.log (runLine os ts).os.log)
        = [((forks (callsSince os.log (runLine os ts).os.log)).getLast?).map Child.pid]) :=
  ⟨by decide, by decide, runLine_waits⟩

/-! ## C19. The first rejected segment ends the line -/

set_option maxRecDepth 100000 in
/-- C19 fails on the code at a line of 51 words, which has one segment and no
invalid word: the array `readLineOfWords` returns holds the 51 words in its 51
slots and no `NULL`, so the loop of `processCommand` (line 131), which stops
at a `NULL`, passes every slot and goes on to read `words[51]`, which is no
slot of the array.  For a line of fewer than 51 tokens, each shorter than 100
bytes, the code does as the claim says.  The line is handed over to `main`
intact.  Let `T` be the states of `main` at line 38 for the line `ts`.  Pass
`k` of the inner loop is made on segment `k`: it starts at the first token of
that segment, with the rest of the line untouched and `k` processes forked.
The processes forked for the line are one per segment in the order of the
segments, each executing the first token of its segment.  If the call of
`processCommand` in pass `k` returns -1, the line has forked exactly `k`
processes, there is no later pass, and the tokens behind the `|` that ends
segment `k` are left in the array as they were read; if no call returns -1
the line forks exactly one process per segment. -/
theorem first_rejected_segment_ends_line :
    (tokensOf (String.intercalate " " (List.replicate 51 "a") ++ "\n") = List.replicate 51 "a" ∧
      commands (List.replicate 51 "a") = [List.replicate 51 "a"] ∧
      (readLineOfWords (fun _ => "")
          (some (String.intercalate " " (List.replicate 51 "a") ++ "\n"))).1
        = some (List.replicate 51 (some "a")) ∧
      (List.replicate 51 (some "a") : Words).length = MAX_NUM_WORDS ∧
      (∀ i, i < MAX_NUM_WORDS → wordAt (List.replicate 51 (some "a")) i = some "a") ∧
      isValidWord "a" = 1 ∧
      (processCommand (initSh World.fresh (List.replicate 51 (some "a")))).1 = 51) ∧
    ∀ (os : World) (ts : List String), ts.length < MAX_NUM_WORDS →
      (∀ t ∈ ts, t.utf8ByteSize < MAX_WORD_LENGTH) →
      (∀ junk line, tokensOf line = ts → HandsOver ts junk line) ∧
      (∀ (k : Nat) (b : Sh), (lineTrace ts.length (initSh os (lineWords ts)))[k]? = some b →
        (wordAt b.words b.curIndex).isSome →
        k < (commands ts).length ∧ StartsSegment ts k b.curIndex ∧
        (∀ p, b.curIndex ≤ p → wordAt b.words p = ts[p]?) ∧
        (forks (callsSince os.log b.os.log)).length = k) ∧
      (∀ (i : Nat) (c : Child), (forks (callsSince os.log (runLine os ts).os.log))[i]? = some c →
        ∃ q, StartsSegment ts i q ∧ c.file = ts[q]? ∧
          c.argv = (ts.drop q).takeWhile (fun t => !isOperator t)) ∧
      (∀ (k : Nat) (b : Sh), (lineTrace ts.length (initSh os (lineWords ts)))[k]? = some b →
        (wordAt b.words b.curIndex).isSome → (processCommand b).1 = -1 →
        (forks (callsSince os.log (runLine os ts).os.log)).length = k ∧
        (lineTrace ts.length (initSh os (lineWords ts))).length = k + 1 ∧
        ∀ q, b.curIndex ≤ q → ts[q]? = some "|" → ∀ p, q < p →
          wordAt (runLine os ts).words p = ts[p]?) ∧
      ((∀ b ∈ lineTrace ts.length (initSh os (lineWords ts)),
          (wordAt b.words b.curIndex).isSome → (processCommand b).1 ≠ -1) →
        (forks (callsSince os.log (runLine os ts).os.log)).length = (commands ts).length) :=
  ⟨⟨by decide, by decide, by decide, by decide, by decide, by decide, by decide⟩,
    fun os ts hn hb => ⟨handsOver_of_limits ts hn hb, runLine_segments os ts⟩⟩

/-- C19 on the line `ls | wc *.c | sort`: the second segment is rejected, one
process has been forked, and `sort` is still in the array. -/
theorem first_rejected_segment_ends_line_witness :
    (processCommand (initSh World.fresh
      (lineWords ["ls", "|", "wc", "*.c", "|", "sort"])).afterCommand).1 = -1 ∧
    (forks (callsSince World.fresh.log
      (runLine World.fresh ["ls", "|", "wc", "*.c", "|", "sort"]).os.log)).length = 1 ∧
    wordAt (runLine World.fresh ["ls", "|", "wc", "*.c", "|", "sort"]).words 5 = some "sort" := by
  obtain ⟨h1, _, h3⟩ := (first_rejected_segment_ends_line.2 World.fresh
    ["ls", "|", "wc", "*.c", "|", "sort"] (by decide) (by decide)).2.2.2.1 1
    (initSh World.fresh (lineWords ["ls", "|", "wc", "*.c", "|", "sort"])).afterCommand
    (by decide) (by decide) (by decide)
  exact ⟨by decide, h1, h3 4 (by decide) (by decide) 5 (by decide)⟩

end Shell
